import Mathlib

/-!
Verification of the page-table cursor locking protocol
(`ostd/src/mm/page_table/cursor/locking.rs`).

The page-table tree is embedded as a nested inductive type: a node carries
its level, its stray flag, its lock state (whether some guard for it is
live) and its list of entries.  The traversal functions of `locking.rs`
are translated as functions from trees to trees; in addition the lock and
unlock walkers return the list of lock (resp. unlock) events, each event
being the path (list of slot indices) from the sub-tree root to the node
whose lock is taken (resp. released), in the order the events happen.
-/

namespace AsterinasPT

/-- Paging constants of `PagingConstsTrait`: the base page size, the
per-node fan-out (`nr_subpage_per_huge`) and the number of levels. -/
structure PagingConsts where
  base_page_size : Nat
  fanout : Nat
  nr_levels : Nat

/-- Modelled from the spec: the byte span covered by one entry at the given
level (helper `page_size::<C>(level)` is not under `src/`; §6 of the spec:
compute the byte span covered by one level).  One entry at level `l` covers
`base_page_size * fanout ^ (l - 1)` bytes, so a whole node at level `l`
covers `page_size (l + 1)` bytes. -/
def page_size (C : PagingConsts) (level : Nat) : Nat :=
  C.base_page_size * C.fanout ^ (level - 1)

/-- Modelled from the spec: the per-node fan-out (helper
`nr_subpage_per_huge::<C>()` is not under `src/`). -/
def nr_subpage_per_huge (C : PagingConsts) : Nat := C.fanout

/-- Modelled from the spec: the slot index for an address at a given level
(helper `pte_index::<C>(va, level)` is not under `src/`; §6 of the spec:
compute the slot index for an address at a given level). -/
def pte_index (C : PagingConsts) (va : Nat) (level : Nat) : Nat :=
  va / page_size C level % C.fanout

mutual
/-- A page-table node: its paging level, its stray flag, whether its lock
is currently held, and its entries. -/
inductive PTNode : Type where
  | mk (level : Nat) (stray : Bool) (locked : Bool) (entries : List Child)

/-- One slot of a node, as the `Child` view used by `locking.rs`:
absent, a tracked leaf frame, an untracked leaf range, an owned unlinked
page table, or a reference to a live child node. -/
inductive Child : Type where
  | None
  | Frame
  | Untracked
  | PageTable
  | PageTableRef (node : PTNode)
end

def PTNode.level : PTNode → Nat
  | .mk l _ _ _ => l

def PTNode.stray : PTNode → Bool
  | .mk _ s _ _ => s

def PTNode.locked : PTNode → Bool
  | .mk _ _ k _ => k

def PTNode.entries : PTNode → List Child
  | .mk _ _ _ es => es

/-- Set the lock state of a node (acquiring or releasing its lock). -/
def setLocked : PTNode → Bool → PTNode
  | .mk l s _ es, b => .mk l s b es

@[simp]
theorem sizeOf_setLocked (n : PTNode) (b : Bool) :
    sizeOf (setLocked n b) = sizeOf n := by
  cases n with
  | mk l s k es => cases b <;> cases k <;> simp [setLocked]

/-- Follow a path of slot indices through `PageTableRef` entries. -/
def nodeAt : List Nat → PTNode → Option PTNode
  | [], n => some n
  | i :: q, n =>
    match n.entries[i]? with
    | some (.PageTableRef c) => nodeAt q c
    | _ => none

/-- Whether the node at the given path exists and its lock is held. -/
def lockedAt (t : PTNode) (q : List Nat) : Bool :=
  match nodeAt q t with
  | some n => n.locked
  | none => false

/-- Whether the node at the given path exists and is marked stray. -/
def strayAt (t : PTNode) (q : List Nat) : Bool :=
  match nodeAt q t with
  | some n => n.stray
  | none => false

mutual
/-- Well-formedness of a sub-tree at an expected level: the stored level
matches, the entry list has the full fan-out length, levels are at least 1,
child-node references only occur above level 1 and point one level down,
and no entry holds an owned unlinked `Child::PageTable` (a live node read
through `Entry::to_ref` never yields one). -/
def WFb (C : PagingConsts) : Nat → PTNode → Bool
  | lvl, .mk l _ _ es =>
    decide (l = lvl) && decide (es.length = C.fanout) && decide (1 ≤ lvl) &&
      WFentries C lvl es

def WFentries (C : PagingConsts) : Nat → List Child → Bool
  | _, [] => true
  | lvl, e :: rest =>
    (match e with
     | .PageTableRef c => decide (2 ≤ lvl) && WFb C (lvl - 1) c
     | .PageTable => false
     | _ => true) && WFentries C lvl rest
end

mutual
/-- No node of the sub-tree is marked stray. -/
def noStray : PTNode → Bool
  | .mk _ s _ es => !s && noStrayEntries es

def noStrayEntries : List Child → Bool
  | [] => true
  | .PageTableRef c :: rest => noStray c && noStrayEntries rest
  | _ :: rest => noStrayEntries rest
end

mutual
/-- No node of the sub-tree has its lock held. -/
def allUnlocked : PTNode → Bool
  | .mk _ _ k es => !k && allUnlockedEntries es

def allUnlockedEntries : List Child → Bool
  | [] => true
  | .PageTableRef c :: rest => allUnlocked c && allUnlockedEntries rest
  | _ :: rest => allUnlockedEntries rest
end

/-- Embedding of `dfs_get_idx_range::<C>(cur_node_level, cur_node_va,
va_range)`: the pair `(start_idx, end_idx)` of the half-open range of slot
indices of the node at `cur_node_va` that intersect `[vs, ve)`.
`end_idx` uses `div_ceil` as in the source. -/
def dfs_get_idx_range (C : PagingConsts) (cur_node_level : Nat)
    (cur_node_va vs ve : Nat) : Nat × Nat :=
  let start_idx := (vs - cur_node_va) / page_size C cur_node_level
  let end_idx :=
    (ve - cur_node_va + (page_size C cur_node_level - 1)) /
      page_size C cur_node_level
  (start_idx, end_idx)

mutual
/-- Embedding of `dfs_acquire_lock(guard, cur_node, cur_node_va,
va_range)`.  The input node stands for the already locked `cur_node`
guard.  Returns the sub-tree with every additionally acquired lock still
held (the source forgets every child guard through `ManuallyDrop`),
together with the list of lock events in order: each event is the path
from `cur_node` to the node being locked. -/
def dfs_acquire_lock (C : PagingConsts) (cur_node : PTNode)
    (cur_node_va vs ve : Nat) : PTNode × List (List Nat) :=
  match cur_node with
  | .mk cur_level st lk es =>
    if cur_level ≤ 1 then (.mk cur_level st lk es, [])
    else
      let r := dfs_get_idx_range C cur_level cur_node_va vs ve
      let p := acquireEntries C cur_level cur_node_va vs ve r.1 r.2 es 0
      (.mk cur_level st lk p.1, p.2)
termination_by sizeOf cur_node
decreasing_by
  all_goals simp_wf
  all_goals omega

/-- The per-entry loop of `dfs_acquire_lock`: iterate the slots in
ascending index order (the list is processed head first and `i` is the
index of the head).  A `PageTableRef` child whose index is in the range is
locked (`pt.lock(guard)`), recursed into with the intersected sub-range,
and its guard forgotten; other children are skipped. -/
def acquireEntries (C : PagingConsts) (cur_level cur_node_va vs ve lo hi : Nat) :
    List Child → Nat → List Child × List (List Nat)
  | [], _ => ([], [])
  | e :: rest, i =>
    let p := acquireEntries C cur_level cur_node_va vs ve lo hi rest (i + 1)
    if lo ≤ i ∧ i < hi then
      match e with
      | .PageTableRef c =>
        let child_node_va := cur_node_va + i * page_size C cur_level
        let child_node_va_end := child_node_va + page_size C cur_level
        let va_start := max vs child_node_va
        let va_end := min ve child_node_va_end
        let q := dfs_acquire_lock C (setLocked c true) child_node_va va_start va_end
        (.PageTableRef q.1 :: p.1, ([i] :: q.2.map (fun s => i :: s)) ++ p.2)
      | x => (x :: p.1, p.2)
    else (e :: p.1, p.2)
termination_by es i => sizeOf es
decreasing_by
  all_goals simp_wf
  all_goals try simp only [sizeOf_setLocked]
  all_goals omega
end

mutual
/-- Embedding of `dfs_release_lock(guard, cur_node, cur_node_va,
va_range)`.  The input node stands for the re-materialized guard of the
locked `cur_node`; the function releases the locks of the sub-tree that
acquisition took, the node itself last (its guard is dropped when the
function returns).  Returns the sub-tree and the unlock events in order. -/
def dfs_release_lock (C : PagingConsts) (cur_node : PTNode)
    (cur_node_va vs ve : Nat) : PTNode × List (List Nat) :=
  match cur_node with
  | .mk cur_level st _ es =>
    if cur_level ≤ 1 then (.mk cur_level st false es, [[]])
    else
      let r := dfs_get_idx_range C cur_level cur_node_va vs ve
      let p := releaseEntries C cur_level cur_node_va vs ve r.1 r.2 es 0
      (.mk cur_level st false p.1, p.2 ++ [[]])
termination_by sizeOf cur_node
decreasing_by
  all_goals simp_wf
  all_goals omega

/-- The per-entry loop of `dfs_release_lock`: the source iterates
`idx_range.rev()`, so the events of the tail (higher indices) come before
the events of the head.  A `PageTableRef` child in the range has its guard
re-materialized (`make_guard_unchecked`, which does not re-acquire) and is
recursed into with the intersected sub-range. -/
def releaseEntries (C : PagingConsts) (cur_level cur_node_va vs ve lo hi : Nat) :
    List Child → Nat → List Child × List (List Nat)
  | [], _ => ([], [])
  | e :: rest, i =>
    let p := releaseEntries C cur_level cur_node_va vs ve lo hi rest (i + 1)
    if lo ≤ i ∧ i < hi then
      match e with
      | .PageTableRef c =>
        let child_node_va := cur_node_va + i * page_size C cur_level
        let child_node_va_end := child_node_va + page_size C cur_level
        let va_start := max vs child_node_va
        let va_end := min ve child_node_va_end
        let q := dfs_release_lock C c child_node_va va_start va_end
        (.PageTableRef q.1 :: p.1, p.2 ++ q.2.map (fun s => i :: s))
      | x => (x :: p.1, p.2)
    else (e :: p.1, p.2)
termination_by es i => sizeOf es
decreasing_by
  all_goals simp_wf
  all_goals omega
end

mutual
/-- Embedding of `dfs_mark_stray_and_unlock(rcu_guard, sub_tree)`, exactly
as written in the source: it sets the stray flag of `sub_tree`, then — the
source reads `if sub_tree.level() > 1 { return; }` — returns early for any
node above level 1, so the loop over all `nr_subpage_per_huge` slots (in
reverse index order) only runs for nodes at level 1 or below.  The node's
own guard is dropped when the function returns, releasing its lock. -/
def dfs_mark_stray_and_unlock (C : PagingConsts) (sub_tree : PTNode) : PTNode :=
  match sub_tree with
  | .mk lvl _ _ es =>
    if 1 < lvl then .mk lvl true false es
    else .mk lvl true false (markEntries C es)

/-- The per-entry loop of `dfs_mark_stray_and_unlock` over every slot:
recurse into `PageTableRef` children, skip the rest.  (The iteration order
is immaterial for the resulting tree.) -/
def markEntries (C : PagingConsts) : List Child → List Child
  | [] => []
  | e :: rest =>
    (match e with
     | .PageTableRef c => Child.PageTableRef (dfs_mark_stray_and_unlock C c)
     | x => x) :: markEntries C rest
end

/-- Replace the sub-tree at the given path (used to graft the result of a
sub-tree walk back into the whole tree).  If the path does not lead
through `PageTableRef` entries, the tree is returned unchanged. -/
def replaceAt : List Nat → PTNode → PTNode → PTNode
  | [], _, sub => sub
  | i :: q, .mk l s k es, sub =>
    match es[i]? with
    | some (.PageTableRef c) =>
      .mk l s k (es.set i (.PageTableRef (replaceAt q c sub)))
    | _ => .mk l s k es

/-- Embedding of `try_traverse_and_lock_subtree_root(pt, guard, va,
new_pt_is_tracked)`.  The loop over `cur_level` from `NR_LEVELS` down to 1
becomes recursion on `cur_level`; `n` is the node at `cur_pt_addr` and
`guarded` tells whether `cur_node_guard` currently holds its guard (in
which case `n.locked` is true).  Returns the updated tree together with
`none` (a stray node was locked: retry) or `some rp`, the path from `n` to
the locked sub-tree root. -/
def try_traverse_and_lock_subtree_root (C : PagingConsts) :
    Nat → PTNode → Bool → Nat → Nat → PTNode × Option (List Nat)
  | cur_level, n, guarded, vs, ve =>
    let start_idx := pte_index C vs cur_level
    -- `level_too_high` of the source: the whole range maps to one slot at
    -- this level, so the sub-tree root is deeper; `!level_too_high` breaks
    -- out of the loop.
    if h : 1 < cur_level ∧ start_idx = pte_index C (ve - 1) cur_level then
      match n.entries[start_idx]? with
      | some (.PageTableRef c) =>
        -- the PTE is present and not a leaf: descend without locking;
        -- `cur_node_guard = None` drops the current guard if it was held.
        let n1 := if guarded then setLocked n false else n
        let p := try_traverse_and_lock_subtree_root C (cur_level - 1) c false vs ve
        (.mk n1.level n1.stray n1.locked (n1.entries.set start_idx (.PageTableRef p.1)),
          p.2.map (fun rp => start_idx :: rp))
      | some .Frame | some .Untracked | some .PageTable =>
        -- the PTE is present and a leaf mapping (`is_last`): break, lock
        -- the current node and check its stray flag.
        let ng := if guarded then n else setLocked n true
        if ng.stray then (setLocked ng false, none) else (ng, some [])
      | some .None | none =>
        -- the child is absent: lock the current node (unless already
        -- guarded), check stray, allocate a new locked child node for the
        -- slot and continue into it; the current node's guard (`pt_guard`)
        -- is dropped at the end of the loop iteration.
        let ng := if guarded then n else setLocked n true
        if ng.stray then (setLocked ng false, none)
        else
          let fresh : PTNode :=
            .mk (cur_level - 1) false true (List.replicate C.fanout .None)
          let p := try_traverse_and_lock_subtree_root C (cur_level - 1) fresh true vs ve
          let parent := setLocked ng false
          (.mk parent.level parent.stray parent.locked
              (parent.entries.set start_idx (.PageTableRef p.1)),
            p.2.map (fun rp => start_idx :: rp))
    else
      -- break out of the loop: lock the node reached (unless the guard is
      -- already held from an allocation) and check its stray flag.
      let ng := if guarded then n else setLocked n true
      if ng.stray then (setLocked ng false, none) else (ng, some [])
  termination_by cur_level => cur_level
  decreasing_by all_goals omega

/-- The cursor built by `lock_range`: the per-level array of optional
guards (index `i` holds the guard path of a level-`i + 1` node), the level
of the sub-tree root, and the locked range `barrier_va`.  Guards are
represented by the path of the guarded node from the tree root. -/
structure Cursor where
  path : List (Option (List Nat))
  guard_level : Nat
  barrier_vs : Nat
  barrier_ve : Nat

/-- Embedding of `lock_range(pt, guard, va, new_pt_is_tracked)`: find and
lock the sub-tree root, then DFS-acquire the locks of the sub-tree, then
build the cursor whose only stored guard is the sub-tree root at
`path[guard_level - 1]`.  The source retries the locator in a loop until
it succeeds; re-running it in this sequential embedding is the same
computation, so the loop is rendered as a single attempt and `none` stands
for the (forever retrying) stray outcome. -/
def lock_range (C : PagingConsts) (t : PTNode) (vs ve : Nat) :
    Option (PTNode × Cursor) :=
  match try_traverse_and_lock_subtree_root C C.nr_levels t false vs ve with
  | (_, Option.none) => none
  | (t1, some rp) =>
    match nodeAt rp t1 with
    | Option.none => none
    | some subtree_root =>
      let guard_level := subtree_root.level
      let cur_node_va :=
        vs / page_size C (guard_level + 1) * page_size C (guard_level + 1)
      let p := dfs_acquire_lock C subtree_root cur_node_va vs ve
      let path : List (Option (List Nat)) :=
        (List.range C.nr_levels).map
          (fun i => if i = guard_level - 1 then some rp else Option.none)
      some (replaceAt rp t1 p.1,
        { path := path, guard_level := guard_level,
          barrier_vs := vs, barrier_ve := ve })

/-- Embedding of `unlock_range(cursor)`: first each guard stored in
`cursor.path` strictly below the guard level is taken and forgotten
through `ManuallyDrop` — contributing no unlock event and no change to any
lock — then the guard-level node is taken and the sub-tree is released by
`dfs_release_lock`.  Returns the tree and the unlock events (as paths from
the tree root). -/
def unlock_range (C : PagingConsts) (t : PTNode) (cursor : Cursor) :
    PTNode × List (List Nat) :=
  let forgotten := cursor.path.take (cursor.guard_level - 1)
  match (cursor.path[cursor.guard_level - 1]?).join with
  | Option.none => (t, [])
  | some rp =>
    match nodeAt rp t with
    | Option.none => (t, [])
    | some guard_node =>
      let cur_node_va :=
        cursor.barrier_vs / page_size C (cursor.guard_level + 1) *
          page_size C (cursor.guard_level + 1)
      let p := dfs_release_lock C guard_node cur_node_va
          cursor.barrier_vs cursor.barrier_ve
      let _ := forgotten
      (replaceAt rp t p.1, p.2.map (fun s => rp ++ s))

/-- The virtual address of the node reached from a node with base address
`b` at level `lvl` by following the path of slot indices. -/
def vaOfPath (C : PagingConsts) : Nat → Nat → List Nat → Nat
  | b, _, [] => b
  | b, lvl, i :: q => vaOfPath C (b + i * page_size C lvl) (lvl - 1) q

/-- Whether the single-level coverage of the node at path `q` below a node
with base address `b` at level `lvl` intersects the range `[vs, ve)`. -/
def coverIntersects (C : PagingConsts) (b lvl : Nat) (q : List Nat)
    (vs ve : Nat) : Prop :=
  vaOfPath C b lvl q < ve ∧
    vs < vaOfPath C b lvl q + page_size C (lvl - q.length + 1)

/-! ### Helper lemmas about the tree model -/

@[simp]
theorem nodeAt_nil (n : PTNode) : nodeAt [] n = some n := rfl

theorem nodeAt_cons_ref {es : List Child} {i : Nat} {c : PTNode}
    (l : Nat) (s k : Bool) (q : List Nat)
    (h : es[i]? = some (.PageTableRef c)) :
    nodeAt (i :: q) (.mk l s k es) = nodeAt q c := by
  simp [nodeAt, PTNode.entries, h]

theorem nodeAt_cons_other {es : List Child} {i : Nat}
    (l : Nat) (s k : Bool) (q : List Nat)
    (h : ∀ c, es[i]? ≠ some (.PageTableRef c)) :
    nodeAt (i :: q) (.mk l s k es) = none := by
  cases he : es[i]? with
  | none => simp [nodeAt, PTNode.entries, he]
  | some e =>
    cases e with
    | PageTableRef c => exact absurd he (h c)
    | None => simp [nodeAt, PTNode.entries, he]
    | Frame => simp [nodeAt, PTNode.entries, he]
    | Untracked => simp [nodeAt, PTNode.entries, he]
    | PageTable => simp [nodeAt, PTNode.entries, he]

@[simp]
theorem lockedAt_nil (l : Nat) (s k : Bool) (es : List Child) :
    lockedAt (.mk l s k es) [] = k := rfl

theorem lockedAt_cons_ref {es : List Child} {i : Nat} {c : PTNode}
    (l : Nat) (s k : Bool) (q : List Nat)
    (h : es[i]? = some (.PageTableRef c)) :
    lockedAt (.mk l s k es) (i :: q) = lockedAt c q := by
  simp [lockedAt, nodeAt_cons_ref l s k q h]

theorem lockedAt_cons_other {es : List Child} {i : Nat}
    (l : Nat) (s k : Bool) (q : List Nat)
    (h : ∀ c, es[i]? ≠ some (.PageTableRef c)) :
    lockedAt (.mk l s k es) (i :: q) = false := by
  simp [lockedAt, nodeAt_cons_other l s k q h]

theorem WFb_mk_iff (C : PagingConsts) (lvl : Nat) (l : Nat) (s k : Bool)
    (es : List Child) :
    WFb C lvl (.mk l s k es) = true ↔
      l = lvl ∧ es.length = C.fanout ∧ 1 ≤ lvl ∧ WFentries C lvl es = true := by
  simp [WFb, Bool.and_eq_true, decide_eq_true_iff, and_assoc]

theorem WFentries_mem {C : PagingConsts} {lvl : Nat} {es : List Child}
    (h : WFentries C lvl es = true) {c : PTNode}
    (hm : Child.PageTableRef c ∈ es) :
    2 ≤ lvl ∧ WFb C (lvl - 1) c = true := by
  induction es with
  | nil => cases hm
  | cons e rest ih =>
    rcases List.mem_cons.mp hm with he | hm2
    · subst he
      simp only [WFentries, Bool.and_eq_true, decide_eq_true_iff] at h
      exact ⟨h.1.1, h.1.2⟩
    · cases e <;>
        (simp only [WFentries, Bool.and_eq_true] at h; exact ih h.2 hm2)

theorem WFentries_no_pagetable {C : PagingConsts} {lvl : Nat} {es : List Child}
    (h : WFentries C lvl es = true) : Child.PageTable ∉ es := by
  induction es with
  | nil => simp
  | cons e rest ih =>
    intro hm
    rcases List.mem_cons.mp hm with he | hm2
    · rw [← he] at h
      simp only [WFentries, Bool.and_eq_true] at h
      simpa using h.1
    · cases e <;>
        (simp only [WFentries, Bool.and_eq_true] at h; exact ih h.2 hm2)

theorem WFentries_ref {C : PagingConsts} {lvl : Nat} {es : List Child}
    (h : WFentries C lvl es = true) {j : Nat} {c : PTNode}
    (hj : es[j]? = some (.PageTableRef c)) :
    2 ≤ lvl ∧ WFb C (lvl - 1) c = true :=
  WFentries_mem h (List.getElem?_mem hj)

/-- Under well-formedness, a level-1 node has no child-node entries. -/
theorem WFentries_level_one {C : PagingConsts} {es : List Child}
    (h : WFentries C 1 es = true) {j : Nat} {c : PTNode} :
    es[j]? ≠ some (.PageTableRef c) := by
  intro hj
  have := (WFentries_ref h hj).1
  omega

theorem noStrayEntries_mem {es : List Child}
    (h : noStrayEntries es = true) {c : PTNode}
    (hm : Child.PageTableRef c ∈ es) : noStray c = true := by
  induction es with
  | nil => cases hm
  | cons e rest ih =>
    rcases List.mem_cons.mp hm with he | hm2
    · subst he
      rw [noStrayEntries, Bool.and_eq_true] at h
      exact h.1
    · cases e with
      | PageTableRef c2 =>
        rw [noStrayEntries, Bool.and_eq_true] at h
        exact ih h.2 hm2
      | None => exact ih h hm2
      | Frame => exact ih h hm2
      | Untracked => exact ih h hm2
      | PageTable => exact ih h hm2

/-! ### Basic facts about the paging constants -/

theorem page_size_pos (C : PagingConsts) (hb : 0 < C.base_page_size)
    (hf : 0 < C.fanout) (lvl : Nat) : 0 < page_size C lvl := by
  exact Nat.mul_pos hb (Nat.pos_pow_of_pos _ hf)

theorem page_size_succ (C : PagingConsts) (lvl : Nat) (h : 1 ≤ lvl) :
    page_size C (lvl + 1) = page_size C lvl * C.fanout := by
  unfold page_size
  rw [Nat.mul_assoc, ← pow_succ]
  congr 2
  omega

/-! ### Coverage arithmetic -/

@[simp]
theorem vaOfPath_nil (C : PagingConsts) (b lvl : Nat) :
    vaOfPath C b lvl [] = b := rfl

@[simp]
theorem vaOfPath_cons (C : PagingConsts) (b lvl i : Nat) (q : List Nat) :
    vaOfPath C b lvl (i :: q) =
      vaOfPath C (b + i * page_size C lvl) (lvl - 1) q := rfl

theorem le_vaOfPath (C : PagingConsts) :
    ∀ (q : List Nat) (b lvl : Nat), b ≤ vaOfPath C b lvl q := by
  intro q
  induction q with
  | nil => intro b lvl; simp
  | cons i q ih =>
    intro b lvl
    calc b ≤ b + i * page_size C lvl := Nat.le_add_right _ _
    _ ≤ vaOfPath C (b + i * page_size C lvl) (lvl - 1) q := ih _ _
    _ = vaOfPath C b lvl (i :: q) := rfl

/-- The single-level coverage of any node reachable in a well-formed
sub-tree is contained in the coverage of the sub-tree root. -/
theorem vaOfPath_add_size_le (C : PagingConsts) (hf : 0 < C.fanout) :
    ∀ (q : List Nat) (n : PTNode) (lvl b : Nat),
      WFb C lvl n = true → (nodeAt q n).isSome = true →
      vaOfPath C b lvl q + page_size C (lvl - q.length + 1) ≤
        b + page_size C (lvl + 1) := by
  intro q
  induction q with
  | nil => intro n lvl b _ _; simp
  | cons i q ih =>
    intro n lvl b hwf hsome
    cases n with
    | mk l s k es =>
      obtain ⟨hl, hlen, hlvl1, hents⟩ := (WFb_mk_iff C lvl l s k es).mp hwf
      cases he : es[i]? with
      | none => rw [nodeAt_cons_other l s k q (by simp [he])] at hsome; simp at hsome
      | some e =>
        cases e with
        | PageTableRef c =>
          rw [nodeAt_cons_ref l s k q he] at hsome
          obtain ⟨hlvl2, hwfc⟩ := WFentries_ref hents he
          have hi : i < C.fanout := by
            have := (List.getElem?_eq_some.mp he).1
            omega
          have hih := ih c (lvl - 1) (b + i * page_size C lvl) hwfc hsome
          have hsz : lvl - 1 - q.length + 1 = lvl - (i :: q).length + 1 := by
            simp only [List.length_cons]
            omega
          rw [hsz] at hih
          have hstep : page_size C (lvl - 1 + 1) = page_size C lvl := by
            congr 1
            omega
          rw [hstep] at hih
          have hmul : page_size C (lvl + 1) = page_size C lvl * C.fanout :=
            page_size_succ C lvl hlvl1
          have hbound : i * page_size C lvl + page_size C lvl ≤
              page_size C lvl * C.fanout := by
            have h1 : (i + 1) * page_size C lvl ≤ C.fanout * page_size C lvl :=
              Nat.mul_le_mul_right _ (by omega)
            have h2 : (i + 1) * page_size C lvl =
                i * page_size C lvl + page_size C lvl := Nat.succ_mul _ _
            have h3 : C.fanout * page_size C lvl = page_size C lvl * C.fanout :=
              Nat.mul_comm _ _
            omega
          rw [vaOfPath_cons]
          omega
        | None => rw [nodeAt_cons_other l s k q (by simp [he])] at hsome; simp at hsome
        | Frame => rw [nodeAt_cons_other l s k q (by simp [he])] at hsome; simp at hsome
        | Untracked => rw [nodeAt_cons_other l s k q (by simp [he])] at hsome; simp at hsome
        | PageTable => rw [nodeAt_cons_other l s k q (by simp [he])] at hsome; simp at hsome

/-- A slot index is in the range computed by `dfs_get_idx_range` exactly
when the child slot's coverage intersects the requested range. -/
theorem idx_range_mem_iff (C : PagingConsts) (lvl b vs ve i : Nat)
    (hps : 0 < page_size C lvl) (hb : b ≤ vs) (hv : vs < ve) :
    ((dfs_get_idx_range C lvl b vs ve).1 ≤ i ∧
        i < (dfs_get_idx_range C lvl b vs ve).2) ↔
      (b + i * page_size C lvl < ve ∧
        vs < b + (i + 1) * page_size C lvl) := by
  unfold dfs_get_idx_range
  simp only
  have h1 : ((vs - b) / page_size C lvl ≤ i) ↔
      vs - b < (i + 1) * page_size C lvl := by
    rw [← Nat.lt_succ_iff, Nat.div_lt_iff_lt_mul hps]
  have h2 : (i < (ve - b + (page_size C lvl - 1)) / page_size C lvl) ↔
      (i + 1) * page_size C lvl ≤ ve - b + (page_size C lvl - 1) := by
    rw [← Nat.succ_le_iff, Nat.le_div_iff_mul_le hps]
  rw [h1, h2]
  have h3 : (i + 1) * page_size C lvl = i * page_size C lvl + page_size C lvl :=
    Nat.succ_mul _ _
  omega

/-! ### C9: the slot-index range is non-empty and within the fan-out -/

/-- C9: for every node level `L ≥ 1`, node base address `cur_node_va`, and
address range with `cur_node_va ≤ vs`, `ve ≤ cur_node_va + page_size (L+1)`
and `vs < ve`, `dfs_get_idx_range` returns a non-empty slot-index range
whose end does not exceed `nr_subpage_per_huge`, so every subsequent
`entry(i)` access of the DFS walkers is within bounds. -/
theorem dfs_get_idx_range_in_bounds (C : PagingConsts) (L cur_node_va vs ve : Nat)
    (hb : 0 < C.base_page_size) (hf : 0 < C.fanout) (hL : 1 ≤ L)
    (h1 : cur_node_va ≤ vs) (h2 : vs < ve)
    (h3 : ve ≤ cur_node_va + page_size C (L + 1)) :
    (dfs_get_idx_range C L cur_node_va vs ve).1 <
        (dfs_get_idx_range C L cur_node_va vs ve).2 ∧
      (dfs_get_idx_range C L cur_node_va vs ve).2 ≤ nr_subpage_per_huge C := by
  have hps : 0 < page_size C L := page_size_pos C hb hf L
  have hmul : page_size C (L + 1) = page_size C L * C.fanout := page_size_succ C L hL
  unfold dfs_get_idx_range
  simp only
  constructor
  · have hstart : (vs - cur_node_va) / page_size C L * page_size C L ≤ vs - cur_node_va :=
      Nat.div_mul_le_self _ _
    rw [← Nat.succ_le_iff, Nat.le_div_iff_mul_le hps]
    have hd : ((vs - cur_node_va) / page_size C L).succ * page_size C L =
        (vs - cur_node_va) / page_size C L * page_size C L + page_size C L :=
      Nat.succ_mul _ _
    omega
  · rw [← Nat.lt_succ_iff, Nat.div_lt_iff_lt_mul hps]
    have hd : (nr_subpage_per_huge C).succ * page_size C L =
        C.fanout * page_size C L + page_size C L := Nat.succ_mul _ _
    have hd2 : C.fanout * page_size C L = page_size C L * C.fanout := Nat.mul_comm _ _
    omega

/-- C9 witness: the theorem applied at a concrete input. -/
theorem dfs_get_idx_range_in_bounds_witness :
    ((0:Nat) < 4 ∧ (0:Nat) < 2 ∧ (1:Nat) ≤ 1 ∧ (0:Nat) ≤ 1 ∧ (1:Nat) < 5 ∧
      (5:Nat) ≤ 0 + page_size ⟨4, 2, 2⟩ (1 + 1)) ∧
    ((dfs_get_idx_range ⟨4, 2, 2⟩ 1 0 1 5).1 <
        (dfs_get_idx_range ⟨4, 2, 2⟩ 1 0 1 5).2 ∧
      (dfs_get_idx_range ⟨4, 2, 2⟩ 1 0 1 5).2 ≤ nr_subpage_per_huge ⟨4, 2, 2⟩) :=
  ⟨⟨by decide, by decide, by decide, by decide, by decide, by decide⟩,
    dfs_get_idx_range_in_bounds ⟨4, 2, 2⟩ 1 0 1 5 (by decide) (by decide)
      (by decide) (by decide) (by decide) (by decide)⟩

/-! ### Facts about `setLocked` -/

@[simp]
theorem level_setLocked (n : PTNode) (b : Bool) :
    (setLocked n b).level = n.level := by
  cases n; simp [setLocked, PTNode.level]

@[simp]
theorem entries_setLocked (n : PTNode) (b : Bool) :
    (setLocked n b).entries = n.entries := by
  cases n; simp [setLocked, PTNode.entries]

@[simp]
theorem locked_setLocked (n : PTNode) (b : Bool) :
    (setLocked n b).locked = b := by
  cases n; rfl

@[simp]
theorem WFb_setLocked (C : PagingConsts) (lvl : Nat) (n : PTNode) (b : Bool) :
    WFb C lvl (setLocked n b) = WFb C lvl n := by
  cases n; simp [setLocked, WFb]

theorem nodeAt_setLocked_cons (n : PTNode) (b : Bool) (i : Nat) (q : List Nat) :
    nodeAt (i :: q) (setLocked n b) = nodeAt (i :: q) n := by
  cases n; simp [setLocked, nodeAt, PTNode.entries]

theorem isSome_nodeAt_setLocked (n : PTNode) (b : Bool) (q : List Nat) :
    (nodeAt q (setLocked n b)).isSome = (nodeAt q n).isSome := by
  cases q with
  | nil => simp
  | cons i q => rw [nodeAt_setLocked_cons]

theorem lockedAt_setLocked_cons (n : PTNode) (b : Bool) (i : Nat) (q : List Nat) :
    lockedAt (setLocked n b) (i :: q) = lockedAt n (i :: q) := by
  unfold lockedAt
  rw [nodeAt_setLocked_cons]

@[simp]
theorem lockedAt_setLocked_nil (n : PTNode) (b : Bool) :
    lockedAt (setLocked n b) [] = b := by
  cases n; rfl

theorem sizeOf_lt_of_ref_mem {c : PTNode} {es : List Child}
    (h : Child.PageTableRef c ∈ es) (l : Nat) (s k : Bool) :
    sizeOf c < sizeOf (PTNode.mk l s k es) := by
  have h1 := List.sizeOf_lt_of_mem h
  have h2 : sizeOf (Child.PageTableRef c) = 1 + sizeOf c := by simp
  have h3 : sizeOf (PTNode.mk l s k es) =
      1 + sizeOf l + sizeOf s + sizeOf k + sizeOf es := by simp
  omega

/-! ### Case equations for the acquisition walker -/

/-- The recursive call that `dfs_acquire_lock` makes for the in-range
child slot `i` holding a reference to `c`. -/
def childCall (C : PagingConsts) (lvl b vs ve i : Nat) (c : PTNode) :
    PTNode × List (List Nat) :=
  dfs_acquire_lock C (setLocked c true) (b + i * page_size C lvl)
    (max vs (b + i * page_size C lvl))
    (min ve (b + i * page_size C lvl + page_size C lvl))

theorem acquireEntries_nil (C : PagingConsts) (lvl b vs ve lo hi i : Nat) :
    acquireEntries C lvl b vs ve lo hi [] i = ([], []) := by
  simp [acquireEntries]

theorem acquireEntries_cons_ref_in (C : PagingConsts) (lvl b vs ve lo hi i : Nat)
    (c : PTNode) (rest : List Child) (h : lo ≤ i ∧ i < hi) :
    acquireEntries C lvl b vs ve lo hi (.PageTableRef c :: rest) i =
      (Child.PageTableRef (childCall C lvl b vs ve i c).1 ::
          (acquireEntries C lvl b vs ve lo hi rest (i + 1)).1,
        ([i] :: (childCall C lvl b vs ve i c).2.map (fun s => i :: s)) ++
          (acquireEntries C lvl b vs ve lo hi rest (i + 1)).2) := by
  rw [acquireEntries.eq_def]
  simp only [childCall, if_pos h]

theorem acquireEntries_cons_out (C : PagingConsts) (lvl b vs ve lo hi i : Nat)
    (e : Child) (rest : List Child) (h : ¬(lo ≤ i ∧ i < hi)) :
    acquireEntries C lvl b vs ve lo hi (e :: rest) i =
      (e :: (acquireEntries C lvl b vs ve lo hi rest (i + 1)).1,
        (acquireEntries C lvl b vs ve lo hi rest (i + 1)).2) := by
  rw [acquireEntries.eq_def]
  simp only [if_neg h]

theorem acquireEntries_cons_nonref_in (C : PagingConsts)
    (lvl b vs ve lo hi i : Nat) (e : Child) (rest : List Child)
    (h : lo ≤ i ∧ i < hi) (he : ∀ c, e ≠ .PageTableRef c) :
    acquireEntries C lvl b vs ve lo hi (e :: rest) i =
      (e :: (acquireEntries C lvl b vs ve lo hi rest (i + 1)).1,
        (acquireEntries C lvl b vs ve lo hi rest (i + 1)).2) := by
  cases e with
  | PageTableRef c => exact absurd rfl (he c)
  | None => rw [acquireEntries.eq_def]; simp only [if_pos h]
  | Frame => rw [acquireEntries.eq_def]; simp only [if_pos h]
  | Untracked => rw [acquireEntries.eq_def]; simp only [if_pos h]
  | PageTable => rw [acquireEntries.eq_def]; simp only [if_pos h]

/-- Unfolding of `dfs_acquire_lock` at a node above level 1. -/
theorem dfs_acquire_lock_mk_high (C : PagingConsts) (l : Nat) (st lk : Bool)
    (es : List Child) (b vs ve : Nat) (h : ¬ l ≤ 1) :
    dfs_acquire_lock C (.mk l st lk es) b vs ve =
      (PTNode.mk l st lk
          (acquireEntries C l b vs ve (dfs_get_idx_range C l b vs ve).1
            (dfs_get_idx_range C l b vs ve).2 es 0).1,
        (acquireEntries C l b vs ve (dfs_get_idx_range C l b vs ve).1
          (dfs_get_idx_range C l b vs ve).2 es 0).2) := by
  rw [dfs_acquire_lock]
  simp only [if_neg h]

/-- Unfolding of `dfs_acquire_lock` at a node at or below level 1. -/
theorem dfs_acquire_lock_mk_low (C : PagingConsts) (l : Nat) (st lk : Bool)
    (es : List Child) (b vs ve : Nat) (h : l ≤ 1) :
    dfs_acquire_lock C (.mk l st lk es) b vs ve = (.mk l st lk es, []) := by
  rw [dfs_acquire_lock]
  simp only [if_pos h]

/-! ### List-level lemmas for the acquisition walker -/

theorem acquireEntries_length (C : PagingConsts) (lvl b vs ve lo hi : Nat) :
    ∀ (es : List Child) (i : Nat),
      (acquireEntries C lvl b vs ve lo hi es i).1.length = es.length := by
  intro es
  induction es with
  | nil => intro i; rw [acquireEntries_nil]
  | cons e rest ih =>
    intro i
    by_cases hin : lo ≤ i ∧ i < hi
    · cases e with
      | PageTableRef c =>
        rw [acquireEntries_cons_ref_in C lvl b vs ve lo hi i c rest hin]
        simp [ih]
      | None =>
        rw [acquireEntries_cons_nonref_in C lvl b vs ve lo hi i _ rest hin
          (fun c hc => Child.noConfusion hc)]
        simp [ih]
      | Frame =>
        rw [acquireEntries_cons_nonref_in C lvl b vs ve lo hi i _ rest hin
          (fun c hc => Child.noConfusion hc)]
        simp [ih]
      | Untracked =>
        rw [acquireEntries_cons_nonref_in C lvl b vs ve lo hi i _ rest hin
          (fun c hc => Child.noConfusion hc)]
        simp [ih]
      | PageTable =>
        rw [acquireEntries_cons_nonref_in C lvl b vs ve lo hi i _ rest hin
          (fun c hc => Child.noConfusion hc)]
        simp [ih]
    · rw [acquireEntries_cons_out C lvl b vs ve lo hi i e rest hin]
      simp [ih]

theorem acquireEntries_get (C : PagingConsts) (lvl b vs ve lo hi : Nat) :
    ∀ (es : List Child) (i j : Nat),
      (acquireEntries C lvl b vs ve lo hi es i).1[j]? =
        match es[j]? with
        | some (Child.PageTableRef c) =>
          if lo ≤ i + j ∧ i + j < hi then
            some (Child.PageTableRef (childCall C lvl b vs ve (i + j) c).1)
          else some (Child.PageTableRef c)
        | o => o := by
  intro es
  induction es with
  | nil => intro i j; rw [acquireEntries_nil]; simp
  | cons e rest ih =>
    intro i j
    cases j with
    | zero =>
      by_cases hin : lo ≤ i ∧ i < hi
      · cases e with
        | PageTableRef c =>
          rw [acquireEntries_cons_ref_in C lvl b vs ve lo hi i c rest hin]
          simp [hin]
        | None =>
          rw [acquireEntries_cons_nonref_in C lvl b vs ve lo hi i _ rest hin
            (fun c hc => Child.noConfusion hc)]
          simp
        | Frame =>
          rw [acquireEntries_cons_nonref_in C lvl b vs ve lo hi i _ rest hin
            (fun c hc => Child.noConfusion hc)]
          simp
        | Untracked =>
          rw [acquireEntries_cons_nonref_in C lvl b vs ve lo hi i _ rest hin
            (fun c hc => Child.noConfusion hc)]
          simp
        | PageTable =>
          rw [acquireEntries_cons_nonref_in C lvl b vs ve lo hi i _ rest hin
            (fun c hc => Child.noConfusion hc)]
          simp
      · rw [acquireEntries_cons_out C lvl b vs ve lo hi i e rest hin]
        cases e with
        | PageTableRef c => simp [hin]
        | None => simp
        | Frame => simp
        | Untracked => simp
        | PageTable => simp
    | succ j =>
      have harith : i + 1 + j = i + (j + 1) := by omega
      by_cases hin : lo ≤ i ∧ i < hi
      · cases e with
        | PageTableRef c =>
          rw [acquireEntries_cons_ref_in C lvl b vs ve lo hi i c rest hin]
          simpa [harith] using ih (i + 1) j
        | None =>
          rw [acquireEntries_cons_nonref_in C lvl b vs ve lo hi i _ rest hin
            (fun c hc => Child.noConfusion hc)]
          simpa [harith] using ih (i + 1) j
        | Frame =>
          rw [acquireEntries_cons_nonref_in C lvl b vs ve lo hi i _ rest hin
            (fun c hc => Child.noConfusion hc)]
          simpa [harith] using ih (i + 1) j
        | Untracked =>
          rw [acquireEntries_cons_nonref_in C lvl b vs ve lo hi i _ rest hin
            (fun c hc => Child.noConfusion hc)]
          simpa [harith] using ih (i + 1) j
        | PageTable =>
          rw [acquireEntries_cons_nonref_in C lvl b vs ve lo hi i _ rest hin
            (fun c hc => Child.noConfusion hc)]
          simpa [harith] using ih (i + 1) j
      · rw [acquireEntries_cons_out C lvl b vs ve lo hi i e rest hin]
        simpa [harith] using ih (i + 1) j


theorem acquireEntries_events (C : PagingConsts) (lvl b vs ve lo hi : Nat) :
    ∀ (es : List Child) (i : Nat) (q : List Nat),
      q ∈ (acquireEntries C lvl b vs ve lo hi es i).2 ↔
        ∃ j c, es[j]? = some (Child.PageTableRef c) ∧ lo ≤ i + j ∧ i + j < hi ∧
          (q = [i + j] ∨
            ∃ s, s ∈ (childCall C lvl b vs ve (i + j) c).2 ∧ q = (i + j) :: s) := by
  intro es
  induction es with
  | nil => intro i q; rw [acquireEntries_nil]; simp
  | cons e rest ih =>
    intro i q
    have hshift :
        (∃ j c, rest[j]? = some (Child.PageTableRef c) ∧
            lo ≤ i + 1 + j ∧ i + 1 + j < hi ∧
            (q = [i + 1 + j] ∨
              ∃ s, s ∈ (childCall C lvl b vs ve (i + 1 + j) c).2 ∧
                q = (i + 1 + j) :: s)) ↔
          (∃ j c, (e :: rest)[j]? = some (Child.PageTableRef c) ∧ 0 < j ∧
            lo ≤ i + j ∧ i + j < hi ∧
            (q = [i + j] ∨
              ∃ s, s ∈ (childCall C lvl b vs ve (i + j) c).2 ∧
                q = (i + j) :: s)) := by
      constructor
      · rintro ⟨j, c, hg, h1, h2, hd⟩
        refine ⟨j + 1, c, by simpa using hg, by omega, ?_, ?_, ?_⟩ <;>
          (first
            | (have he : i + (j + 1) = i + 1 + j := by omega
               rw [he])
            | skip) <;>
          first
            | omega
            | exact hd
      · rintro ⟨j, c, hg, hpos, h1, h2, hd⟩
        cases j with
        | zero => omega
        | succ j =>
          refine ⟨j, c, by simpa using hg, by omega, by omega, ?_⟩
          have he : i + 1 + j = i + (j + 1) := by omega
          rw [he]
          exact hd
    by_cases hin : lo ≤ i ∧ i < hi
    · cases e with
      | PageTableRef c =>
        rw [acquireEntries_cons_ref_in C lvl b vs ve lo hi i c rest hin]
        simp only [List.mem_append, List.mem_cons, List.mem_map,
          List.mem_singleton]
        rw [ih (i + 1) q, hshift]
        constructor
        · rintro ((rfl | ⟨s, hs, rfl⟩) | hrest)
          · exact ⟨0, c, by simp, by omega, by omega, by simp⟩
          · exact ⟨0, c, by simp, by omega, by omega,
              Or.inr ⟨s, by simpa using hs, by simp⟩⟩
          · obtain ⟨j, c2, hg, hpos, h1, h2, hd⟩ := hrest
            exact ⟨j, c2, hg, h1, h2, hd⟩
        · rintro ⟨j, c2, hg, h1, h2, hd⟩
          cases j with
          | zero =>
            simp only [List.getElem?_cons_zero, Option.some.injEq] at hg
            cases hg
            simp only [Nat.add_zero] at hd
            rcases hd with rfl | ⟨s, hs, rfl⟩
            · exact Or.inl (Or.inl rfl)
            · exact Or.inl (Or.inr ⟨s, hs, rfl⟩)
          | succ j =>
            exact Or.inr ⟨j + 1, c2, hg, by omega, h1, h2, hd⟩
      | None =>
        rw [acquireEntries_cons_nonref_in C lvl b vs ve lo hi i _ rest hin
          (fun c hc => Child.noConfusion hc)]
        rw [ih (i + 1) q, hshift]
        constructor
        · rintro ⟨j, c2, hg, hpos, h1, h2, hd⟩
          exact ⟨j, c2, hg, h1, h2, hd⟩
        · rintro ⟨j, c2, hg, h1, h2, hd⟩
          cases j with
          | zero => simp at hg
          | succ j => exact ⟨j + 1, c2, hg, by omega, h1, h2, hd⟩
      | Frame =>
        rw [acquireEntries_cons_nonref_in C lvl b vs ve lo hi i _ rest hin
          (fun c hc => Child.noConfusion hc)]
        rw [ih (i + 1) q, hshift]
        constructor
        · rintro ⟨j, c2, hg, hpos, h1, h2, hd⟩
          exact ⟨j, c2, hg, h1, h2, hd⟩
        · rintro ⟨j, c2, hg, h1, h2, hd⟩
          cases j with
          | zero => simp at hg
          | succ j => exact ⟨j + 1, c2, hg, by omega, h1, h2, hd⟩
      | Untracked =>
        rw [acquireEntries_cons_nonref_in C lvl b vs ve lo hi i _ rest hin
          (fun c hc => Child.noConfusion hc)]
        rw [ih (i + 1) q, hshift]
        constructor
        · rintro ⟨j, c2, hg, hpos, h1, h2, hd⟩
          exact ⟨j, c2, hg, h1, h2, hd⟩
        · rintro ⟨j, c2, hg, h1, h2, hd⟩
          cases j with
          | zero => simp at hg
          | succ j => exact ⟨j + 1, c2, hg, by omega, h1, h2, hd⟩
      | PageTable =>
        rw [acquireEntries_cons_nonref_in C lvl b vs ve lo hi i _ rest hin
          (fun c hc => Child.noConfusion hc)]
        rw [ih (i + 1) q, hshift]
        constructor
        · rintro ⟨j, c2, hg, hpos, h1, h2, hd⟩
          exact ⟨j, c2, hg, h1, h2, hd⟩
        · rintro ⟨j, c2, hg, h1, h2, hd⟩
          cases j with
          | zero => simp at hg
          | succ j => exact ⟨j + 1, c2, hg, by omega, h1, h2, hd⟩
    · rw [acquireEntries_cons_out C lvl b vs ve lo hi i e rest hin]
      rw [ih (i + 1) q, hshift]
      constructor
      · rintro ⟨j, c2, hg, hpos, h1, h2, hd⟩
        exact ⟨j, c2, hg, h1, h2, hd⟩
      · rintro ⟨j, c2, hg, h1, h2, hd⟩
        cases j with
        | zero => omega
        | succ j => exact ⟨j + 1, c2, hg, by omega, h1, h2, hd⟩

theorem acquireEntries_sorted (C : PagingConsts) (lvl b vs ve lo hi : Nat) :
    ∀ (es : List Child) (i : Nat),
      (∀ c i2, Child.PageTableRef c ∈ es → lo ≤ i2 → i2 < hi →
          (childCall C lvl b vs ve i2 c).2.Pairwise (List.Lex (· < ·)) ∧
          ∀ s ∈ (childCall C lvl b vs ve i2 c).2, s ≠ []) →
      (acquireEntries C lvl b vs ve lo hi es i).2.Pairwise (List.Lex (· < ·)) ∧
      ∀ a ∈ (acquireEntries C lvl b vs ve lo hi es i).2,
        ∃ h t, a = h :: t ∧ i ≤ h := by
  intro es
  induction es with
  | nil =>
    intro i _
    rw [acquireEntries_nil]
    simp
  | cons e rest ih =>
    intro i hch
    have hch2 : ∀ c i2, Child.PageTableRef c ∈ rest → lo ≤ i2 → i2 < hi →
        (childCall C lvl b vs ve i2 c).2.Pairwise (List.Lex (· < ·)) ∧
        ∀ s ∈ (childCall C lvl b vs ve i2 c).2, s ≠ [] :=
      fun c i2 hm => hch c i2 (List.mem_cons_of_mem e hm)
    obtain ⟨ihp, ihh⟩ := ih (i + 1) hch2
    by_cases hin : lo ≤ i ∧ i < hi
    · cases e with
      | PageTableRef c =>
        rw [acquireEntries_cons_ref_in C lvl b vs ve lo hi i c rest hin]
        obtain ⟨hcp, hcne⟩ :=
          hch c i (List.mem_cons_self _ _) hin.1 hin.2
        constructor
        · rw [List.pairwise_append]
          refine ⟨?_, ihp, ?_⟩
          · rw [List.pairwise_cons]
            constructor
            · rintro x hx
              obtain ⟨s, hs, rfl⟩ := List.mem_map.mp hx
              have hne := hcne s hs
              cases s with
              | nil => exact absurd rfl hne
              | cons y t => exact List.Lex.cons List.Lex.nil
            · exact hcp.map _ (fun a b hab => List.Lex.cons hab)
          · intro a ha x hx
            obtain ⟨h2, t2, rfl, hle⟩ := ihh x hx
            have hahead : ∃ t1, a = i :: t1 := by
              rcases List.mem_cons.mp ha with rfl | hmap
              · exact ⟨[], rfl⟩
              · obtain ⟨s, _, rfl⟩ := List.mem_map.mp hmap
                exact ⟨s, rfl⟩
            obtain ⟨t1, rfl⟩ := hahead
            exact List.Lex.rel (by omega)
        · intro a ha
          rcases List.mem_append.mp ha with h1 | h2
          · rcases List.mem_cons.mp h1 with rfl | hmap
            · exact ⟨i, [], rfl, Nat.le_refl _⟩
            · obtain ⟨s, _, rfl⟩ := List.mem_map.mp hmap
              exact ⟨i, s, rfl, Nat.le_refl _⟩
          · obtain ⟨h2h, t2, rfl, hle⟩ := ihh _ h2
            exact ⟨h2h, t2, rfl, by omega⟩
      | None =>
        rw [acquireEntries_cons_nonref_in C lvl b vs ve lo hi i _ rest hin
          (fun c hc => Child.noConfusion hc)]
        exact ⟨ihp, fun a ha => by
          obtain ⟨h2, t2, rfl, hle⟩ := ihh a ha
          exact ⟨h2, t2, rfl, by omega⟩⟩
      | Frame =>
        rw [acquireEntries_cons_nonref_in C lvl b vs ve lo hi i _ rest hin
          (fun c hc => Child.noConfusion hc)]
        exact ⟨ihp, fun a ha => by
          obtain ⟨h2, t2, rfl, hle⟩ := ihh a ha
          exact ⟨h2, t2, rfl, by omega⟩⟩
      | Untracked =>
        rw [acquireEntries_cons_nonref_in C lvl b vs ve lo hi i _ rest hin
          (fun c hc => Child.noConfusion hc)]
        exact ⟨ihp, fun a ha => by
          obtain ⟨h2, t2, rfl, hle⟩ := ihh a ha
          exact ⟨h2, t2, rfl, by omega⟩⟩
      | PageTable =>
        rw [acquireEntries_cons_nonref_in C lvl b vs ve lo hi i _ rest hin
          (fun c hc => Child.noConfusion hc)]
        exact ⟨ihp, fun a ha => by
          obtain ⟨h2, t2, rfl, hle⟩ := ihh a ha
          exact ⟨h2, t2, rfl, by omega⟩⟩
    · rw [acquireEntries_cons_out C lvl b vs ve lo hi i e rest hin]
      exact ⟨ihp, fun a ha => by
        obtain ⟨h2, t2, rfl, hle⟩ := ihh a ha
        exact ⟨h2, t2, rfl, by omega⟩⟩

theorem acquireEntries_WFentries (C : PagingConsts) (lvl b vs ve lo hi : Nat) :
    ∀ (es : List Child) (i : Nat),
      WFentries C lvl es = true →
      (∀ c i2, Child.PageTableRef c ∈ es → lo ≤ i2 → i2 < hi →
          WFb C (lvl - 1) (childCall C lvl b vs ve i2 c).1 = true) →
      WFentries C lvl (acquireEntries C lvl b vs ve lo hi es i).1 = true := by
  intro es
  induction es with
  | nil => intro i _ _; rw [acquireEntries_nil]; rfl
  | cons e rest ih =>
    intro i hwf hch
    have hch2 : ∀ c i2, Child.PageTableRef c ∈ rest → lo ≤ i2 → i2 < hi →
        WFb C (lvl - 1) (childCall C lvl b vs ve i2 c).1 = true :=
      fun c i2 hm => hch c i2 (List.mem_cons_of_mem e hm)
    by_cases hin : lo ≤ i ∧ i < hi
    · cases e with
      | PageTableRef c =>
        rw [acquireEntries_cons_ref_in C lvl b vs ve lo hi i c rest hin]
        have h2lvl : 2 ≤ lvl :=
          (WFentries_mem hwf (List.mem_cons_self _ _)).1
        have hwftail : WFentries C lvl rest = true := by
          simp only [WFentries, Bool.and_eq_true] at hwf
          exact hwf.2
        rw [WFentries, Bool.and_eq_true]
        refine ⟨?_, ih i.succ hwftail hch2⟩
        simp only [Bool.and_eq_true, decide_eq_true_iff]
        exact ⟨h2lvl, hch c i (List.mem_cons_self _ _) hin.1 hin.2⟩
      | None =>
        rw [acquireEntries_cons_nonref_in C lvl b vs ve lo hi i _ rest hin
          (fun c hc => Child.noConfusion hc)]
        simp only [WFentries, Bool.and_eq_true] at hwf ⊢
        exact ⟨hwf.1, ih i.succ hwf.2 hch2⟩
      | Frame =>
        rw [acquireEntries_cons_nonref_in C lvl b vs ve lo hi i _ rest hin
          (fun c hc => Child.noConfusion hc)]
        simp only [WFentries, Bool.and_eq_true] at hwf ⊢
        exact ⟨hwf.1, ih i.succ hwf.2 hch2⟩
      | Untracked =>
        rw [acquireEntries_cons_nonref_in C lvl b vs ve lo hi i _ rest hin
          (fun c hc => Child.noConfusion hc)]
        simp only [WFentries, Bool.and_eq_true] at hwf ⊢
        exact ⟨hwf.1, ih i.succ hwf.2 hch2⟩
      | PageTable =>
        rw [acquireEntries_cons_nonref_in C lvl b vs ve lo hi i _ rest hin
          (fun c hc => Child.noConfusion hc)]
        simp only [WFentries, Bool.and_eq_true] at hwf ⊢
        exact ⟨hwf.1, ih i.succ hwf.2 hch2⟩
    · rw [acquireEntries_cons_out C lvl b vs ve lo hi i e rest hin]
      cases e with
      | PageTableRef c =>
        simp only [WFentries, Bool.and_eq_true] at hwf ⊢
        exact ⟨hwf.1, ih i.succ hwf.2 hch2⟩
      | None =>
        simp only [WFentries, Bool.and_eq_true] at hwf ⊢
        exact ⟨hwf.1, ih i.succ hwf.2 hch2⟩
      | Frame =>
        simp only [WFentries, Bool.and_eq_true] at hwf ⊢
        exact ⟨hwf.1, ih i.succ hwf.2 hch2⟩
      | Untracked =>
        simp only [WFentries, Bool.and_eq_true] at hwf ⊢
        exact ⟨hwf.1, ih i.succ hwf.2 hch2⟩
      | PageTable =>
        simp only [WFentries, Bool.and_eq_true] at hwf ⊢
        exact ⟨hwf.1, ih i.succ hwf.2 hch2⟩


/-! ### The full specification of `dfs_acquire_lock` -/

/-- What one `dfs_acquire_lock` call does on a well-formed sub-tree rooted
at `n` (standing for the already locked sub-tree root guard) whose node
base address is `b`: the tree shape is unchanged, the lock state changes
exactly by the emitted lock events, a path is a lock event exactly when it
is a proper descendant whose coverage intersects `[vs, ve)`, the events
are strictly increasing in the path-lexicographic order (parent before
child, ascending slot indices), and well-formedness is preserved. -/
def AcquireSpec (C : PagingConsts) (lvl : Nat) (n : PTNode) (b vs ve : Nat) :
    Prop :=
  (∀ q, (nodeAt q (dfs_acquire_lock C n b vs ve).1).isSome =
      (nodeAt q n).isSome) ∧
  (∀ q, lockedAt (dfs_acquire_lock C n b vs ve).1 q =
      (lockedAt n q || decide (q ∈ (dfs_acquire_lock C n b vs ve).2))) ∧
  (∀ q, q ∈ (dfs_acquire_lock C n b vs ve).2 ↔
      (q ≠ [] ∧ (nodeAt q n).isSome = true ∧
        vaOfPath C b lvl q < ve ∧
        vs < vaOfPath C b lvl q + page_size C (lvl - q.length + 1))) ∧
  ((dfs_acquire_lock C n b vs ve).2.Pairwise (List.Lex (· < ·))) ∧
  (WFb C lvl (dfs_acquire_lock C n b vs ve).1 = true)

theorem acquire_spec_aux (C : PagingConsts)
    (hbase : 0 < C.base_page_size) (hfan : 0 < C.fanout) :
    ∀ (N : Nat) (n : PTNode) (lvl b vs ve : Nat), sizeOf n ≤ N →
      WFb C lvl n = true → b ≤ vs → vs < ve →
      ve ≤ b + page_size C (lvl + 1) →
      AcquireSpec C lvl n b vs ve := by
  intro N
  induction N with
  | zero =>
    intro n lvl b vs ve hsz
    cases n with
    | mk l st lk es => simp at hsz
  | succ N ihN =>
    intro n lvl b vs ve hsz hwf hb hv he
    cases n with
    | mk l st lk es =>
    obtain ⟨hl, hlen, hlvl1, hents⟩ := (WFb_mk_iff C lvl l st lk es).mp hwf
    subst hl
    by_cases hle : l ≤ 1
    · -- the node is at level 1: the walker does nothing.
      have heq := dfs_acquire_lock_mk_low C l st lk es b vs ve hle
      refine ⟨?_, ?_, ?_, ?_, ?_⟩
      · intro q; rw [heq]
      · intro q; rw [heq]; simp
      · intro q
        rw [heq]
        simp only [List.not_mem_nil, false_iff]
        rintro ⟨hne, hsome, _, _⟩
        cases q with
        | nil => exact hne rfl
        | cons j tail =>
          cases hg : es[j]? with
          | none =>
            rw [nodeAt_cons_other l st lk tail (by simp [hg])] at hsome
            simp at hsome
          | some e =>
            cases e with
            | PageTableRef c =>
              have hlvl2 := (WFentries_ref hents hg).1
              omega
            | None =>
              rw [nodeAt_cons_other l st lk tail (by simp [hg])] at hsome
              simp at hsome
            | Frame =>
              rw [nodeAt_cons_other l st lk tail (by simp [hg])] at hsome
              simp at hsome
            | Untracked =>
              rw [nodeAt_cons_other l st lk tail (by simp [hg])] at hsome
              simp at hsome
            | PageTable =>
              rw [nodeAt_cons_other l st lk tail (by simp [hg])] at hsome
              simp at hsome
      · rw [heq]; simp
      · rw [heq]; exact hwf
    · -- the node is above level 1: the walker locks the intersecting
      -- children and recurses into them.
      have h2lvl : 2 ≤ l := by omega
      have hps : 0 < page_size C l := page_size_pos C hbase hfan l
      have hpssucc : page_size C (l - 1 + 1) = page_size C l := by
        congr 1
        omega
      have heq := dfs_acquire_lock_mk_high C l st lk es b vs ve hle
      have hchspec : ∀ (c : PTNode) (i2 : Nat), Child.PageTableRef c ∈ es →
          (dfs_get_idx_range C l b vs ve).1 ≤ i2 →
          i2 < (dfs_get_idx_range C l b vs ve).2 →
          AcquireSpec C (l - 1) (setLocked c true)
            (b + i2 * page_size C l)
            (max vs (b + i2 * page_size C l))
            (min ve (b + i2 * page_size C l + page_size C l)) := by
        intro c i2 hmem h1 h2
        have hszc : sizeOf (setLocked c true) ≤ N := by
          have := sizeOf_lt_of_ref_mem hmem l st lk
          rw [sizeOf_setLocked]
          omega
        have hwfc : WFb C (l - 1) (setLocked c true) = true := by
          rw [WFb_setLocked]
          exact (WFentries_mem hents hmem).2
        have hrange := (idx_range_mem_iff C l b vs ve i2 hps hb hv).mp ⟨h1, h2⟩
        have hsm : (i2 + 1) * page_size C l =
            i2 * page_size C l + page_size C l := Nat.succ_mul _ _
        refine ihN (setLocked c true) (l - 1) _ _ _ hszc hwfc
          (Nat.le_max_right _ _) ?_ ?_
        · exact lt_min (max_lt hv hrange.1) (max_lt (by omega) (by omega))
        · rw [hpssucc]
          exact min_le_right _ _
      have hchA1 : ∀ (c : PTNode) (i2 : Nat), Child.PageTableRef c ∈ es →
          (dfs_get_idx_range C l b vs ve).1 ≤ i2 →
          i2 < (dfs_get_idx_range C l b vs ve).2 →
          ∀ tail, (nodeAt tail (childCall C l b vs ve i2 c).1).isSome =
            (nodeAt tail c).isSome := by
        intro c i2 hmem h1 h2 tail
        have hs := (hchspec c i2 hmem h1 h2).1 tail
        rw [childCall, hs, isSome_nodeAt_setLocked]
      have hchA2 : ∀ (c : PTNode) (i2 : Nat), Child.PageTableRef c ∈ es →
          (dfs_get_idx_range C l b vs ve).1 ≤ i2 →
          i2 < (dfs_get_idx_range C l b vs ve).2 →
          ∀ tail, lockedAt (childCall C l b vs ve i2 c).1 tail =
            (lockedAt (setLocked c true) tail ||
              decide (tail ∈ (childCall C l b vs ve i2 c).2)) := by
        intro c i2 hmem h1 h2 tail
        exact (hchspec c i2 hmem h1 h2).2.1 tail
      have hchA3 : ∀ (c : PTNode) (i2 : Nat), Child.PageTableRef c ∈ es →
          (dfs_get_idx_range C l b vs ve).1 ≤ i2 →
          i2 < (dfs_get_idx_range C l b vs ve).2 →
          ∀ s, s ∈ (childCall C l b vs ve i2 c).2 ↔
            (s ≠ [] ∧ (nodeAt s c).isSome = true ∧
              vaOfPath C (b + i2 * page_size C l) (l - 1) s <
                min ve (b + i2 * page_size C l + page_size C l) ∧
              max vs (b + i2 * page_size C l) <
                vaOfPath C (b + i2 * page_size C l) (l - 1) s +
                  page_size C (l - 1 - s.length + 1)) := by
        intro c i2 hmem h1 h2 s
        have hs := (hchspec c i2 hmem h1 h2).2.2.1 s
        rw [childCall, hs, isSome_nodeAt_setLocked]
      have hchA4 : ∀ (c : PTNode) (i2 : Nat), Child.PageTableRef c ∈ es →
          (dfs_get_idx_range C l b vs ve).1 ≤ i2 →
          i2 < (dfs_get_idx_range C l b vs ve).2 →
          (childCall C l b vs ve i2 c).2.Pairwise (List.Lex (· < ·)) := by
        intro c i2 hmem h1 h2
        exact (hchspec c i2 hmem h1 h2).2.2.2.1
      have hchA5 : ∀ (c : PTNode) (i2 : Nat), Child.PageTableRef c ∈ es →
          (dfs_get_idx_range C l b vs ve).1 ≤ i2 →
          i2 < (dfs_get_idx_range C l b vs ve).2 →
          WFb C (l - 1) (childCall C l b vs ve i2 c).1 = true := by
        intro c i2 hmem h1 h2
        exact (hchspec c i2 hmem h1 h2).2.2.2.2
      have hcons_mem : ∀ (j : Nat) (tail : List Nat),
          (j :: tail) ∈ (acquireEntries C l b vs ve
              (dfs_get_idx_range C l b vs ve).1
              (dfs_get_idx_range C l b vs ve).2 es 0).2 ↔
            ∃ c, es[j]? = some (Child.PageTableRef c) ∧
              (dfs_get_idx_range C l b vs ve).1 ≤ j ∧
              j < (dfs_get_idx_range C l b vs ve).2 ∧
              (tail = [] ∨ tail ∈ (childCall C l b vs ve j c).2) := by
        intro j tail
        rw [acquireEntries_events]
        constructor
        · rintro ⟨j2, c, hg, h1, h2, hd | ⟨s, hs, hd⟩⟩
          · simp only [Nat.zero_add] at hg h1 h2 hd
            rw [List.cons.injEq] at hd
            obtain ⟨rfl, rfl⟩ := hd
            exact ⟨c, hg, h1, h2, Or.inl rfl⟩
          · simp only [Nat.zero_add] at hg h1 h2 hd hs
            rw [List.cons.injEq] at hd
            obtain ⟨rfl, rfl⟩ := hd
            exact ⟨c, hg, h1, h2, Or.inr hs⟩
        · rintro ⟨c, hg, h1, h2, hd | hd⟩
          · subst hd
            exact ⟨j, c, by simpa using hg, by omega, by omega, Or.inl (by simp)⟩
          · exact ⟨j, c, by simpa using hg, by omega, by omega,
              Or.inr ⟨tail, by simpa using hd, by simp⟩⟩
      have hnil_not_mem : ([] : List Nat) ∉ (acquireEntries C l b vs ve
          (dfs_get_idx_range C l b vs ve).1
          (dfs_get_idx_range C l b vs ve).2 es 0).2 := by
        rw [acquireEntries_events]
        rintro ⟨j, c, _, _, _, hd | ⟨s, _, hd⟩⟩ <;> simp at hd
      have heq1 : (dfs_acquire_lock C (.mk l st lk es) b vs ve).1 =
          PTNode.mk l st lk (acquireEntries C l b vs ve
            (dfs_get_idx_range C l b vs ve).1
            (dfs_get_idx_range C l b vs ve).2 es 0).1 := by
        rw [heq]
      have heq2 : (dfs_acquire_lock C (.mk l st lk es) b vs ve).2 =
          (acquireEntries C l b vs ve (dfs_get_idx_range C l b vs ve).1
            (dfs_get_idx_range C l b vs ve).2 es 0).2 := by
        rw [heq]
      refine ⟨?_, ?_, ?_, ?_, ?_⟩
      · -- shape preservation
        intro q
        rw [heq1]
        cases q with
        | nil => simp
        | cons j tail =>
          have hget := acquireEntries_get C l b vs ve
            (dfs_get_idx_range C l b vs ve).1 (dfs_get_idx_range C l b vs ve).2
            es 0 j
          simp only [Nat.zero_add] at hget
          cases hg : es[j]? with
          | none =>
            rw [hg] at hget
            dsimp only at hget
            rw [nodeAt_cons_other _ st lk tail (by simp [hget]),
              nodeAt_cons_other _ st lk tail (by simp [hg])]
          | some e =>
            cases e with
            | PageTableRef c =>
              rw [hg] at hget
              dsimp only at hget
              by_cases hin : (dfs_get_idx_range C l b vs ve).1 ≤ j ∧
                  j < (dfs_get_idx_range C l b vs ve).2
              · rw [if_pos hin] at hget
                rw [nodeAt_cons_ref _ st lk tail hget,
                  nodeAt_cons_ref _ st lk tail hg]
                exact hchA1 c j (List.getElem?_mem hg) hin.1 hin.2 tail
              · rw [if_neg hin] at hget
                rw [nodeAt_cons_ref _ st lk tail hget,
                  nodeAt_cons_ref _ st lk tail hg]
            | None =>
              rw [hg] at hget
              dsimp only at hget
              rw [nodeAt_cons_other _ st lk tail (by simp [hget]),
                nodeAt_cons_other _ st lk tail (by simp [hg])]
            | Frame =>
              rw [hg] at hget
              dsimp only at hget
              rw [nodeAt_cons_other _ st lk tail (by simp [hget]),
                nodeAt_cons_other _ st lk tail (by simp [hg])]
            | Untracked =>
              rw [hg] at hget
              dsimp only at hget
              rw [nodeAt_cons_other _ st lk tail (by simp [hget]),
                nodeAt_cons_other _ st lk tail (by simp [hg])]
            | PageTable =>
              rw [hg] at hget
              dsimp only at hget
              rw [nodeAt_cons_other _ st lk tail (by simp [hget]),
                nodeAt_cons_other _ st lk tail (by simp [hg])]
      · -- lock-state change: exactly the event set is newly locked
        intro q
        rw [heq1, heq2]
        cases q with
        | nil =>
          simp only [lockedAt_nil]
          simp [hnil_not_mem]
        | cons j tail =>
          have hget := acquireEntries_get C l b vs ve
            (dfs_get_idx_range C l b vs ve).1 (dfs_get_idx_range C l b vs ve).2
            es 0 j
          simp only [Nat.zero_add] at hget
          cases hg : es[j]? with
          | none =>
            rw [hg] at hget
            dsimp only at hget
            rw [lockedAt_cons_other _ st lk tail (by simp [hget]),
              lockedAt_cons_other _ st lk tail (by simp [hg])]
            have hnm : (j :: tail) ∉ (acquireEntries C l b vs ve
                (dfs_get_idx_range C l b vs ve).1
                (dfs_get_idx_range C l b vs ve).2 es 0).2 := by
              rw [hcons_mem]
              rintro ⟨c, hgc, _, _, _⟩
              rw [hg] at hgc
              cases hgc
            simp [hnm]
          | some e =>
            cases e with
            | PageTableRef c =>
              rw [hg] at hget
              dsimp only at hget
              by_cases hin : (dfs_get_idx_range C l b vs ve).1 ≤ j ∧
                  j < (dfs_get_idx_range C l b vs ve).2
              · rw [if_pos hin] at hget
                rw [lockedAt_cons_ref _ st lk tail hget,
                  lockedAt_cons_ref _ st lk tail hg]
                rw [hchA2 c j (List.getElem?_mem hg) hin.1 hin.2 tail]
                have hmem_iff : (j :: tail) ∈ (acquireEntries C l b vs ve
                    (dfs_get_idx_range C l b vs ve).1
                    (dfs_get_idx_range C l b vs ve).2 es 0).2 ↔
                      (tail = [] ∨ tail ∈ (childCall C l b vs ve j c).2) := by
                  rw [hcons_mem]
                  constructor
                  · rintro ⟨c2, hg2, _, _, hd⟩
                    rw [hg] at hg2
                    obtain rfl : c = c2 := by
                      have := Option.some.inj hg2
                      cases this
                      rfl
                    exact hd
                  · intro hd
                    exact ⟨c, hg, hin.1, hin.2, hd⟩
                cases tail with
                | nil =>
                  simp only [lockedAt_setLocked_nil]
                  have htr : (j :: ([] : List Nat)) ∈ (acquireEntries C l b vs ve
                      (dfs_get_idx_range C l b vs ve).1
                      (dfs_get_idx_range C l b vs ve).2 es 0).2 := by
                    rw [hmem_iff]
                    exact Or.inl rfl
                  simp [htr]
                | cons t ts =>
                  rw [lockedAt_setLocked_cons]
                  have hiff2 : ((j :: t :: ts) ∈ (acquireEntries C l b vs ve
                      (dfs_get_idx_range C l b vs ve).1
                      (dfs_get_idx_range C l b vs ve).2 es 0).2) ↔
                        ((t :: ts) ∈ (childCall C l b vs ve j c).2) := by
                    rw [hmem_iff]
                    simp
                  simp only [hiff2]
              · rw [if_neg hin] at hget
                rw [lockedAt_cons_ref _ st lk tail hget,
                  lockedAt_cons_ref _ st lk tail hg]
                have hnm : (j :: tail) ∉ (acquireEntries C l b vs ve
                    (dfs_get_idx_range C l b vs ve).1
                    (dfs_get_idx_range C l b vs ve).2 es 0).2 := by
                  rw [hcons_mem]
                  rintro ⟨c2, hg2, h1, h2, _⟩
                  exact hin ⟨h1, h2⟩
                simp [hnm]
            | None =>
              rw [hg] at hget
              dsimp only at hget
              rw [lockedAt_cons_other _ st lk tail (by simp [hget]),
                lockedAt_cons_other _ st lk tail (by simp [hg])]
              have hnm : (j :: tail) ∉ (acquireEntries C l b vs ve
                  (dfs_get_idx_range C l b vs ve).1
                  (dfs_get_idx_range C l b vs ve).2 es 0).2 := by
                rw [hcons_mem]
                rintro ⟨c2, hg2, _, _, _⟩
                rw [hg] at hg2
                exact Child.noConfusion (Option.some.inj hg2)
              simp [hnm]
            | Frame =>
              rw [hg] at hget
              dsimp only at hget
              rw [lockedAt_cons_other _ st lk tail (by simp [hget]),
                lockedAt_cons_other _ st lk tail (by simp [hg])]
              have hnm : (j :: tail) ∉ (acquireEntries C l b vs ve
                  (dfs_get_idx_range C l b vs ve).1
                  (dfs_get_idx_range C l b vs ve).2 es 0).2 := by
                rw [hcons_mem]
                rintro ⟨c2, hg2, _, _, _⟩
                rw [hg] at hg2
                exact Child.noConfusion (Option.some.inj hg2)
              simp [hnm]
            | Untracked =>
              rw [hg] at hget
              dsimp only at hget
              rw [lockedAt_cons_other _ st lk tail (by simp [hget]),
                lockedAt_cons_other _ st lk tail (by simp [hg])]
              have hnm : (j :: tail) ∉ (acquireEntries C l b vs ve
                  (dfs_get_idx_range C l b vs ve).1
                  (dfs_get_idx_range C l b vs ve).2 es 0).2 := by
                rw [hcons_mem]
                rintro ⟨c2, hg2, _, _, _⟩
                rw [hg] at hg2
                exact Child.noConfusion (Option.some.inj hg2)
              simp [hnm]
            | PageTable =>
              rw [hg] at hget
              dsimp only at hget
              rw [lockedAt_cons_other _ st lk tail (by simp [hget]),
                lockedAt_cons_other _ st lk tail (by simp [hg])]
              have hnm : (j :: tail) ∉ (acquireEntries C l b vs ve
                  (dfs_get_idx_range C l b vs ve).1
                  (dfs_get_idx_range C l b vs ve).2 es 0).2 := by
                rw [hcons_mem]
                rintro ⟨c2, hg2, _, _, _⟩
                rw [hg] at hg2
                exact Child.noConfusion (Option.some.inj hg2)
              simp [hnm]
      · -- the events are exactly the intersecting proper descendants
        intro q
        rw [heq2]
        cases q with
        | nil =>
          constructor
          · intro h
            exact absurd h hnil_not_mem
          · rintro ⟨hne, _, _, _⟩
            exact absurd rfl hne
        | cons j tail =>
          rw [hcons_mem]
          constructor
          · rintro ⟨c, hg, h1, h2, hd⟩
            have hrange := (idx_range_mem_iff C l b vs ve j hps hb hv).mp ⟨h1, h2⟩
            have hsm : (j + 1) * page_size C l =
                j * page_size C l + page_size C l := Nat.succ_mul _ _
            rcases hd with rfl | hd
            · refine ⟨by simp, ?_, ?_, ?_⟩
              · rw [nodeAt_cons_ref _ st lk [] hg]
                simp
              · simpa using hrange.1
              · simp only [vaOfPath_cons, vaOfPath_nil, List.length_cons,
                  List.length_nil]
                rw [show l - (0 + 1) + 1 = l - 1 + 1 from by omega, hpssucc]
                omega
            · obtain ⟨hne, hsome, hlt1, hlt2⟩ :=
                (hchA3 c j (List.getElem?_mem hg) h1 h2 tail).mp hd
              refine ⟨by simp, ?_, ?_, ?_⟩
              · rw [nodeAt_cons_ref _ st lk tail hg]
                exact hsome
              · simp only [vaOfPath_cons]
                exact lt_of_lt_of_le hlt1 (min_le_left _ _)
              · simp only [vaOfPath_cons, List.length_cons]
                rw [show l - (tail.length + 1) + 1 = l - 1 - tail.length + 1
                  from by omega]
                have hmx := le_max_left vs (b + j * page_size C l)
                omega
          · rintro ⟨hne, hsome, hlt1, hlt2⟩
            cases hg : es[j]? with
            | none =>
              rw [nodeAt_cons_other _ st lk tail (by simp [hg])] at hsome
              simp at hsome
            | some e =>
              cases e with
              | PageTableRef c =>
                rw [nodeAt_cons_ref _ st lk tail hg] at hsome
                have hwfc := (WFentries_ref hents hg).2
                have hcov := vaOfPath_add_size_le C hfan tail c (l - 1)
                  (b + j * page_size C l) hwfc hsome
                rw [hpssucc] at hcov
                have hle2 := le_vaOfPath C tail (b + j * page_size C l) (l - 1)
                simp only [vaOfPath_cons] at hlt1 hlt2
                simp only [List.length_cons] at hlt2
                rw [show l - (tail.length + 1) + 1 = l - 1 - tail.length + 1
                  from by omega] at hlt2
                have hpos2 : 0 < page_size C (l - 1 - tail.length + 1) :=
                  page_size_pos C hbase hfan _
                have hsm : (j + 1) * page_size C l =
                    j * page_size C l + page_size C l := Nat.succ_mul _ _
                have hin : (dfs_get_idx_range C l b vs ve).1 ≤ j ∧
                    j < (dfs_get_idx_range C l b vs ve).2 := by
                  rw [idx_range_mem_iff C l b vs ve j hps hb hv]
                  constructor
                  · omega
                  · omega
                refine ⟨c, rfl, hin.1, hin.2, ?_⟩
                cases tail with
                | nil => exact Or.inl rfl
                | cons t ts =>
                  refine Or.inr
                    ((hchA3 c j (List.getElem?_mem hg) hin.1 hin.2
                      (t :: ts)).mpr ⟨by simp, hsome, ?_, ?_⟩)
                  · exact lt_min hlt1 (by omega)
                  · exact max_lt (by omega) (by omega)
              | None =>
                rw [nodeAt_cons_other _ st lk tail (by simp [hg])] at hsome
                simp at hsome
              | Frame =>
                rw [nodeAt_cons_other _ st lk tail (by simp [hg])] at hsome
                simp at hsome
              | Untracked =>
                rw [nodeAt_cons_other _ st lk tail (by simp [hg])] at hsome
                simp at hsome
              | PageTable =>
                rw [nodeAt_cons_other _ st lk tail (by simp [hg])] at hsome
                simp at hsome
      · -- the lock events are strictly path-lexicographically increasing
        rw [heq2]
        exact (acquireEntries_sorted C l b vs ve
          (dfs_get_idx_range C l b vs ve).1 (dfs_get_idx_range C l b vs ve).2
          es 0
          (fun c i2 hm h1 h2 => ⟨hchA4 c i2 hm h1 h2,
            fun s hs => ((hchA3 c i2 hm h1 h2 s).mp hs).1⟩)).1
      · -- well-formedness is preserved
        rw [heq1, WFb_mk_iff]
        refine ⟨rfl, ?_, hlvl1, ?_⟩
        · rw [acquireEntries_length]
          exact hlen
        · exact acquireEntries_WFentries C l b vs ve _ _ es 0 hents hchA5

/-- The specification of `dfs_acquire_lock`, for any well-formed sub-tree. -/
theorem dfs_acquire_lock_spec (C : PagingConsts)
    (hbase : 0 < C.base_page_size) (hfan : 0 < C.fanout)
    (n : PTNode) (lvl b vs ve : Nat)
    (hwf : WFb C lvl n = true) (hb : b ≤ vs) (hv : vs < ve)
    (he : ve ≤ b + page_size C (lvl + 1)) :
    AcquireSpec C lvl n b vs ve :=
  acquire_spec_aux C hbase hfan (sizeOf n) n lvl b vs ve (Nat.le_refl _)
    hwf hb hv he

/-! ### C5: what `dfs_acquire_lock` locks, and in which order -/

/-- C5: given an already locked sub-tree root (its node base address `b`)
and the address range, `dfs_acquire_lock` locks exactly the descendant
nodes reachable through child-node slots whose coverage intersects the
range (empty and leaf-mapping slots are skipped, for nothing exists below
them); every acquired guard is forgotten, so in the resulting tree all
these locks (and every lock already held) are still held when the call
returns; and the lock events are strictly increasing in the
path-lexicographic order, i.e. every parent is visited and locked before
any of its children and the intersecting slot indices of each node are
visited in ascending order. -/
theorem dfs_acquire_lock_locks_intersecting_descendants (C : PagingConsts)
    (n : PTNode) (lvl b vs ve : Nat)
    (hbase : 0 < C.base_page_size) (hfan : 0 < C.fanout)
    (hwf : WFb C lvl n = true) (hb : b ≤ vs) (hv : vs < ve)
    (he : ve ≤ b + page_size C (lvl + 1)) :
    (∀ q, lockedAt (dfs_acquire_lock C n b vs ve).1 q =
        (lockedAt n q || decide (q ∈ (dfs_acquire_lock C n b vs ve).2))) ∧
    (∀ q, q ∈ (dfs_acquire_lock C n b vs ve).2 ↔
        (q ≠ [] ∧ (nodeAt q n).isSome = true ∧
          vaOfPath C b lvl q < ve ∧
          vs < vaOfPath C b lvl q + page_size C (lvl - q.length + 1))) ∧
    ((dfs_acquire_lock C n b vs ve).2.Pairwise (List.Lex (· < ·))) := by
  obtain ⟨_, h2, h3, h4, _⟩ := dfs_acquire_lock_spec C hbase hfan n lvl b vs ve hwf hb hv he
  exact ⟨h2, h3, h4⟩

/-- C5 witness: the theorem applied at a concrete input (fan-out 2, two
levels, a root at level 2 whose slot 0 is a child node and slot 1 a leaf
mapping, range covering the whole root). -/
theorem dfs_acquire_lock_locks_intersecting_descendants_witness :
    ((0:Nat) < 4 ∧ (0:Nat) < 2 ∧
      WFb ⟨4, 2, 2⟩ 2 (.mk 2 false true
        [.PageTableRef (.mk 1 false false [.None, .None]), .Frame]) = true ∧
      (0:Nat) ≤ 0 ∧ (0:Nat) < 16 ∧ (16:Nat) ≤ 0 + page_size ⟨4, 2, 2⟩ (2 + 1)) ∧
    ((∀ q, lockedAt (dfs_acquire_lock ⟨4, 2, 2⟩ (.mk 2 false true
          [.PageTableRef (.mk 1 false false [.None, .None]), .Frame]) 0 0 16).1 q =
        (lockedAt (.mk 2 false true
          [.PageTableRef (.mk 1 false false [.None, .None]), .Frame]) q ||
          decide (q ∈ (dfs_acquire_lock ⟨4, 2, 2⟩ (.mk 2 false true
            [.PageTableRef (.mk 1 false false [.None, .None]), .Frame]) 0 0 16).2))) ∧
      (∀ q, q ∈ (dfs_acquire_lock ⟨4, 2, 2⟩ (.mk 2 false true
          [.PageTableRef (.mk 1 false false [.None, .None]), .Frame]) 0 0 16).2 ↔
        (q ≠ [] ∧ (nodeAt q (.mk 2 false true
          [.PageTableRef (.mk 1 false false [.None, .None]), .Frame])).isSome = true ∧
          vaOfPath ⟨4, 2, 2⟩ 0 2 q < 16 ∧
          0 < vaOfPath ⟨4, 2, 2⟩ 0 2 q + page_size ⟨4, 2, 2⟩ (2 - q.length + 1))) ∧
      ((dfs_acquire_lock ⟨4, 2, 2⟩ (.mk 2 false true
        [.PageTableRef (.mk 1 false false [.None, .None]), .Frame]) 0 0 16).2.Pairwise
          (List.Lex (· < ·)))) :=
  ⟨⟨by decide, by decide, by decide, by decide, by decide, by decide⟩,
    dfs_acquire_lock_locks_intersecting_descendants ⟨4, 2, 2⟩
      (.mk 2 false true [.PageTableRef (.mk 1 false false [.None, .None]), .Frame])
      2 0 0 16 (by decide) (by decide) (by decide) (by decide) (by decide)
      (by decide)⟩


/-! ### Case equations for the release walker -/

/-- The recursive call that `dfs_release_lock` makes for the in-range
child slot `i` holding a reference to `c` (the child guard is
re-materialized by `make_guard_unchecked`, which does not change the lock
state by itself). -/
def childCallR (C : PagingConsts) (lvl b vs ve i : Nat) (c : PTNode) :
    PTNode × List (List Nat) :=
  dfs_release_lock C c (b + i * page_size C lvl)
    (max vs (b + i * page_size C lvl))
    (min ve (b + i * page_size C lvl + page_size C lvl))

theorem releaseEntries_nil (C : PagingConsts) (lvl b vs ve lo hi i : Nat) :
    releaseEntries C lvl b vs ve lo hi [] i = ([], []) := by
  simp [releaseEntries]

theorem releaseEntries_cons_ref_in (C : PagingConsts) (lvl b vs ve lo hi i : Nat)
    (c : PTNode) (rest : List Child) (h : lo ≤ i ∧ i < hi) :
    releaseEntries C lvl b vs ve lo hi (.PageTableRef c :: rest) i =
      (Child.PageTableRef (childCallR C lvl b vs ve i c).1 ::
          (releaseEntries C lvl b vs ve lo hi rest (i + 1)).1,
        (releaseEntries C lvl b vs ve lo hi rest (i + 1)).2 ++
          (childCallR C lvl b vs ve i c).2.map (fun s => i :: s)) := by
  rw [releaseEntries.eq_def]
  simp only [childCallR, if_pos h]

theorem releaseEntries_cons_out (C : PagingConsts) (lvl b vs ve lo hi i : Nat)
    (e : Child) (rest : List Child) (h : ¬(lo ≤ i ∧ i < hi)) :
    releaseEntries C lvl b vs ve lo hi (e :: rest) i =
      (e :: (releaseEntries C lvl b vs ve lo hi rest (i + 1)).1,
        (releaseEntries C lvl b vs ve lo hi rest (i + 1)).2) := by
  rw [releaseEntries.eq_def]
  simp only [if_neg h]

theorem releaseEntries_cons_nonref_in (C : PagingConsts)
    (lvl b vs ve lo hi i : Nat) (e : Child) (rest : List Child)
    (h : lo ≤ i ∧ i < hi) (he : ∀ c, e ≠ .PageTableRef c) :
    releaseEntries C lvl b vs ve lo hi (e :: rest) i =
      (e :: (releaseEntries C lvl b vs ve lo hi rest (i + 1)).1,
        (releaseEntries C lvl b vs ve lo hi rest (i + 1)).2) := by
  cases e with
  | PageTableRef c => exact absurd rfl (he c)
  | None => rw [releaseEntries.eq_def]; simp only [if_pos h]
  | Frame => rw [releaseEntries.eq_def]; simp only [if_pos h]
  | Untracked => rw [releaseEntries.eq_def]; simp only [if_pos h]
  | PageTable => rw [releaseEntries.eq_def]; simp only [if_pos h]

/-- Unfolding of `dfs_release_lock` at a node above level 1. -/
theorem dfs_release_lock_mk_high (C : PagingConsts) (l : Nat) (st lk : Bool)
    (es : List Child) (b vs ve : Nat) (h : ¬ l ≤ 1) :
    dfs_release_lock C (.mk l st lk es) b vs ve =
      (PTNode.mk l st false
          (releaseEntries C l b vs ve (dfs_get_idx_range C l b vs ve).1
            (dfs_get_idx_range C l b vs ve).2 es 0).1,
        (releaseEntries C l b vs ve (dfs_get_idx_range C l b vs ve).1
          (dfs_get_idx_range C l b vs ve).2 es 0).2 ++ [[]]) := by
  rw [dfs_release_lock]
  simp only [if_neg h]

/-- Unfolding of `dfs_release_lock` at a node at or below level 1. -/
theorem dfs_release_lock_mk_low (C : PagingConsts) (l : Nat) (st lk : Bool)
    (es : List Child) (b vs ve : Nat) (h : l ≤ 1) :
    dfs_release_lock C (.mk l st lk es) b vs ve =
      (.mk l st false es, [[]]) := by
  rw [dfs_release_lock]
  simp only [if_pos h]

theorem releaseEntries_length (C : PagingConsts) (lvl b vs ve lo hi : Nat) :
    ∀ (es : List Child) (i : Nat),
      (releaseEntries C lvl b vs ve lo hi es i).1.length = es.length := by
  intro es
  induction es with
  | nil => intro i; rw [releaseEntries_nil]
  | cons e rest ih =>
    intro i
    by_cases hin : lo ≤ i ∧ i < hi
    · cases e with
      | PageTableRef c =>
        rw [releaseEntries_cons_ref_in C lvl b vs ve lo hi i c rest hin]
        simp [ih]
      | None =>
        rw [releaseEntries_cons_nonref_in C lvl b vs ve lo hi i _ rest hin
          (fun c hc => Child.noConfusion hc)]
        simp [ih]
      | Frame =>
        rw [releaseEntries_cons_nonref_in C lvl b vs ve lo hi i _ rest hin
          (fun c hc => Child.noConfusion hc)]
        simp [ih]
      | Untracked =>
        rw [releaseEntries_cons_nonref_in C lvl b vs ve lo hi i _ rest hin
          (fun c hc => Child.noConfusion hc)]
        simp [ih]
      | PageTable =>
        rw [releaseEntries_cons_nonref_in C lvl b vs ve lo hi i _ rest hin
          (fun c hc => Child.noConfusion hc)]
        simp [ih]
    · rw [releaseEntries_cons_out C lvl b vs ve lo hi i e rest hin]
      simp [ih]

theorem releaseEntries_get (C : PagingConsts) (lvl b vs ve lo hi : Nat) :
    ∀ (es : List Child) (i j : Nat),
      (releaseEntries C lvl b vs ve lo hi es i).1[j]? =
        match es[j]? with
        | some (Child.PageTableRef c) =>
          if lo ≤ i + j ∧ i + j < hi then
            some (Child.PageTableRef (childCallR C lvl b vs ve (i + j) c).1)
          else some (Child.PageTableRef c)
        | o => o := by
  intro es
  induction es with
  | nil => intro i j; rw [releaseEntries_nil]; simp
  | cons e rest ih =>
    intro i j
    cases j with
    | zero =>
      by_cases hin : lo ≤ i ∧ i < hi
      · cases e with
        | PageTableRef c =>
          rw [releaseEntries_cons_ref_in C lvl b vs ve lo hi i c rest hin]
          simp [hin]
        | None =>
          rw [releaseEntries_cons_nonref_in C lvl b vs ve lo hi i _ rest hin
            (fun c hc => Child.noConfusion hc)]
          simp
        | Frame =>
          rw [releaseEntries_cons_nonref_in C lvl b vs ve lo hi i _ rest hin
            (fun c hc => Child.noConfusion hc)]
          simp
        | Untracked =>
          rw [releaseEntries_cons_nonref_in C lvl b vs ve lo hi i _ rest hin
            (fun c hc => Child.noConfusion hc)]
          simp
        | PageTable =>
          rw [releaseEntries_cons_nonref_in C lvl b vs ve lo hi i _ rest hin
            (fun c hc => Child.noConfusion hc)]
          simp
      · rw [releaseEntries_cons_out C lvl b vs ve lo hi i e rest hin]
        cases e with
        | PageTableRef c => simp [hin]
        | None => simp
        | Frame => simp
        | Untracked => simp
        | PageTable => simp
    | succ j =>
      have harith : i + 1 + j = i + (j + 1) := by omega
      by_cases hin : lo ≤ i ∧ i < hi
      · cases e with
        | PageTableRef c =>
          rw [releaseEntries_cons_ref_in C lvl b vs ve lo hi i c rest hin]
          simpa [harith] using ih (i + 1) j
        | None =>
          rw [releaseEntries_cons_nonref_in C lvl b vs ve lo hi i _ rest hin
            (fun c hc => Child.noConfusion hc)]
          simpa [harith] using ih (i + 1) j
        | Frame =>
          rw [releaseEntries_cons_nonref_in C lvl b vs ve lo hi i _ rest hin
            (fun c hc => Child.noConfusion hc)]
          simpa [harith] using ih (i + 1) j
        | Untracked =>
          rw [releaseEntries_cons_nonref_in C lvl b vs ve lo hi i _ rest hin
            (fun c hc => Child.noConfusion hc)]
          simpa [harith] using ih (i + 1) j
        | PageTable =>
          rw [releaseEntries_cons_nonref_in C lvl b vs ve lo hi i _ rest hin
            (fun c hc => Child.noConfusion hc)]
          simpa [harith] using ih (i + 1) j
      · rw [releaseEntries_cons_out C lvl b vs ve lo hi i e rest hin]
        simpa [harith] using ih (i + 1) j

theorem releaseEntries_events (C : PagingConsts) (lvl b vs ve lo hi : Nat) :
    ∀ (es : List Child) (i : Nat) (q : List Nat),
      q ∈ (releaseEntries C lvl b vs ve lo hi es i).2 ↔
        ∃ j c, es[j]? = some (Child.PageTableRef c) ∧ lo ≤ i + j ∧ i + j < hi ∧
          ∃ s, s ∈ (childCallR C lvl b vs ve (i + j) c).2 ∧
            q = (i + j) :: s := by
  intro es
  induction es with
  | nil => intro i q; rw [releaseEntries_nil]; simp
  | cons e rest ih =>
    intro i q
    have hshift :
        (∃ j c, rest[j]? = some (Child.PageTableRef c) ∧
            lo ≤ i + 1 + j ∧ i + 1 + j < hi ∧
            ∃ s, s ∈ (childCallR C lvl b vs ve (i + 1 + j) c).2 ∧
              q = (i + 1 + j) :: s) ↔
          (∃ j c, (e :: rest)[j]? = some (Child.PageTableRef c) ∧ 0 < j ∧
            lo ≤ i + j ∧ i + j < hi ∧
            ∃ s, s ∈ (childCallR C lvl b vs ve (i + j) c).2 ∧
              q = (i + j) :: s) := by
      constructor
      · rintro ⟨j, c, hg, h1, h2, s, hs, hd⟩
        refine ⟨j + 1, c, by simpa using hg, by omega, by omega, by omega,
          s, ?_, ?_⟩
        · have he2 : i + (j + 1) = i + 1 + j := by omega
          rw [he2]
          exact hs
        · have he2 : i + (j + 1) = i + 1 + j := by omega
          rw [he2]
          exact hd
      · rintro ⟨j, c, hg, hpos, h1, h2, s, hs, hd⟩
        cases j with
        | zero => omega
        | succ j =>
          refine ⟨j, c, by simpa using hg, by omega, by omega, s, ?_, ?_⟩
          · have he2 : i + 1 + j = i + (j + 1) := by omega
            rw [he2]
            exact hs
          · have he2 : i + 1 + j = i + (j + 1) := by omega
            rw [he2]
            exact hd
    by_cases hin : lo ≤ i ∧ i < hi
    · cases e with
      | PageTableRef c =>
        rw [releaseEntries_cons_ref_in C lvl b vs ve lo hi i c rest hin]
        simp only [List.mem_append, List.mem_map]
        rw [ih (i + 1) q, hshift]
        constructor
        · rintro (hrest | ⟨s, hs, rfl⟩)
          · obtain ⟨j, c2, hg, hpos, h1, h2, s, hs, hd⟩ := hrest
            exact ⟨j, c2, hg, h1, h2, s, hs, hd⟩
          · exact ⟨0, c, by simp, by omega, by omega, s, by simpa using hs,
              by simp⟩
        · rintro ⟨j, c2, hg, h1, h2, s, hs, hd⟩
          cases j with
          | zero =>
            simp only [List.getElem?_cons_zero, Option.some.injEq] at hg
            cases hg
            simp only [Nat.add_zero] at hs hd
            exact Or.inr ⟨s, hs, hd.symm⟩
          | succ j =>
            exact Or.inl ⟨j + 1, c2, hg, by omega, h1, h2, s, hs, hd⟩
      | None =>
        rw [releaseEntries_cons_nonref_in C lvl b vs ve lo hi i _ rest hin
          (fun c hc => Child.noConfusion hc)]
        rw [ih (i + 1) q, hshift]
        constructor
        · rintro ⟨j, c2, hg, hpos, h1, h2, s, hs, hd⟩
          exact ⟨j, c2, hg, h1, h2, s, hs, hd⟩
        · rintro ⟨j, c2, hg, h1, h2, s, hs, hd⟩
          cases j with
          | zero => simp at hg
          | succ j => exact ⟨j + 1, c2, hg, by omega, h1, h2, s, hs, hd⟩
      | Frame =>
        rw [releaseEntries_cons_nonref_in C lvl b vs ve lo hi i _ rest hin
          (fun c hc => Child.noConfusion hc)]
        rw [ih (i + 1) q, hshift]
        constructor
        · rintro ⟨j, c2, hg, hpos, h1, h2, s, hs, hd⟩
          exact ⟨j, c2, hg, h1, h2, s, hs, hd⟩
        · rintro ⟨j, c2, hg, h1, h2, s, hs, hd⟩
          cases j with
          | zero => simp at hg
          | succ j => exact ⟨j + 1, c2, hg, by omega, h1, h2, s, hs, hd⟩
      | Untracked =>
        rw [releaseEntries_cons_nonref_in C lvl b vs ve lo hi i _ rest hin
          (fun c hc => Child.noConfusion hc)]
        rw [ih (i + 1) q, hshift]
        constructor
        · rintro ⟨j, c2, hg, hpos, h1, h2, s, hs, hd⟩
          exact ⟨j, c2, hg, h1, h2, s, hs, hd⟩
        · rintro ⟨j, c2, hg, h1, h2, s, hs, hd⟩
          cases j with
          | zero => simp at hg
          | succ j => exact ⟨j + 1, c2, hg, by omega, h1, h2, s, hs, hd⟩
      | PageTable =>
        rw [releaseEntries_cons_nonref_in C lvl b vs ve lo hi i _ rest hin
          (fun c hc => Child.noConfusion hc)]
        rw [ih (i + 1) q, hshift]
        constructor
        · rintro ⟨j, c2, hg, hpos, h1, h2, s, hs, hd⟩
          exact ⟨j, c2, hg, h1, h2, s, hs, hd⟩
        · rintro ⟨j, c2, hg, h1, h2, s, hs, hd⟩
          cases j with
          | zero => simp at hg
          | succ j => exact ⟨j + 1, c2, hg, by omega, h1, h2, s, hs, hd⟩
    · rw [releaseEntries_cons_out C lvl b vs ve lo hi i e rest hin]
      rw [ih (i + 1) q, hshift]
      constructor
      · rintro ⟨j, c2, hg, hpos, h1, h2, s, hs, hd⟩
        exact ⟨j, c2, hg, h1, h2, s, hs, hd⟩
      · rintro ⟨j, c2, hg, h1, h2, s, hs, hd⟩
        cases j with
        | zero => omega
        | succ j => exact ⟨j + 1, c2, hg, by omega, h1, h2, s, hs, hd⟩

theorem releaseEntries_WFentries (C : PagingConsts) (lvl b vs ve lo hi : Nat) :
    ∀ (es : List Child) (i : Nat),
      WFentries C lvl es = true →
      (∀ c i2, Child.PageTableRef c ∈ es → lo ≤ i2 → i2 < hi →
          WFb C (lvl - 1) (childCallR C lvl b vs ve i2 c).1 = true) →
      WFentries C lvl (releaseEntries C lvl b vs ve lo hi es i).1 = true := by
  intro es
  induction es with
  | nil => intro i _ _; rw [releaseEntries_nil]; rfl
  | cons e rest ih =>
    intro i hwf hch
    have hch2 : ∀ c i2, Child.PageTableRef c ∈ rest → lo ≤ i2 → i2 < hi →
        WFb C (lvl - 1) (childCallR C lvl b vs ve i2 c).1 = true :=
      fun c i2 hm => hch c i2 (List.mem_cons_of_mem e hm)
    by_cases hin : lo ≤ i ∧ i < hi
    · cases e with
      | PageTableRef c =>
        rw [releaseEntries_cons_ref_in C lvl b vs ve lo hi i c rest hin]
        have h2lvl : 2 ≤ lvl :=
          (WFentries_mem hwf (List.mem_cons_self _ _)).1
        have hwftail : WFentries C lvl rest = true := by
          simp only [WFentries, Bool.and_eq_true] at hwf
          exact hwf.2
        rw [WFentries, Bool.and_eq_true]
        refine ⟨?_, ih i.succ hwftail hch2⟩
        simp only [Bool.and_eq_true, decide_eq_true_iff]
        exact ⟨h2lvl, hch c i (List.mem_cons_self _ _) hin.1 hin.2⟩
      | None =>
        rw [releaseEntries_cons_nonref_in C lvl b vs ve lo hi i _ rest hin
          (fun c hc => Child.noConfusion hc)]
        simp only [WFentries, Bool.and_eq_true] at hwf ⊢
        exact ⟨hwf.1, ih i.succ hwf.2 hch2⟩
      | Frame =>
        rw [releaseEntries_cons_nonref_in C lvl b vs ve lo hi i _ rest hin
          (fun c hc => Child.noConfusion hc)]
        simp only [WFentries, Bool.and_eq_true] at hwf ⊢
        exact ⟨hwf.1, ih i.succ hwf.2 hch2⟩
      | Untracked =>
        rw [releaseEntries_cons_nonref_in C lvl b vs ve lo hi i _ rest hin
          (fun c hc => Child.noConfusion hc)]
        simp only [WFentries, Bool.and_eq_true] at hwf ⊢
        exact ⟨hwf.1, ih i.succ hwf.2 hch2⟩
      | PageTable =>
        rw [releaseEntries_cons_nonref_in C lvl b vs ve lo hi i _ rest hin
          (fun c hc => Child.noConfusion hc)]
        simp only [WFentries, Bool.and_eq_true] at hwf ⊢
        exact ⟨hwf.1, ih i.succ hwf.2 hch2⟩
    · rw [releaseEntries_cons_out C lvl b vs ve lo hi i e rest hin]
      cases e with
      | PageTableRef c =>
        simp only [WFentries, Bool.and_eq_true] at hwf ⊢
        exact ⟨hwf.1, ih i.succ hwf.2 hch2⟩
      | None =>
        simp only [WFentries, Bool.and_eq_true] at hwf ⊢
        exact ⟨hwf.1, ih i.succ hwf.2 hch2⟩
      | Frame =>
        simp only [WFentries, Bool.and_eq_true] at hwf ⊢
        exact ⟨hwf.1, ih i.succ hwf.2 hch2⟩
      | Untracked =>
        simp only [WFentries, Bool.and_eq_true] at hwf ⊢
        exact ⟨hwf.1, ih i.succ hwf.2 hch2⟩
      | PageTable =>
        simp only [WFentries, Bool.and_eq_true] at hwf ⊢
        exact ⟨hwf.1, ih i.succ hwf.2 hch2⟩


/-! ### The full specification of `dfs_release_lock` -/

/-- What one `dfs_release_lock` call does on a well-formed sub-tree rooted
at `n` whose node base address is `b` (its guard re-materialized from the
forgotten ones): the tree shape is unchanged, the lock state changes by
removing exactly the emitted unlock events, a path is an unlock event
exactly when it is the root itself or a descendant whose coverage
intersects `[vs, ve)` — the same set the acquisition walk locked — and
well-formedness is preserved. -/
def ReleaseSpec (C : PagingConsts) (lvl : Nat) (n : PTNode) (b vs ve : Nat) :
    Prop :=
  (∀ q, (nodeAt q (dfs_release_lock C n b vs ve).1).isSome =
      (nodeAt q n).isSome) ∧
  (∀ q, lockedAt (dfs_release_lock C n b vs ve).1 q =
      (lockedAt n q && !(decide (q ∈ (dfs_release_lock C n b vs ve).2)))) ∧
  (∀ q, q ∈ (dfs_release_lock C n b vs ve).2 ↔
      (q = [] ∨ ((nodeAt q n).isSome = true ∧
        vaOfPath C b lvl q < ve ∧
        vs < vaOfPath C b lvl q + page_size C (lvl - q.length + 1)))) ∧
  (WFb C lvl (dfs_release_lock C n b vs ve).1 = true)

theorem release_spec_aux (C : PagingConsts)
    (hbase : 0 < C.base_page_size) (hfan : 0 < C.fanout) :
    ∀ (N : Nat) (n : PTNode) (lvl b vs ve : Nat), sizeOf n ≤ N →
      WFb C lvl n = true → b ≤ vs → vs < ve →
      ve ≤ b + page_size C (lvl + 1) →
      ReleaseSpec C lvl n b vs ve := by
  intro N
  induction N with
  | zero =>
    intro n lvl b vs ve hsz
    cases n with
    | mk l st lk es => simp at hsz
  | succ N ihN =>
    intro n lvl b vs ve hsz hwf hb hv he
    cases n with
    | mk l st lk es =>
    obtain ⟨hl, hlen, hlvl1, hents⟩ := (WFb_mk_iff C lvl l st lk es).mp hwf
    subst hl
    by_cases hle : l ≤ 1
    · -- the node is at level 1: only its own lock is released.
      have heq := dfs_release_lock_mk_low C l st lk es b vs ve hle
      have heq1 : (dfs_release_lock C (.mk l st lk es) b vs ve).1 =
          PTNode.mk l st false es := by rw [heq]
      have heq2 : (dfs_release_lock C (.mk l st lk es) b vs ve).2 = [[]] := by
        rw [heq]
      refine ⟨?_, ?_, ?_, ?_⟩
      · intro q
        rw [heq1]
        cases q with
        | nil => simp
        | cons j tail =>
          cases hg : es[j]? with
          | none =>
            rw [nodeAt_cons_other _ st false tail (by simp [hg]),
              nodeAt_cons_other _ st lk tail (by simp [hg])]
          | some e =>
            cases e with
            | PageTableRef c =>
              rw [nodeAt_cons_ref _ st false tail hg,
                nodeAt_cons_ref _ st lk tail hg]
            | None =>
              rw [nodeAt_cons_other _ st false tail (by simp [hg]),
                nodeAt_cons_other _ st lk tail (by simp [hg])]
            | Frame =>
              rw [nodeAt_cons_other _ st false tail (by simp [hg]),
                nodeAt_cons_other _ st lk tail (by simp [hg])]
            | Untracked =>
              rw [nodeAt_cons_other _ st false tail (by simp [hg]),
                nodeAt_cons_other _ st lk tail (by simp [hg])]
            | PageTable =>
              rw [nodeAt_cons_other _ st false tail (by simp [hg]),
                nodeAt_cons_other _ st lk tail (by simp [hg])]
      · intro q
        rw [heq1, heq2]
        cases q with
        | nil => simp
        | cons j tail =>
          have hnm : (j :: tail) ∉ ([[]] : List (List Nat)) := by simp
          simp only [hnm, decide_eq_true_eq]
          cases hg : es[j]? with
          | none =>
            rw [lockedAt_cons_other _ st false tail (by simp [hg]),
              lockedAt_cons_other _ st lk tail (by simp [hg])]
            simp
          | some e =>
            cases e with
            | PageTableRef c =>
              rw [lockedAt_cons_ref _ st false tail hg,
                lockedAt_cons_ref _ st lk tail hg]
              simp
            | None =>
              rw [lockedAt_cons_other _ st false tail (by simp [hg]),
                lockedAt_cons_other _ st lk tail (by simp [hg])]
              simp
            | Frame =>
              rw [lockedAt_cons_other _ st false tail (by simp [hg]),
                lockedAt_cons_other _ st lk tail (by simp [hg])]
              simp
            | Untracked =>
              rw [lockedAt_cons_other _ st false tail (by simp [hg]),
                lockedAt_cons_other _ st lk tail (by simp [hg])]
              simp
            | PageTable =>
              rw [lockedAt_cons_other _ st false tail (by simp [hg]),
                lockedAt_cons_other _ st lk tail (by simp [hg])]
              simp
      · intro q
        rw [heq2]
        constructor
        · intro hm
          rw [List.mem_singleton] at hm
          exact Or.inl hm
        · rintro (rfl | ⟨hsome, _, _⟩)
          · simp
          · cases q with
            | nil => simp
            | cons j tail =>
              cases hg : es[j]? with
              | none =>
                rw [nodeAt_cons_other _ st lk tail (by simp [hg])] at hsome
                simp at hsome
              | some e =>
                cases e with
                | PageTableRef c =>
                  have hlvl2 := (WFentries_ref hents hg).1
                  omega
                | None =>
                  rw [nodeAt_cons_other _ st lk tail (by simp [hg])] at hsome
                  simp at hsome
                | Frame =>
                  rw [nodeAt_cons_other _ st lk tail (by simp [hg])] at hsome
                  simp at hsome
                | Untracked =>
                  rw [nodeAt_cons_other _ st lk tail (by simp [hg])] at hsome
                  simp at hsome
                | PageTable =>
                  rw [nodeAt_cons_other _ st lk tail (by simp [hg])] at hsome
                  simp at hsome
      · rw [heq1, WFb_mk_iff]
        exact ⟨rfl, hlen, hlvl1, hents⟩
    · -- the node is above level 1.
      have h2lvl : 2 ≤ l := by omega
      have hps : 0 < page_size C l := page_size_pos C hbase hfan l
      have hpssucc : page_size C (l - 1 + 1) = page_size C l := by
        congr 1
        omega
      have heq := dfs_release_lock_mk_high C l st lk es b vs ve hle
      have heq1 : (dfs_release_lock C (.mk l st lk es) b vs ve).1 =
          PTNode.mk l st false (releaseEntries C l b vs ve
            (dfs_get_idx_range C l b vs ve).1
            (dfs_get_idx_range C l b vs ve).2 es 0).1 := by
        rw [heq]
      have heq2 : (dfs_release_lock C (.mk l st lk es) b vs ve).2 =
          (releaseEntries C l b vs ve (dfs_get_idx_range C l b vs ve).1
            (dfs_get_idx_range C l b vs ve).2 es 0).2 ++ [[]] := by
        rw [heq]
      have hchspec : ∀ (c : PTNode) (i2 : Nat), Child.PageTableRef c ∈ es →
          (dfs_get_idx_range C l b vs ve).1 ≤ i2 →
          i2 < (dfs_get_idx_range C l b vs ve).2 →
          ReleaseSpec C (l - 1) c
            (b + i2 * page_size C l)
            (max vs (b + i2 * page_size C l))
            (min ve (b + i2 * page_size C l + page_size C l)) := by
        intro c i2 hmem h1 h2
        have hszc : sizeOf c ≤ N := by
          have := sizeOf_lt_of_ref_mem hmem l st lk
          omega
        have hwfc : WFb C (l - 1) c = true := (WFentries_mem hents hmem).2
        have hrange := (idx_range_mem_iff C l b vs ve i2 hps hb hv).mp ⟨h1, h2⟩
        have hsm : (i2 + 1) * page_size C l =
            i2 * page_size C l + page_size C l := Nat.succ_mul _ _
        refine ihN c (l - 1) _ _ _ hszc hwfc (Nat.le_max_right _ _) ?_ ?_
        · exact lt_min (max_lt hv hrange.1) (max_lt (by omega) (by omega))
        · rw [hpssucc]
          exact min_le_right _ _
      have hchR1 : ∀ (c : PTNode) (i2 : Nat), Child.PageTableRef c ∈ es →
          (dfs_get_idx_range C l b vs ve).1 ≤ i2 →
          i2 < (dfs_get_idx_range C l b vs ve).2 →
          ∀ tail, (nodeAt tail (childCallR C l b vs ve i2 c).1).isSome =
            (nodeAt tail c).isSome := by
        intro c i2 hmem h1 h2 tail
        exact (hchspec c i2 hmem h1 h2).1 tail
      have hchR2 : ∀ (c : PTNode) (i2 : Nat), Child.PageTableRef c ∈ es →
          (dfs_get_idx_range C l b vs ve).1 ≤ i2 →
          i2 < (dfs_get_idx_range C l b vs ve).2 →
          ∀ tail, lockedAt (childCallR C l b vs ve i2 c).1 tail =
            (lockedAt c tail &&
              !(decide (tail ∈ (childCallR C l b vs ve i2 c).2))) := by
        intro c i2 hmem h1 h2 tail
        exact (hchspec c i2 hmem h1 h2).2.1 tail
      have hchR3 : ∀ (c : PTNode) (i2 : Nat), Child.PageTableRef c ∈ es →
          (dfs_get_idx_range C l b vs ve).1 ≤ i2 →
          i2 < (dfs_get_idx_range C l b vs ve).2 →
          ∀ s, s ∈ (childCallR C l b vs ve i2 c).2 ↔
            (s = [] ∨ ((nodeAt s c).isSome = true ∧
              vaOfPath C (b + i2 * page_size C l) (l - 1) s <
                min ve (b + i2 * page_size C l + page_size C l) ∧
              max vs (b + i2 * page_size C l) <
                vaOfPath C (b + i2 * page_size C l) (l - 1) s +
                  page_size C (l - 1 - s.length + 1))) := by
        intro c i2 hmem h1 h2 s
        exact (hchspec c i2 hmem h1 h2).2.2.1 s
      have hchR4 : ∀ (c : PTNode) (i2 : Nat), Child.PageTableRef c ∈ es →
          (dfs_get_idx_range C l b vs ve).1 ≤ i2 →
          i2 < (dfs_get_idx_range C l b vs ve).2 →
          WFb C (l - 1) (childCallR C l b vs ve i2 c).1 = true := by
        intro c i2 hmem h1 h2
        exact (hchspec c i2 hmem h1 h2).2.2.2
      have hcons_memR : ∀ (j : Nat) (tail : List Nat),
          (j :: tail) ∈ (releaseEntries C l b vs ve
              (dfs_get_idx_range C l b vs ve).1
              (dfs_get_idx_range C l b vs ve).2 es 0).2 ↔
            ∃ c, es[j]? = some (Child.PageTableRef c) ∧
              (dfs_get_idx_range C l b vs ve).1 ≤ j ∧
              j < (dfs_get_idx_range C l b vs ve).2 ∧
              tail ∈ (childCallR C l b vs ve j c).2 := by
        intro j tail
        rw [releaseEntries_events]
        constructor
        · rintro ⟨j2, c, hg, h1, h2, s, hs, hd⟩
          simp only [Nat.zero_add] at hg h1 h2 hs hd
          rw [List.cons.injEq] at hd
          obtain ⟨rfl, rfl⟩ := hd
          exact ⟨c, hg, h1, h2, hs⟩
        · rintro ⟨c, hg, h1, h2, hs⟩
          exact ⟨j, c, by simpa using hg, by omega, by omega, tail,
            by simpa using hs, by simp⟩
      refine ⟨?_, ?_, ?_, ?_⟩
      · -- shape preservation
        intro q
        rw [heq1]
        cases q with
        | nil => simp
        | cons j tail =>
          have hget := releaseEntries_get C l b vs ve
            (dfs_get_idx_range C l b vs ve).1 (dfs_get_idx_range C l b vs ve).2
            es 0 j
          simp only [Nat.zero_add] at hget
          cases hg : es[j]? with
          | none =>
            rw [hg] at hget
            dsimp only at hget
            rw [nodeAt_cons_other _ st false tail (by simp [hget]),
              nodeAt_cons_other _ st lk tail (by simp [hg])]
          | some e =>
            cases e with
            | PageTableRef c =>
              rw [hg] at hget
              dsimp only at hget
              by_cases hin : (dfs_get_idx_range C l b vs ve).1 ≤ j ∧
                  j < (dfs_get_idx_range C l b vs ve).2
              · rw [if_pos hin] at hget
                rw [nodeAt_cons_ref _ st false tail hget,
                  nodeAt_cons_ref _ st lk tail hg]
                exact hchR1 c j (List.getElem?_mem hg) hin.1 hin.2 tail
              · rw [if_neg hin] at hget
                rw [nodeAt_cons_ref _ st false tail hget,
                  nodeAt_cons_ref _ st lk tail hg]
            | None =>
              rw [hg] at hget
              dsimp only at hget
              rw [nodeAt_cons_other _ st false tail (by simp [hget]),
                nodeAt_cons_other _ st lk tail (by simp [hg])]
            | Frame =>
              rw [hg] at hget
              dsimp only at hget
              rw [nodeAt_cons_other _ st false tail (by simp [hget]),
                nodeAt_cons_other _ st lk tail (by simp [hg])]
            | Untracked =>
              rw [hg] at hget
              dsimp only at hget
              rw [nodeAt_cons_other _ st false tail (by simp [hget]),
                nodeAt_cons_other _ st lk tail (by simp [hg])]
            | PageTable =>
              rw [hg] at hget
              dsimp only at hget
              rw [nodeAt_cons_other _ st false tail (by simp [hget]),
                nodeAt_cons_other _ st lk tail (by simp [hg])]
      · -- lock-state change: exactly the event set is released
        intro q
        rw [heq1, heq2]
        cases q with
        | nil =>
          have hmemnil : ([] : List Nat) ∈ (releaseEntries C l b vs ve
              (dfs_get_idx_range C l b vs ve).1
              (dfs_get_idx_range C l b vs ve).2 es 0).2 ++ [[]] := by
            simp
          simp [hmemnil]
        | cons j tail =>
          have hmemiff : (j :: tail) ∈ ((releaseEntries C l b vs ve
              (dfs_get_idx_range C l b vs ve).1
              (dfs_get_idx_range C l b vs ve).2 es 0).2 ++ [[]]) ↔
                (j :: tail) ∈ (releaseEntries C l b vs ve
              (dfs_get_idx_range C l b vs ve).1
              (dfs_get_idx_range C l b vs ve).2 es 0).2 := by
            simp
          have hget := releaseEntries_get C l b vs ve
            (dfs_get_idx_range C l b vs ve).1 (dfs_get_idx_range C l b vs ve).2
            es 0 j
          simp only [Nat.zero_add] at hget
          cases hg : es[j]? with
          | none =>
            rw [hg] at hget
            dsimp only at hget
            rw [lockedAt_cons_other _ st false tail (by simp [hget]),
              lockedAt_cons_other _ st lk tail (by simp [hg])]
            simp
          | some e =>
            cases e with
            | PageTableRef c =>
              rw [hg] at hget
              dsimp only at hget
              by_cases hin : (dfs_get_idx_range C l b vs ve).1 ≤ j ∧
                  j < (dfs_get_idx_range C l b vs ve).2
              · rw [if_pos hin] at hget
                rw [lockedAt_cons_ref _ st false tail hget,
                  lockedAt_cons_ref _ st lk tail hg]
                rw [hchR2 c j (List.getElem?_mem hg) hin.1 hin.2 tail]
                have hiff2 : ((j :: tail) ∈ ((releaseEntries C l b vs ve
                    (dfs_get_idx_range C l b vs ve).1
                    (dfs_get_idx_range C l b vs ve).2 es 0).2 ++ [[]])) ↔
                      (tail ∈ (childCallR C l b vs ve j c).2) := by
                  rw [hmemiff, hcons_memR]
                  constructor
                  · rintro ⟨c2, hg2, _, _, hd⟩
                    rw [hg] at hg2
                    obtain rfl : c = c2 := by
                      have := Option.some.inj hg2
                      cases this
                      rfl
                    exact hd
                  · intro hd
                    exact ⟨c, hg, hin.1, hin.2, hd⟩
                simp only [hiff2]
              · rw [if_neg hin] at hget
                rw [lockedAt_cons_ref _ st false tail hget,
                  lockedAt_cons_ref _ st lk tail hg]
                have hnm : (j :: tail) ∉ ((releaseEntries C l b vs ve
                    (dfs_get_idx_range C l b vs ve).1
                    (dfs_get_idx_range C l b vs ve).2 es 0).2 ++ [[]]) := by
                  rw [hmemiff, hcons_memR]
                  rintro ⟨c2, hg2, h1, h2, _⟩
                  exact hin ⟨h1, h2⟩
                simp [hnm]
            | None =>
              rw [hg] at hget
              dsimp only at hget
              rw [lockedAt_cons_other _ st false tail (by simp [hget]),
                lockedAt_cons_other _ st lk tail (by simp [hg])]
              simp
            | Frame =>
              rw [hg] at hget
              dsimp only at hget
              rw [lockedAt_cons_other _ st false tail (by simp [hget]),
                lockedAt_cons_other _ st lk tail (by simp [hg])]
              simp
            | Untracked =>
              rw [hg] at hget
              dsimp only at hget
              rw [lockedAt_cons_other _ st false tail (by simp [hget]),
                lockedAt_cons_other _ st lk tail (by simp [hg])]
              simp
            | PageTable =>
              rw [hg] at hget
              dsimp only at hget
              rw [lockedAt_cons_other _ st false tail (by simp [hget]),
                lockedAt_cons_other _ st lk tail (by simp [hg])]
              simp
      · -- the unlock events: the root plus the intersecting descendants
        intro q
        rw [heq2]
        cases q with
        | nil =>
          constructor
          · intro _
            exact Or.inl rfl
          · intro _
            simp
        | cons j tail =>
          rw [List.mem_append, List.mem_singleton]
          constructor
          · rintro (hm | hm)
            · obtain ⟨c, hg, h1, h2, hs⟩ := (hcons_memR j tail).mp hm
              have hrange :=
                (idx_range_mem_iff C l b vs ve j hps hb hv).mp ⟨h1, h2⟩
              have hsm : (j + 1) * page_size C l =
                  j * page_size C l + page_size C l := Nat.succ_mul _ _
              rcases (hchR3 c j (List.getElem?_mem hg) h1 h2 tail).mp hs with
                rfl | ⟨hsome, hlt1, hlt2⟩
              · refine Or.inr ⟨?_, ?_, ?_⟩
                · rw [nodeAt_cons_ref _ st lk [] hg]
                  simp
                · simpa using hrange.1
                · simp only [vaOfPath_cons, vaOfPath_nil, List.length_cons,
                    List.length_nil]
                  rw [show l - (0 + 1) + 1 = l - 1 + 1 from by omega, hpssucc]
                  omega
              · refine Or.inr ⟨?_, ?_, ?_⟩
                · rw [nodeAt_cons_ref _ st lk tail hg]
                  exact hsome
                · simp only [vaOfPath_cons]
                  exact lt_of_lt_of_le hlt1 (min_le_left _ _)
                · simp only [vaOfPath_cons, List.length_cons]
                  rw [show l - (tail.length + 1) + 1 = l - 1 - tail.length + 1
                    from by omega]
                  have hmx := le_max_left vs (b + j * page_size C l)
                  omega
            · exact absurd hm (by simp)
          · rintro (hm | ⟨hsome, hlt1, hlt2⟩)
            · exact absurd hm (by simp)
            · cases hg : es[j]? with
              | none =>
                rw [nodeAt_cons_other _ st lk tail (by simp [hg])] at hsome
                simp at hsome
              | some e =>
                cases e with
                | PageTableRef c =>
                  rw [nodeAt_cons_ref _ st lk tail hg] at hsome
                  have hwfc := (WFentries_ref hents hg).2
                  have hcov := vaOfPath_add_size_le C hfan tail c (l - 1)
                    (b + j * page_size C l) hwfc hsome
                  rw [hpssucc] at hcov
                  have hle2 :=
                    le_vaOfPath C tail (b + j * page_size C l) (l - 1)
                  simp only [vaOfPath_cons] at hlt1 hlt2
                  simp only [List.length_cons] at hlt2
                  rw [show l - (tail.length + 1) + 1 = l - 1 - tail.length + 1
                    from by omega] at hlt2
                  have hpos2 : 0 < page_size C (l - 1 - tail.length + 1) :=
                    page_size_pos C hbase hfan _
                  have hsm : (j + 1) * page_size C l =
                      j * page_size C l + page_size C l := Nat.succ_mul _ _
                  have hin : (dfs_get_idx_range C l b vs ve).1 ≤ j ∧
                      j < (dfs_get_idx_range C l b vs ve).2 := by
                    rw [idx_range_mem_iff C l b vs ve j hps hb hv]
                    constructor
                    · omega
                    · omega
                  refine Or.inl ((hcons_memR j tail).mpr
                    ⟨c, hg, hin.1, hin.2, ?_⟩)
                  refine (hchR3 c j (List.getElem?_mem hg) hin.1 hin.2
                    tail).mpr ?_
                  cases tail with
                  | nil => exact Or.inl rfl
                  | cons t ts =>
                    refine Or.inr ⟨hsome, ?_, ?_⟩
                    · exact lt_min hlt1 (by omega)
                    · exact max_lt (by omega) (by omega)
                | None =>
                  rw [nodeAt_cons_other _ st lk tail (by simp [hg])] at hsome
                  simp at hsome
                | Frame =>
                  rw [nodeAt_cons_other _ st lk tail (by simp [hg])] at hsome
                  simp at hsome
                | Untracked =>
                  rw [nodeAt_cons_other _ st lk tail (by simp [hg])] at hsome
                  simp at hsome
                | PageTable =>
                  rw [nodeAt_cons_other _ st lk tail (by simp [hg])] at hsome
                  simp at hsome
      · -- well-formedness is preserved
        rw [heq1, WFb_mk_iff]
        refine ⟨rfl, ?_, hlvl1, ?_⟩
        · rw [releaseEntries_length]
          exact hlen
        · exact releaseEntries_WFentries C l b vs ve _ _ es 0 hents hchR4

/-- The specification of `dfs_release_lock`, for any well-formed sub-tree. -/
theorem dfs_release_lock_spec (C : PagingConsts)
    (hbase : 0 < C.base_page_size) (hfan : 0 < C.fanout)
    (n : PTNode) (lvl b vs ve : Nat)
    (hwf : WFb C lvl n = true) (hb : b ≤ vs) (hv : vs < ve)
    (he : ve ≤ b + page_size C (lvl + 1)) :
    ReleaseSpec C lvl n b vs ve :=
  release_spec_aux C hbase hfan (sizeOf n) n lvl b vs ve (Nat.le_refl _)
    hwf hb hv he


/-! ### The release trace is the reverse of the acquisition trace -/

theorem lex_lt_irrefl : ∀ (q : List Nat), ¬ List.Lex (· < ·) q q := by
  intro q
  induction q with
  | nil => intro h; cases h
  | cons a t ih =>
    intro h
    cases h with
    | cons h => exact ih h
    | rel h => exact lt_irrefl _ h

theorem pairwise_lex_nodup {evs : List (List Nat)}
    (h : evs.Pairwise (List.Lex (· < ·))) : evs.Nodup := by
  refine h.imp ?_
  intro a b hl heq
  subst heq
  exact lex_lt_irrefl a hl

/-- The trace of `dfs_acquire_lock` does not depend on the lock flag of
the sub-tree root. -/
theorem acquire_trace_setLocked (C : PagingConsts) (c : PTNode) (bl : Bool)
    (b vs ve : Nat) :
    (dfs_acquire_lock C (setLocked c bl) b vs ve).2 =
      (dfs_acquire_lock C c b vs ve).2 := by
  cases c with
  | mk l st lk es =>
    show (dfs_acquire_lock C (.mk l st bl es) b vs ve).2 = _
    by_cases hle : l ≤ 1
    · rw [dfs_acquire_lock_mk_low C l st bl es b vs ve hle,
        dfs_acquire_lock_mk_low C l st lk es b vs ve hle]
    · rw [dfs_acquire_lock_mk_high C l st bl es b vs ve hle,
        dfs_acquire_lock_mk_high C l st lk es b vs ve hle]

theorem rel_acq_entries_trace (C : PagingConsts) (lvl b vs ve lo hi : Nat) :
    ∀ (es : List Child) (i : Nat),
      (∀ c, Child.PageTableRef c ∈ es → ∀ (b2 vs2 ve2 : Nat),
        (dfs_release_lock C
            (dfs_acquire_lock C (setLocked c true) b2 vs2 ve2).1
            b2 vs2 ve2).2 =
          ([] :: (dfs_acquire_lock C (setLocked c true) b2 vs2 ve2).2).reverse) →
      (releaseEntries C lvl b vs ve lo hi
          (acquireEntries C lvl b vs ve lo hi es i).1 i).2 =
        ((acquireEntries C lvl b vs ve lo hi es i).2).reverse := by
  intro es
  induction es with
  | nil =>
    intro i _
    rw [acquireEntries_nil, releaseEntries_nil]
    simp
  | cons e rest ih =>
    intro i hch
    have hch2 : ∀ c, Child.PageTableRef c ∈ rest → ∀ (b2 vs2 ve2 : Nat),
        (dfs_release_lock C
            (dfs_acquire_lock C (setLocked c true) b2 vs2 ve2).1
            b2 vs2 ve2).2 =
          ([] :: (dfs_acquire_lock C (setLocked c true) b2 vs2 ve2).2).reverse :=
      fun c hm => hch c (List.mem_cons_of_mem e hm)
    by_cases hin : lo ≤ i ∧ i < hi
    · cases e with
      | PageTableRef c =>
        rw [acquireEntries_cons_ref_in C lvl b vs ve lo hi i c rest hin]
        rw [releaseEntries_cons_ref_in C lvl b vs ve lo hi i
          (childCall C lvl b vs ve i c).1
          (acquireEntries C lvl b vs ve lo hi rest (i + 1)).1 hin]
        have hcc : (childCallR C lvl b vs ve i
            (childCall C lvl b vs ve i c).1).2 =
              ([] :: (childCall C lvl b vs ve i c).2).reverse := by
          rw [childCallR, childCall]
          exact hch c (List.mem_cons_self _ _) _ _ _
        rw [hcc, ih (i + 1) hch2]
        simp [List.map_append, List.map_reverse, List.reverse_cons]
      | None =>
        rw [acquireEntries_cons_nonref_in C lvl b vs ve lo hi i _ rest hin
          (fun c hc => Child.noConfusion hc)]
        rw [releaseEntries_cons_nonref_in C lvl b vs ve lo hi i _ _ hin
          (fun c hc => Child.noConfusion hc)]
        exact ih (i + 1) hch2
      | Frame =>
        rw [acquireEntries_cons_nonref_in C lvl b vs ve lo hi i _ rest hin
          (fun c hc => Child.noConfusion hc)]
        rw [releaseEntries_cons_nonref_in C lvl b vs ve lo hi i _ _ hin
          (fun c hc => Child.noConfusion hc)]
        exact ih (i + 1) hch2
      | Untracked =>
        rw [acquireEntries_cons_nonref_in C lvl b vs ve lo hi i _ rest hin
          (fun c hc => Child.noConfusion hc)]
        rw [releaseEntries_cons_nonref_in C lvl b vs ve lo hi i _ _ hin
          (fun c hc => Child.noConfusion hc)]
        exact ih (i + 1) hch2
      | PageTable =>
        rw [acquireEntries_cons_nonref_in C lvl b vs ve lo hi i _ rest hin
          (fun c hc => Child.noConfusion hc)]
        rw [releaseEntries_cons_nonref_in C lvl b vs ve lo hi i _ _ hin
          (fun c hc => Child.noConfusion hc)]
        exact ih (i + 1) hch2
    · rw [acquireEntries_cons_out C lvl b vs ve lo hi i e rest hin]
      rw [releaseEntries_cons_out C lvl b vs ve lo hi i e _ hin]
      exact ih (i + 1) hch2

theorem release_after_acquire_trace_aux (C : PagingConsts) :
    ∀ (N : Nat) (n : PTNode) (b vs ve : Nat), sizeOf n ≤ N →
      (dfs_release_lock C (dfs_acquire_lock C n b vs ve).1 b vs ve).2 =
        ([] :: (dfs_acquire_lock C n b vs ve).2).reverse := by
  intro N
  induction N with
  | zero =>
    intro n b vs ve hsz
    cases n with
    | mk l st lk es => simp at hsz
  | succ N ihN =>
    intro n b vs ve hsz
    cases n with
    | mk l st lk es =>
    by_cases hle : l ≤ 1
    · rw [dfs_acquire_lock_mk_low C l st lk es b vs ve hle]
      rw [dfs_release_lock_mk_low C l st lk es b vs ve hle]
      rfl
    · rw [dfs_acquire_lock_mk_high C l st lk es b vs ve hle]
      rw [dfs_release_lock_mk_high C l st lk
        (acquireEntries C l b vs ve (dfs_get_idx_range C l b vs ve).1
          (dfs_get_idx_range C l b vs ve).2 es 0).1 b vs ve hle]
      have hlist := rel_acq_entries_trace C l b vs ve
        (dfs_get_idx_range C l b vs ve).1 (dfs_get_idx_range C l b vs ve).2
        es 0
        (fun c hm b2 vs2 ve2 => by
          have hszc : sizeOf (setLocked c true) ≤ N := by
            have := sizeOf_lt_of_ref_mem hm l st lk
            rw [sizeOf_setLocked]
            omega
          exact ihN (setLocked c true) b2 vs2 ve2 hszc)
      rw [hlist, List.reverse_cons]

/-- The unlock trace of `dfs_release_lock`, run on the tree produced by
`dfs_acquire_lock` with the same node base address and range, is exactly
the reverse of the full acquisition order (the sub-tree root's own lock,
taken by the locator, followed by the `dfs_acquire_lock` lock events). -/
theorem release_after_acquire_trace (C : PagingConsts) (n : PTNode)
    (b vs ve : Nat) :
    (dfs_release_lock C (dfs_acquire_lock C n b vs ve).1 b vs ve).2 =
      ([] :: (dfs_acquire_lock C n b vs ve).2).reverse :=
  release_after_acquire_trace_aux C (sizeOf n) n b vs ve (Nat.le_refl _)


/-! ### C6: release walks the reverse of acquisition -/

/-- C6: given the locked sub-tree produced by `dfs_acquire_lock` (its root
locked by the locator, all guards forgotten) and the same node base
address and address range as acquisition, `dfs_release_lock` emits its
unlock events in exactly the reverse of the full acquisition order — the
identical DFS traversal with slot indices visited in descending order —
so it releases every lock that acquisition took exactly once (the trace
has no duplicates and its underlying set is the sub-tree root plus the
acquisition events), and it releases the sub-tree root's own lock last. -/
theorem dfs_release_lock_reverse_order_of_acquisition (C : PagingConsts)
    (n : PTNode) (lvl b vs ve : Nat)
    (hbase : 0 < C.base_page_size) (hfan : 0 < C.fanout)
    (hwf : WFb C lvl n = true) (hb : b ≤ vs) (hv : vs < ve)
    (he : ve ≤ b + page_size C (lvl + 1)) :
    ((dfs_release_lock C (dfs_acquire_lock C n b vs ve).1 b vs ve).2 =
        ([] :: (dfs_acquire_lock C n b vs ve).2).reverse) ∧
    ((dfs_release_lock C (dfs_acquire_lock C n b vs ve).1 b vs ve).2.getLast? =
        some []) ∧
    ((dfs_release_lock C (dfs_acquire_lock C n b vs ve).1 b vs ve).2.Nodup) ∧
    (∀ q, q ∈ (dfs_release_lock C (dfs_acquire_lock C n b vs ve).1 b vs ve).2 ↔
        (q = [] ∨ q ∈ (dfs_acquire_lock C n b vs ve).2)) := by
  obtain ⟨_, _, hA3, hA4, _⟩ :=
    dfs_acquire_lock_spec C hbase hfan n lvl b vs ve hwf hb hv he
  have hrev := release_after_acquire_trace C n b vs ve
  have hnilA : ([] : List Nat) ∉ (dfs_acquire_lock C n b vs ve).2 := by
    intro h
    exact ((hA3 []).mp h).1 rfl
  refine ⟨hrev, ?_, ?_, ?_⟩
  · rw [hrev, List.reverse_cons]
    exact List.getLast?_concat _
  · rw [hrev, List.nodup_reverse]
    exact List.nodup_cons.mpr ⟨hnilA, pairwise_lex_nodup hA4⟩
  · intro q
    rw [hrev, List.mem_reverse, List.mem_cons]

/-- C6 witness: the theorem applied at a concrete input. -/
theorem dfs_release_lock_reverse_order_of_acquisition_witness :
    ((0:Nat) < 4 ∧ (0:Nat) < 2 ∧
      WFb ⟨4, 2, 2⟩ 2 (.mk 2 false true
        [.PageTableRef (.mk 1 false false [.None, .None]), .Frame]) = true ∧
      (0:Nat) ≤ 0 ∧ (0:Nat) < 16 ∧ (16:Nat) ≤ 0 + page_size ⟨4, 2, 2⟩ (2 + 1)) ∧
    (((dfs_release_lock ⟨4, 2, 2⟩ (dfs_acquire_lock ⟨4, 2, 2⟩ (.mk 2 false true
          [.PageTableRef (.mk 1 false false [.None, .None]), .Frame]) 0 0 16).1
          0 0 16).2 =
        ([] :: (dfs_acquire_lock ⟨4, 2, 2⟩ (.mk 2 false true
          [.PageTableRef (.mk 1 false false [.None, .None]), .Frame])
            0 0 16).2).reverse) ∧
      ((dfs_release_lock ⟨4, 2, 2⟩ (dfs_acquire_lock ⟨4, 2, 2⟩ (.mk 2 false true
          [.PageTableRef (.mk 1 false false [.None, .None]), .Frame]) 0 0 16).1
          0 0 16).2.getLast? = some []) ∧
      ((dfs_release_lock ⟨4, 2, 2⟩ (dfs_acquire_lock ⟨4, 2, 2⟩ (.mk 2 false true
          [.PageTableRef (.mk 1 false false [.None, .None]), .Frame]) 0 0 16).1
          0 0 16).2.Nodup) ∧
      (∀ q, q ∈ (dfs_release_lock ⟨4, 2, 2⟩ (dfs_acquire_lock ⟨4, 2, 2⟩
          (.mk 2 false true
            [.PageTableRef (.mk 1 false false [.None, .None]), .Frame])
          0 0 16).1 0 0 16).2 ↔
        (q = [] ∨ q ∈ (dfs_acquire_lock ⟨4, 2, 2⟩ (.mk 2 false true
          [.PageTableRef (.mk 1 false false [.None, .None]), .Frame])
            0 0 16).2))) :=
  ⟨⟨by decide, by decide, by decide, by decide, by decide, by decide⟩,
    dfs_release_lock_reverse_order_of_acquisition ⟨4, 2, 2⟩
      (.mk 2 false true [.PageTableRef (.mk 1 false false [.None, .None]), .Frame])
      2 0 0 16 (by decide) (by decide) (by decide) (by decide) (by decide)
      (by decide)⟩


/-! ### Helpers for the sub-tree root locator -/

@[simp]
theorem stray_setLocked (n : PTNode) (b : Bool) :
    (setLocked n b).stray = n.stray := by
  cases n; rfl

@[simp]
theorem noStray_setLocked (n : PTNode) (b : Bool) :
    noStray (setLocked n b) = noStray n := by
  cases n; rfl

theorem noStray_root {n : PTNode} (h : noStray n = true) : n.stray = false := by
  cases n with
  | mk l s k es =>
    rw [noStray, Bool.and_eq_true] at h
    simpa [PTNode.stray] using h.1

theorem noStray_entries {n : PTNode} (h : noStray n = true) :
    noStrayEntries n.entries = true := by
  cases n with
  | mk l s k es =>
    rw [noStray, Bool.and_eq_true] at h
    exact h.2

theorem WFentries_iff_forall (C : PagingConsts) (lvl : Nat) (es : List Child) :
    WFentries C lvl es = true ↔
      ∀ e ∈ es, (∀ c, e = Child.PageTableRef c →
          2 ≤ lvl ∧ WFb C (lvl - 1) c = true) ∧ e ≠ Child.PageTable := by
  induction es with
  | nil => simp [WFentries]
  | cons e rest ih =>
    constructor
    · intro h x hx
      rcases List.mem_cons.mp hx with rfl | hx2
      · constructor
        · intro c hc
          subst hc
          simp only [WFentries, Bool.and_eq_true, decide_eq_true_iff] at h
          exact h.1
        · intro hc
          subst hc
          simp only [WFentries, Bool.and_eq_true] at h
          simpa using h.1
      · cases e <;>
          (simp only [WFentries, Bool.and_eq_true] at h;
           exact (ih.mp h.2) x hx2)
    · intro h
      have hrest : WFentries C lvl rest = true :=
        ih.mpr (fun x hx => h x (List.mem_cons_of_mem e hx))
      have hhead := h e (List.mem_cons_self _ _)
      cases e with
      | PageTableRef c =>
        simp only [WFentries, Bool.and_eq_true, decide_eq_true_iff]
        exact ⟨hhead.1 c rfl, hrest⟩
      | None => simp only [WFentries]; simpa using hrest
      | Frame => simp only [WFentries]; simpa using hrest
      | Untracked => simp only [WFentries]; simpa using hrest
      | PageTable => exact absurd rfl hhead.2

theorem WFentries_set (C : PagingConsts) {lvl : Nat} {es : List Child}
    (h : WFentries C lvl es = true) {c : PTNode} (i : Nat)
    (hlvl : 2 ≤ lvl) (hc : WFb C (lvl - 1) c = true) :
    WFentries C lvl (es.set i (Child.PageTableRef c)) = true := by
  rw [WFentries_iff_forall]
  intro x hx
  rcases List.mem_or_eq_of_mem_set hx with hx2 | rfl
  · exact (WFentries_iff_forall C lvl es).mp h x hx2
  · refine ⟨?_, by intro hcon; cases hcon⟩
    intro c2 hc2
    cases hc2
    exact ⟨hlvl, hc⟩

theorem noStrayEntries_iff_forall (es : List Child) :
    noStrayEntries es = true ↔
      ∀ c, Child.PageTableRef c ∈ es → noStray c = true := by
  induction es with
  | nil => simp [noStrayEntries]
  | cons e rest ih =>
    constructor
    · intro h c hc
      exact noStrayEntries_mem h hc
    · intro h
      cases e with
      | PageTableRef c =>
        rw [noStrayEntries, Bool.and_eq_true]
        exact ⟨h c (List.mem_cons_self _ _),
          ih.mpr (fun c2 hc2 => h c2 (List.mem_cons_of_mem _ hc2))⟩
      | None =>
        simp only [noStrayEntries]
        exact ih.mpr (fun c2 hc2 => h c2 (List.mem_cons_of_mem _ hc2))
      | Frame =>
        simp only [noStrayEntries]
        exact ih.mpr (fun c2 hc2 => h c2 (List.mem_cons_of_mem _ hc2))
      | Untracked =>
        simp only [noStrayEntries]
        exact ih.mpr (fun c2 hc2 => h c2 (List.mem_cons_of_mem _ hc2))
      | PageTable =>
        simp only [noStrayEntries]
        exact ih.mpr (fun c2 hc2 => h c2 (List.mem_cons_of_mem _ hc2))

theorem noStrayEntries_set {es : List Child}
    (h : noStrayEntries es = true) {c : PTNode} (i : Nat)
    (hc : noStray c = true) :
    noStrayEntries (es.set i (Child.PageTableRef c)) = true := by
  rw [noStrayEntries_iff_forall]
  intro x hx
  rcases List.mem_or_eq_of_mem_set hx with hx2 | hx2
  · exact noStrayEntries_mem h hx2
  · cases hx2
    exact hc

theorem WFentries_replicate (C : PagingConsts) (lvl k : Nat) :
    WFentries C lvl (List.replicate k Child.None) = true := by
  rw [WFentries_iff_forall]
  intro e he
  rw [List.eq_of_mem_replicate he]
  exact ⟨fun c hc => Child.noConfusion hc, fun hc => Child.noConfusion hc⟩

theorem noStrayEntries_replicate (k : Nat) :
    noStrayEntries (List.replicate k Child.None) = true := by
  rw [noStrayEntries_iff_forall]
  intro c hc
  have := List.eq_of_mem_replicate hc
  cases this

theorem lockedAt_replicate_cons (l : Nat) (s k : Bool) (m j : Nat)
    (tail : List Nat) :
    lockedAt (.mk l s k (List.replicate m Child.None)) (j :: tail) = false := by
  refine lockedAt_cons_other l s k tail ?_
  intro c hc
  rw [List.getElem?_replicate] at hc
  by_cases hj : j < m
  · rw [if_pos hj] at hc
    cases Option.some.inj hc
  · rw [if_neg hj] at hc
    cases hc

theorem pte_index_lt (C : PagingConsts) (hfan : 0 < C.fanout) (a cl : Nat) :
    pte_index C a cl < C.fanout := Nat.mod_lt _ hfan

/-- The base-`fanout` digit decomposition of the level-`cl` quotient. -/
theorem div_decompose (C : PagingConsts) (a cl : Nat) (hcl : 1 ≤ cl) :
    a / page_size C cl =
      a / page_size C (cl + 1) * C.fanout + pte_index C a cl := by
  rw [page_size_succ C cl hcl, ← Nat.div_div_eq_div_mul, pte_index]
  exact (Nat.div_add_mod' _ _).symm

theorem div_step (C : PagingConsts) (vs ve cl : Nat) (hcl : 1 ≤ cl)
    (hq : vs / page_size C (cl + 1) = (ve - 1) / page_size C (cl + 1))
    (hi : pte_index C vs cl = pte_index C (ve - 1) cl) :
    vs / page_size C cl = (ve - 1) / page_size C cl := by
  rw [div_decompose C vs cl hcl, div_decompose C (ve - 1) cl hcl, hq, hi]

theorem base_eq (C : PagingConsts) (vs cl : Nat) (hcl : 1 ≤ cl) :
    vs / page_size C (cl + 1) * page_size C (cl + 1) +
        pte_index C vs cl * page_size C cl =
      vs / page_size C cl * page_size C cl := by
  rw [div_decompose C vs cl hcl, Nat.add_mul, page_size_succ C cl hcl]
  ring

theorem range_in_node (C : PagingConsts) (ps vs ve : Nat) (hps : 0 < ps)
    (hv : vs < ve) (hq : vs / ps = (ve - 1) / ps) :
    ve ≤ vs / ps * ps + ps := by
  have h1 : ve - 1 < ((ve - 1) / ps + 1) * ps :=
    (Nat.div_lt_iff_lt_mul hps).mp (Nat.lt_succ_self _)
  rw [← hq] at h1
  have h2 : (vs / ps + 1) * ps = vs / ps * ps + ps := Nat.succ_mul _ _
  omega

theorem div_mul_le (vs ps : Nat) : vs / ps * ps ≤ vs := Nat.div_mul_le_self _ _

theorem vaOfPath_append (C : PagingConsts) :
    ∀ (p : List Nat) (b lvl : Nat) (s : List Nat),
      vaOfPath C b lvl (p ++ s) =
        vaOfPath C (vaOfPath C b lvl p) (lvl - p.length) s := by
  intro p
  induction p with
  | nil => intro b lvl s; simp
  | cons i p ih =>
    intro b lvl s
    rw [List.cons_append, vaOfPath_cons, vaOfPath_cons, ih]
    have hlen2 : lvl - (i :: p).length = lvl - 1 - p.length := by
      simp only [List.length_cons]
      omega
    rw [hlen2]

theorem WFb_nodeAt (C : PagingConsts) :
    ∀ (q : List Nat) (t sub : PTNode) (lvl : Nat),
      WFb C lvl t = true → nodeAt q t = some sub →
      WFb C (lvl - q.length) sub = true := by
  intro q
  induction q with
  | nil =>
    intro t sub lvl hwf hn
    cases Option.some.inj hn
    simpa using hwf
  | cons i p ih =>
    intro t sub lvl hwf hn
    cases t with
    | mk l s k es =>
      obtain ⟨hl, hlen, hlvl1, hents⟩ := (WFb_mk_iff C lvl l s k es).mp hwf
      cases hg : es[i]? with
      | none => rw [nodeAt_cons_other l s k p (by simp [hg])] at hn; cases hn
      | some e =>
        cases e with
        | PageTableRef c =>
          rw [nodeAt_cons_ref l s k p hg] at hn
          obtain ⟨h2, hwfc⟩ := WFentries_ref hents hg
          have := ih c sub (lvl - 1) hwfc hn
          rw [show lvl - 1 - p.length = lvl - (i :: p).length from by
            simp only [List.length_cons]; omega] at this
          exact this
        | None => rw [nodeAt_cons_other l s k p (by simp [hg])] at hn; cases hn
        | Frame => rw [nodeAt_cons_other l s k p (by simp [hg])] at hn; cases hn
        | Untracked =>
          rw [nodeAt_cons_other l s k p (by simp [hg])] at hn; cases hn
        | PageTable =>
          rw [nodeAt_cons_other l s k p (by simp [hg])] at hn; cases hn


/-! ### Case equations for the sub-tree root locator -/

theorem tt_eq_break (C : PagingConsts) (cl : Nat) (t : PTNode) (g : Bool)
    (vs ve : Nat)
    (h : ¬(1 < cl ∧ pte_index C vs cl = pte_index C (ve - 1) cl)) :
    try_traverse_and_lock_subtree_root C cl t g vs ve =
      (if (if g then t else setLocked t true).stray then
        (setLocked (if g then t else setLocked t true) false, none)
      else (if g then t else setLocked t true, some [])) := by
  rw [try_traverse_and_lock_subtree_root.eq_def]
  simp only [dif_neg h]

theorem tt_eq_ref (C : PagingConsts) (cl : Nat) (t : PTNode) (g : Bool)
    (vs ve : Nat) (c : PTNode)
    (h : 1 < cl ∧ pte_index C vs cl = pte_index C (ve - 1) cl)
    (hg : t.entries[pte_index C vs cl]? = some (.PageTableRef c)) :
    try_traverse_and_lock_subtree_root C cl t g vs ve =
      (PTNode.mk (if g then setLocked t false else t).level
          (if g then setLocked t false else t).stray
          (if g then setLocked t false else t).locked
          ((if g then setLocked t false else t).entries.set (pte_index C vs cl)
            (Child.PageTableRef
              (try_traverse_and_lock_subtree_root C (cl - 1) c false vs ve).1)),
        (try_traverse_and_lock_subtree_root C (cl - 1) c false vs ve).2.map
          (fun rp => pte_index C vs cl :: rp)) := by
  rw [try_traverse_and_lock_subtree_root.eq_def]
  simp only [dif_pos h, hg]

theorem tt_eq_leaf (C : PagingConsts) (cl : Nat) (t : PTNode) (g : Bool)
    (vs ve : Nat) (e : Child)
    (h : 1 < cl ∧ pte_index C vs cl = pte_index C (ve - 1) cl)
    (hg : t.entries[pte_index C vs cl]? = some e)
    (he : e = Child.Frame ∨ e = Child.Untracked ∨ e = Child.PageTable) :
    try_traverse_and_lock_subtree_root C cl t g vs ve =
      (if (if g then t else setLocked t true).stray then
        (setLocked (if g then t else setLocked t true) false, none)
      else (if g then t else setLocked t true, some [])) := by
  rw [try_traverse_and_lock_subtree_root.eq_def]
  rcases he with rfl | rfl | rfl <;> simp only [dif_pos h, hg]

theorem tt_eq_absent (C : PagingConsts) (cl : Nat) (t : PTNode) (g : Bool)
    (vs ve : Nat)
    (h : 1 < cl ∧ pte_index C vs cl = pte_index C (ve - 1) cl)
    (hg : t.entries[pte_index C vs cl]? = some Child.None ∨
      t.entries[pte_index C vs cl]? = none)
    (hstray : (if g then t else setLocked t true).stray = false) :
    try_traverse_and_lock_subtree_root C cl t g vs ve =
      (PTNode.mk (setLocked (if g then t else setLocked t true) false).level
          (setLocked (if g then t else setLocked t true) false).stray
          (setLocked (if g then t else setLocked t true) false).locked
          ((setLocked (if g then t else setLocked t true) false).entries.set
            (pte_index C vs cl)
            (Child.PageTableRef
              (try_traverse_and_lock_subtree_root C (cl - 1)
                (PTNode.mk (cl - 1) false true
                  (List.replicate C.fanout Child.None)) true vs ve).1)),
        (try_traverse_and_lock_subtree_root C (cl - 1)
          (PTNode.mk (cl - 1) false true
            (List.replicate C.fanout Child.None)) true vs ve).2.map
          (fun rp => pte_index C vs cl :: rp)) := by
  rw [try_traverse_and_lock_subtree_root.eq_def]
  rcases hg with hg | hg <;>
    simp only [dif_pos h, hg, hstray, Bool.false_eq_true, if_false]


/-! ### The full specification of the sub-tree root locator -/

theorem lockedAt_nil_eq (t : PTNode) : lockedAt t [] = t.locked := by
  cases t; rfl

theorem WFb_level {C : PagingConsts} {lvl : Nat} {t : PTNode}
    (h : WFb C lvl t = true) : t.level = lvl := by
  cases t with
  | mk l s k es => exact ((WFb_mk_iff C lvl l s k es).mp h).1

theorem WFb_ge1 {C : PagingConsts} {lvl : Nat} {t : PTNode}
    (h : WFb C lvl t = true) : 1 ≤ lvl := by
  cases t with
  | mk l s k es => exact ((WFb_mk_iff C lvl l s k es).mp h).2.2.1

theorem lockedAt_cons_set_ne (l : Nat) (st lk lk2 : Bool) (es : List Child)
    (x : Child) (idx j : Nat) (hne : j ≠ idx) (tl : List Nat) :
    lockedAt (.mk l st lk2 (es.set idx x)) (j :: tl) =
      lockedAt (.mk l st lk es) (j :: tl) := by
  have hget : (es.set idx x)[j]? = es[j]? :=
    List.getElem?_set_ne (fun hh => hne hh.symm)
  cases hg : es[j]? with
  | none =>
    rw [lockedAt_cons_other _ st lk2 tl (by simp [hget, hg]),
      lockedAt_cons_other _ st lk tl (by simp [hg])]
  | some e =>
    cases e with
    | PageTableRef c =>
      rw [lockedAt_cons_ref _ st lk2 tl (by rw [hget, hg]),
        lockedAt_cons_ref _ st lk tl hg]
    | None =>
      rw [lockedAt_cons_other _ st lk2 tl (by simp [hget, hg]),
        lockedAt_cons_other _ st lk tl (by simp [hg])]
    | Frame =>
      rw [lockedAt_cons_other _ st lk2 tl (by simp [hget, hg]),
        lockedAt_cons_other _ st lk tl (by simp [hg])]
    | Untracked =>
      rw [lockedAt_cons_other _ st lk2 tl (by simp [hget, hg]),
        lockedAt_cons_other _ st lk tl (by simp [hg])]
    | PageTable =>
      rw [lockedAt_cons_other _ st lk2 tl (by simp [hget, hg]),
        lockedAt_cons_other _ st lk tl (by simp [hg])]

/-- What a successful run of the locator from level `cl` establishes: it
returns some path `rp`; the updated tree is well-formed, stray-free and
locked exactly at `rp`; `rp` follows the slot indices of the range's
start address level by level; and the node at `rp` — the locked sub-tree
root — sits at the level where the locator stopped, covers the whole
range (the start and the inclusive end have equal quotients at its span),
its virtual address is the range start aligned down to its span, and the
stop was for one of the three reasons of the source: level 1 reached, the
range spans two children at the node's level, or the entry for the start
address is a leaf mapping. -/
def TTSpec (C : PagingConsts) (cl : Nat) (t : PTNode) (guarded : Bool)
    (vs ve : Nat) : Prop :=
  ∃ rp,
    (try_traverse_and_lock_subtree_root C cl t guarded vs ve).2 = some rp ∧
    WFb C cl (try_traverse_and_lock_subtree_root C cl t guarded vs ve).1 =
      true ∧
    noStray (try_traverse_and_lock_subtree_root C cl t guarded vs ve).1 =
      true ∧
    (∀ q, lockedAt (try_traverse_and_lock_subtree_root C cl t guarded vs ve).1
        q = decide (q = rp)) ∧
    (∀ k, k < rp.length → rp[k]? = some (pte_index C vs (cl - k))) ∧
    ∃ sub,
      nodeAt rp (try_traverse_and_lock_subtree_root C cl t guarded vs ve).1 =
        some sub ∧
      sub.level = cl - rp.length ∧
      1 ≤ sub.level ∧
      vs / page_size C (sub.level + 1) =
        (ve - 1) / page_size C (sub.level + 1) ∧
      vaOfPath C (vs / page_size C (cl + 1) * page_size C (cl + 1)) cl rp =
        vs / page_size C (sub.level + 1) * page_size C (sub.level + 1) ∧
      (sub.level = 1 ∨
        pte_index C vs sub.level ≠ pte_index C (ve - 1) sub.level ∨
        (∃ e, sub.entries[pte_index C vs sub.level]? = some e ∧
          (e = Child.Frame ∨ e = Child.Untracked)))

theorem tt_break_spec (C : PagingConsts) (cl : Nat) (t : PTNode)
    (guarded : Bool) (vs ve : Nat)
    (hwf : WFb C cl t = true) (hst : noStray t = true)
    (hlk : ∀ q, lockedAt t q = (guarded && decide (q = [])))
    (hq : vs / page_size C (cl + 1) = (ve - 1) / page_size C (cl + 1))
    (heq : try_traverse_and_lock_subtree_root C cl t guarded vs ve =
      (if (if guarded then t else setLocked t true).stray then
        (setLocked (if guarded then t else setLocked t true) false, none)
      else (if guarded then t else setLocked t true, some [])))
    (hstop : cl = 1 ∨ pte_index C vs cl ≠ pte_index C (ve - 1) cl ∨
      (∃ e, t.entries[pte_index C vs cl]? = some e ∧
        (e = Child.Frame ∨ e = Child.Untracked))) :
    TTSpec C cl t guarded vs ve := by
  have hstray0 : t.stray = false := noStray_root hst
  have htlk : t.locked = guarded := by
    have h0 := hlk []
    rw [lockedAt_nil_eq] at h0
    simpa using h0
  have hng : (if guarded then t else setLocked t true) = setLocked t true := by
    cases guarded with
    | true =>
      simp only [if_true]
      cases t with
      | mk l s k es =>
        simp only [PTNode.locked] at htlk
        rw [htlk]
        rfl
    | false => simp
  rw [hng] at heq
  rw [show (setLocked t true).stray = false from by simpa using hstray0]
    at heq
  simp only [Bool.false_eq_true, if_false] at heq
  refine ⟨[], by rw [heq], ?_, ?_, ?_, ?_, ?_⟩
  · rw [heq]
    simpa using hwf
  · rw [heq]
    simpa using hst
  · intro q
    rw [heq]
    cases q with
    | nil => simp
    | cons j tl =>
      show lockedAt (setLocked t true) (j :: tl) = _
      rw [lockedAt_setLocked_cons, hlk (j :: tl)]
      simp
  · intro k hk
    simp at hk
  · refine ⟨setLocked t true, by rw [heq]; rfl, ?_, ?_, ?_, ?_, ?_⟩
    · simp [WFb_level hwf]
    · have h1 := WFb_ge1 hwf
      simp [WFb_level hwf]
      omega
    · rw [level_setLocked, WFb_level hwf]
      exact hq
    · rw [level_setLocked, WFb_level hwf]
      simp
    · rw [level_setLocked, WFb_level hwf, entries_setLocked]
      exact hstop


theorem WFb_entries_len {C : PagingConsts} {lvl : Nat} {t : PTNode}
    (h : WFb C lvl t = true) : t.entries.length = C.fanout := by
  cases t with
  | mk l s k es => exact ((WFb_mk_iff C lvl l s k es).mp h).2.1

theorem WFb_entries {C : PagingConsts} {lvl : Nat} {t : PTNode}
    (h : WFb C lvl t = true) : WFentries C lvl t.entries = true := by
  cases t with
  | mk l s k es => exact ((WFb_mk_iff C lvl l s k es).mp h).2.2.2

theorem tt_descend_spec (C : PagingConsts) (hfan : 0 < C.fanout)
    (cl l : Nat) (st lk : Bool) (es : List Child)
    (guarded : Bool) (vs ve : Nat) (c : PTNode) (g2 : Bool)
    (hwf : WFb C cl (.mk l st lk es) = true)
    (hst : noStray (.mk l st lk es) = true)
    (h2cl : 1 < cl)
    (hlk : ∀ q, lockedAt (.mk l st lk es) q = (guarded && decide (q = [])))
    (hchild : TTSpec C (cl - 1) c g2 vs ve)
    (heq : try_traverse_and_lock_subtree_root C cl (.mk l st lk es) guarded
        vs ve =
      (PTNode.mk l st false
          (es.set (pte_index C vs cl)
            (Child.PageTableRef
              (try_traverse_and_lock_subtree_root C (cl - 1) c g2 vs ve).1)),
        (try_traverse_and_lock_subtree_root C (cl - 1) c g2 vs ve).2.map
          (fun rp => pte_index C vs cl :: rp))) :
    TTSpec C cl (.mk l st lk es) guarded vs ve := by
  obtain ⟨rp2, hsome2, hwf2, hst2, hlk2, hdig2, sub, hnode2, hlev2, h1sub,
    hq2, hva2, hstop2⟩ := hchild
  have hl : l = cl := WFb_level hwf
  have hlen : es.length = C.fanout := WFb_entries_len hwf
  have hents : WFentries C cl es = true := WFb_entries hwf
  have hst0 : st = false := by
    have := noStray_root hst
    simpa [PTNode.stray] using this
  have hidxlt : pte_index C vs cl < es.length := by
    rw [hlen]
    exact pte_index_lt C hfan vs cl
  have hset : (es.set (pte_index C vs cl)
      (Child.PageTableRef
        (try_traverse_and_lock_subtree_root C (cl - 1) c g2 vs ve).1))[
          (pte_index C vs cl)]? =
      some (Child.PageTableRef
        (try_traverse_and_lock_subtree_root C (cl - 1) c g2 vs ve).1) :=
    List.getElem?_set_eq_of_lt _ hidxlt
  refine ⟨pte_index C vs cl :: rp2, ?_, ?_, ?_, ?_, ?_, ?_⟩
  · rw [heq]
    show ((try_traverse_and_lock_subtree_root C (cl - 1) c g2 vs ve).2.map
      (fun rp => pte_index C vs cl :: rp)) = _
    rw [hsome2]
    rfl
  · rw [heq]
    show WFb C cl (PTNode.mk l st false _) = true
    rw [WFb_mk_iff]
    refine ⟨hl, ?_, by omega, ?_⟩
    · rw [List.length_set]
      exact hlen
    · exact WFentries_set C hents _ (by omega) hwf2
  · rw [heq]
    show noStray (PTNode.mk l st false _) = true
    rw [noStray, Bool.and_eq_true, hst0]
    refine ⟨rfl, ?_⟩
    exact noStrayEntries_set (noStray_entries hst) _ hst2
  · intro q
    rw [heq]
    cases q with
    | nil => simp
    | cons j tl =>
      by_cases hj : j = pte_index C vs cl
      · subst hj
        show lockedAt (PTNode.mk l st false _) (pte_index C vs cl :: tl) = _
        rw [lockedAt_cons_ref l st false tl hset, hlk2 tl]
        simp
      · show lockedAt (PTNode.mk l st false _) (j :: tl) = _
        rw [lockedAt_cons_set_ne l st lk false es _ _ j hj tl, hlk (j :: tl)]
        simp [hj]
  · intro k hk
    cases k with
    | zero => simp
    | succ k =>
      simp only [List.length_cons] at hk
      have hk2 : k < rp2.length := by omega
      rw [List.getElem?_cons_succ,
        show cl - (k + 1) = cl - 1 - k from by omega]
      exact hdig2 k hk2
  · refine ⟨sub, ?_, ?_, h1sub, hq2, ?_, hstop2⟩
    · rw [heq]
      show nodeAt (pte_index C vs cl :: rp2) (PTNode.mk l st false _) = _
      rw [nodeAt_cons_ref l st false rp2 hset]
      exact hnode2
    · rw [hlev2]
      simp only [List.length_cons]
      omega
    · rw [vaOfPath_cons]
      rw [show vs / page_size C (cl - 1 + 1) * page_size C (cl - 1 + 1) =
          vs / page_size C cl * page_size C cl from by
        rw [show cl - 1 + 1 = cl from by omega]] at hva2
      rw [base_eq C vs cl (by omega)]
      exact hva2

theorem tt_spec (C : PagingConsts) (hfan : 0 < C.fanout) (vs ve : Nat)
    (hv : vs < ve) :
    ∀ (cl : Nat) (t : PTNode) (guarded : Bool),
      WFb C cl t = true → noStray t = true →
      (∀ q, lockedAt t q = (guarded && decide (q = []))) →
      vs / page_size C (cl + 1) = (ve - 1) / page_size C (cl + 1) →
      TTSpec C cl t guarded vs ve := by
  intro cl
  induction cl using Nat.strong_induction_on with
  | _ cl ih =>
    intro t guarded hwf hst hlk hq
    by_cases hcond : 1 < cl ∧ pte_index C vs cl = pte_index C (ve - 1) cl
    · -- the level is too high: descend.
      cases t with
      | mk l st lk es =>
      have hl : l = cl := WFb_level hwf
      have hlen : es.length = C.fanout := WFb_entries_len hwf
      have hents : WFentries C cl es = true := WFb_entries hwf
      have htlk : lk = guarded := by
        have h0 := hlk []
        rw [lockedAt_nil_eq] at h0
        simpa [PTNode.locked] using h0
      have hqchild : vs / page_size C (cl - 1 + 1) =
          (ve - 1) / page_size C (cl - 1 + 1) := by
        rw [show cl - 1 + 1 = cl from by omega]
        exact div_step C vs ve cl (by omega) hq hcond.2
      have hidxlt : pte_index C vs cl < es.length := by
        rw [hlen]
        exact pte_index_lt C hfan vs cl
      cases hg : es[pte_index C vs cl]? with
      | none =>
        rw [List.getElem?_eq_none_iff] at hg
        omega
      | some e =>
        cases e with
        | PageTableRef c =>
          -- present child node: descend without locking.
          have hchild : TTSpec C (cl - 1) c false vs ve := by
            refine ih (cl - 1) (by omega) c false
              (WFentries_ref hents hg).2
              (noStrayEntries_mem (noStray_entries hst)
                (List.getElem?_mem hg)) ?_ hqchild
            intro q
            have h0 := hlk (pte_index C vs cl :: q)
            rw [lockedAt_cons_ref l st lk q hg] at h0
            rw [h0]
            simp
          have heqr := tt_eq_ref C cl (.mk l st lk es) guarded vs ve c hcond
            (by simpa [PTNode.entries] using hg)
          have hn1 : (if guarded then setLocked (.mk l st lk es) false
              else (.mk l st lk es)) = PTNode.mk l st false es := by
            cases guarded with
            | true => rfl
            | false =>
              simp only [Bool.false_eq_true, if_false]
              rw [← htlk]
          rw [hn1] at heqr
          simp only [PTNode.level, PTNode.stray, PTNode.locked,
            PTNode.entries] at heqr
          exact tt_descend_spec C hfan cl l st lk es guarded vs ve c false
            hwf hst (by omega) hlk hchild heqr
        | None =>
          -- absent child: lock, allocate a fresh locked child, descend.
          have hfresh_wf : WFb C (cl - 1)
              (PTNode.mk (cl - 1) false true
                (List.replicate C.fanout Child.None)) = true := by
            rw [WFb_mk_iff]
            exact ⟨rfl, List.length_replicate _ _, by omega,
              WFentries_replicate C _ _⟩
          have hfresh_st : noStray (PTNode.mk (cl - 1) false true
              (List.replicate C.fanout Child.None)) = true := by
            rw [noStray, Bool.and_eq_true]
            exact ⟨rfl, noStrayEntries_replicate _⟩
          have hfresh_lk : ∀ q, lockedAt (PTNode.mk (cl - 1) false true
              (List.replicate C.fanout Child.None)) q =
                (true && decide (q = [])) := by
            intro q
            cases q with
            | nil => simp
            | cons j tl => rw [lockedAt_replicate_cons]; simp
          have hchild : TTSpec C (cl - 1)
              (PTNode.mk (cl - 1) false true
                (List.replicate C.fanout Child.None)) true vs ve :=
            ih (cl - 1) (by omega) _ true hfresh_wf hfresh_st hfresh_lk
              hqchild
          have hst0 : st = false := by
            have := noStray_root hst
            simpa [PTNode.stray] using this
          have hng : (if guarded then (PTNode.mk l st lk es)
              else setLocked (.mk l st lk es) true) =
                PTNode.mk l st true es := by
            cases guarded with
            | true =>
              simp only [if_true]
              rw [htlk]
            | false => rfl
          have heqa := tt_eq_absent C cl (.mk l st lk es) guarded vs ve hcond
            (Or.inl (by simpa [PTNode.entries] using hg))
            (by rw [hng]; simpa [PTNode.stray] using hst0)
          rw [hng] at heqa
          simp only [setLocked, PTNode.level, PTNode.stray, PTNode.locked,
            PTNode.entries] at heqa
          exact tt_descend_spec C hfan cl l st lk es guarded vs ve _ true
            hwf hst (by omega) hlk hchild heqa
        | Frame =>
          refine tt_break_spec C cl (.mk l st lk es) guarded vs ve hwf hst
            hlk hq
            (tt_eq_leaf C cl (.mk l st lk es) guarded vs ve Child.Frame hcond
              (by simpa [PTNode.entries] using hg) (Or.inl rfl)) ?_
          exact Or.inr (Or.inr ⟨Child.Frame,
            by simpa [PTNode.entries] using hg, Or.inl rfl⟩)
        | Untracked =>
          refine tt_break_spec C cl (.mk l st lk es) guarded vs ve hwf hst
            hlk hq
            (tt_eq_leaf C cl (.mk l st lk es) guarded vs ve Child.Untracked
              hcond (by simpa [PTNode.entries] using hg)
              (Or.inr (Or.inl rfl))) ?_
          exact Or.inr (Or.inr ⟨Child.Untracked,
            by simpa [PTNode.entries] using hg, Or.inr rfl⟩)
        | PageTable =>
          exact absurd (List.getElem?_mem hg) (WFentries_no_pagetable hents)
    · -- break: the sub-tree root is the current node.
      refine tt_break_spec C cl t guarded vs ve hwf hst hlk hq
        (tt_eq_break C cl t guarded vs ve hcond) ?_
      have h1 := WFb_ge1 hwf
      by_cases h2 : 1 < cl
      · right
        left
        intro hcontra
        exact hcond ⟨h2, hcontra⟩
      · left
        omega


/-! ### Helpers for composing the locator with the DFS walkers -/

theorem nodeAt_append :
    ∀ (p : List Nat) (t m : PTNode) (s : List Nat),
      nodeAt p t = some m → nodeAt (p ++ s) t = nodeAt s m := by
  intro p
  induction p with
  | nil =>
    intro t m s h
    cases Option.some.inj h
    rfl
  | cons i p ih =>
    intro t m s h
    cases t with
    | mk l st k es =>
      cases hg : es[i]? with
      | none => rw [nodeAt_cons_other l st k p (by simp [hg])] at h; cases h
      | some e =>
        cases e with
        | PageTableRef c =>
          rw [nodeAt_cons_ref l st k p hg] at h
          rw [List.cons_append, nodeAt_cons_ref l st k (p ++ s) hg]
          exact ih c m s h
        | None => rw [nodeAt_cons_other l st k p (by simp [hg])] at h; cases h
        | Frame => rw [nodeAt_cons_other l st k p (by simp [hg])] at h; cases h
        | Untracked =>
          rw [nodeAt_cons_other l st k p (by simp [hg])] at h; cases h
        | PageTable =>
          rw [nodeAt_cons_other l st k p (by simp [hg])] at h; cases h

theorem noStray_nodeAt :
    ∀ (q : List Nat) (t n : PTNode),
      noStray t = true → nodeAt q t = some n → noStray n = true := by
  intro q
  induction q with
  | nil =>
    intro t n hst h
    cases Option.some.inj h
    exact hst
  | cons i p ih =>
    intro t n hst h
    cases t with
    | mk l st k es =>
      cases hg : es[i]? with
      | none => rw [nodeAt_cons_other l st k p (by simp [hg])] at h; cases h
      | some e =>
        cases e with
        | PageTableRef c =>
          rw [nodeAt_cons_ref l st k p hg] at h
          exact ih c n
            (noStrayEntries_mem (noStray_entries hst) (List.getElem?_mem hg)) h
        | None => rw [nodeAt_cons_other l st k p (by simp [hg])] at h; cases h
        | Frame => rw [nodeAt_cons_other l st k p (by simp [hg])] at h; cases h
        | Untracked =>
          rw [nodeAt_cons_other l st k p (by simp [hg])] at h; cases h
        | PageTable =>
          rw [nodeAt_cons_other l st k p (by simp [hg])] at h; cases h

theorem allUnlockedEntries_mem {es : List Child}
    (h : allUnlockedEntries es = true) {c : PTNode}
    (hm : Child.PageTableRef c ∈ es) : allUnlocked c = true := by
  induction es with
  | nil => cases hm
  | cons e rest ih =>
    rcases List.mem_cons.mp hm with he | hm2
    · subst he
      rw [allUnlockedEntries, Bool.and_eq_true] at h
      exact h.1
    · cases e with
      | PageTableRef c2 =>
        rw [allUnlockedEntries, Bool.and_eq_true] at h
        exact ih h.2 hm2
      | None => exact ih h hm2
      | Frame => exact ih h hm2
      | Untracked => exact ih h hm2
      | PageTable => exact ih h hm2

theorem allUnlocked_lockedAt :
    ∀ (q : List Nat) (t : PTNode),
      allUnlocked t = true → lockedAt t q = false := by
  intro q
  induction q with
  | nil =>
    intro t h
    rw [lockedAt_nil_eq]
    cases t with
    | mk l s k es =>
      rw [allUnlocked, Bool.and_eq_true] at h
      simpa [PTNode.locked] using h.1
  | cons i p ih =>
    intro t h
    cases t with
    | mk l s k es =>
      rw [allUnlocked, Bool.and_eq_true] at h
      cases hg : es[i]? with
      | none => exact lockedAt_cons_other l s k p (by simp [hg])
      | some e =>
        cases e with
        | PageTableRef c =>
          rw [lockedAt_cons_ref l s k p hg]
          exact ih c (allUnlockedEntries_mem h.2 (List.getElem?_mem hg))
        | None => exact lockedAt_cons_other l s k p (by simp [hg])
        | Frame => exact lockedAt_cons_other l s k p (by simp [hg])
        | Untracked => exact lockedAt_cons_other l s k p (by simp [hg])
        | PageTable => exact lockedAt_cons_other l s k p (by simp [hg])

theorem nodeAt_replaceAt_append :
    ∀ (rp : List Nat) (t m x : PTNode) (s : List Nat),
      nodeAt rp t = some m →
      nodeAt (rp ++ s) (replaceAt rp t x) = nodeAt s x := by
  intro rp
  induction rp with
  | nil =>
    intro t m x s _
    rfl
  | cons i rp ih =>
    intro t m x s h
    cases t with
    | mk l st k es =>
      cases hg : es[i]? with
      | none => rw [nodeAt_cons_other l st k rp (by simp [hg])] at h; cases h
      | some e =>
        cases e with
        | PageTableRef c =>
          rw [nodeAt_cons_ref l st k rp hg] at h
          have hi : i < es.length := (List.getElem?_eq_some.mp hg).1
          rw [replaceAt]
          rw [hg]
          rw [List.cons_append]
          rw [nodeAt_cons_ref l st k (rp ++ s)
            (List.getElem?_set_eq_of_lt _ hi)]
          exact ih c m x s h
        | None => rw [nodeAt_cons_other l st k rp (by simp [hg])] at h; cases h
        | Frame => rw [nodeAt_cons_other l st k rp (by simp [hg])] at h; cases h
        | Untracked =>
          rw [nodeAt_cons_other l st k rp (by simp [hg])] at h; cases h
        | PageTable =>
          rw [nodeAt_cons_other l st k rp (by simp [hg])] at h; cases h

theorem lockedAt_replaceAt_append (rp : List Nat) (t m x : PTNode)
    (s : List Nat) (h : nodeAt rp t = some m) :
    lockedAt (replaceAt rp t x) (rp ++ s) = lockedAt x s := by
  unfold lockedAt
  rw [nodeAt_replaceAt_append rp t m x s h]

theorem lockedAt_replaceAt_outside :
    ∀ (rp : List Nat) (t x : PTNode) (q : List Nat),
      (∀ s, q ≠ rp ++ s) →
      lockedAt (replaceAt rp t x) q = lockedAt t q := by
  intro rp
  induction rp with
  | nil =>
    intro t x q hq
    exact absurd rfl (hq q)
  | cons i rp ih =>
    intro t x q hq
    cases t with
    | mk l st k es =>
      cases hg : es[i]? with
      | none =>
        rw [replaceAt, hg]
      | some e =>
        cases e with
        | PageTableRef c =>
          rw [replaceAt, hg]
          dsimp only
          cases q with
          | nil =>
            rw [lockedAt_nil_eq, lockedAt_nil_eq]
            rfl
          | cons j tl =>
            by_cases hj : j = i
            · subst hj
              have hi : j < es.length := (List.getElem?_eq_some.mp hg).1
              rw [lockedAt_cons_ref l st k tl
                (List.getElem?_set_eq_of_lt _ hi)]
              rw [lockedAt_cons_ref l st k tl hg]
              refine ih c x tl ?_
              intro s hs
              exact hq s (by rw [hs, List.cons_append])
            · rw [lockedAt_cons_set_ne l st k k es _ i j hj tl]
        | None => rw [replaceAt, hg]
        | Frame => rw [replaceAt, hg]
        | Untracked => rw [replaceAt, hg]
        | PageTable => rw [replaceAt, hg]

/-- The DFS acquisition walk preserves the root's stray flag and lock
state (it only locks strictly deeper nodes). -/
theorem acquire_root_flags (C : PagingConsts) (n : PTNode) (b vs ve : Nat) :
    ((dfs_acquire_lock C n b vs ve).1).stray = n.stray ∧
    ((dfs_acquire_lock C n b vs ve).1).locked = n.locked := by
  cases n with
  | mk l st lk es =>
    by_cases hle : l ≤ 1
    · rw [dfs_acquire_lock_mk_low C l st lk es b vs ve hle]
      exact ⟨rfl, rfl⟩
    · rw [dfs_acquire_lock_mk_high C l st lk es b vs ve hle]
      exact ⟨rfl, rfl⟩

/-- A non-stray tree never makes the locator retry: `None` is returned
only after observing a stray flag on a locked node. -/
theorem tt_some_of_noStray (C : PagingConsts) (vs ve : Nat) :
    ∀ (cl : Nat) (t : PTNode) (g : Bool), noStray t = true →
      (try_traverse_and_lock_subtree_root C cl t g vs ve).2.isSome = true := by
  intro cl
  induction cl using Nat.strong_induction_on with
  | _ cl ih =>
    intro t g hst
    have hstray0 : t.stray = false := noStray_root hst
    have hng_stray : (if g then t else setLocked t true).stray = false := by
      cases g <;> simp [hstray0]
    by_cases hcond : 1 < cl ∧ pte_index C vs cl = pte_index C (ve - 1) cl
    · cases hg : t.entries[pte_index C vs cl]? with
      | none =>
        rw [tt_eq_absent C cl t g vs ve hcond (Or.inr hg) hng_stray]
        have hchild := ih (cl - 1) (by omega)
          (PTNode.mk (cl - 1) false true
            (List.replicate C.fanout Child.None)) true
          (by rw [noStray, Bool.and_eq_true]
              exact ⟨rfl, noStrayEntries_replicate _⟩)
        rcases Option.isSome_iff_exists.mp hchild with ⟨rp0, hrp0⟩
        rw [hrp0]
        rfl
      | some e =>
        cases e with
        | PageTableRef c =>
          rw [tt_eq_ref C cl t g vs ve c hcond hg]
          have hchild := ih (cl - 1) (by omega) c false
            (noStrayEntries_mem (noStray_entries hst)
              (List.getElem?_mem hg))
          rcases Option.isSome_iff_exists.mp hchild with ⟨rp0, hrp0⟩
          rw [hrp0]
          rfl
        | None =>
          rw [tt_eq_absent C cl t g vs ve hcond (Or.inl hg) hng_stray]
          have hchild := ih (cl - 1) (by omega)
            (PTNode.mk (cl - 1) false true
              (List.replicate C.fanout Child.None)) true
            (by rw [noStray, Bool.and_eq_true]
                exact ⟨rfl, noStrayEntries_replicate _⟩)
          rcases Option.isSome_iff_exists.mp hchild with ⟨rp0, hrp0⟩
          rw [hrp0]
          rfl
        | Frame =>
          rw [tt_eq_leaf C cl t g vs ve Child.Frame hcond hg (Or.inl rfl)]
          rw [hng_stray]
          simp
        | Untracked =>
          rw [tt_eq_leaf C cl t g vs ve Child.Untracked hcond hg
            (Or.inr (Or.inl rfl))]
          rw [hng_stray]
          simp
        | PageTable =>
          rw [tt_eq_leaf C cl t g vs ve Child.PageTable hcond hg
            (Or.inr (Or.inr rfl))]
          rw [hng_stray]
          simp
    · rw [tt_eq_break C cl t g vs ve hcond, hng_stray]
      simp

/-- Slot indices agree at every level above a level where the whole
quotients agree. -/
theorem pte_index_eq_of_div_eq (C : PagingConsts) (a1 a2 L M : Nat)
    (hM : L + 1 ≤ M)
    (h : a1 / page_size C (L + 1) = a2 / page_size C (L + 1)) :
    pte_index C a1 M = pte_index C a2 M := by
  have hps : page_size C M = page_size C (L + 1) * C.fanout ^ (M - 1 - L) := by
    unfold page_size
    rw [Nat.mul_assoc, ← pow_add]
    congr 2
    omega
  unfold pte_index
  rw [hps, ← Nat.div_div_eq_div_mul, ← Nat.div_div_eq_div_mul, h]


/-! ### Occurrence counting helpers -/

theorem countP_eq_one_of_nodup_mem :
    ∀ {l : List (List Nat)} {q : List Nat}, l.Nodup → q ∈ l →
      l.countP (fun s => decide (s = q)) = 1 := by
  intro l
  induction l with
  | nil => intro q _ hm; cases hm
  | cons a tl ih =>
    intro q hnd hm
    obtain ⟨hna, hndt⟩ := List.nodup_cons.mp hnd
    rw [List.countP_cons]
    rcases List.mem_cons.mp hm with he | hmt
    · subst he
      have hz : tl.countP (fun s => decide (s = q)) = 0 := by
        rw [List.countP_eq_zero]
        intro s hs
        simp only [decide_eq_true_eq]
        intro hsa
        exact hna (hsa ▸ hs)
      simp [hz]
    · have hne : a ≠ q := fun he => hna (he ▸ hmt)
      rw [ih hndt hmt]
      simp [hne]

theorem countP_eq_zero_of_not_mem {l : List (List Nat)} {q : List Nat}
    (h : q ∉ l) : l.countP (fun s => decide (s = q)) = 0 := by
  rw [List.countP_eq_zero]
  intro s hs
  simp only [decide_eq_true_eq]
  intro hsq
  exact h (hsq ▸ hs)

/-! ### Small bridges between `lockedAt` and `nodeAt` -/

theorem lockedAt_of_nodeAt {t n : PTNode} {q : List Nat}
    (h : nodeAt q t = some n) : lockedAt t q = n.locked := by
  unfold lockedAt
  rw [h]

theorem lockedAt_append {t m : PTNode} (p : List Nat) (s : List Nat)
    (h : nodeAt p t = some m) : lockedAt t (p ++ s) = lockedAt m s := by
  unfold lockedAt
  rw [nodeAt_append p t m s h]

theorem append_eq_self_iff (rp s : List Nat) : rp ++ s = rp ↔ s = [] := by
  constructor
  · intro h
    have h2 : rp ++ s = rp ++ [] := by rw [h, List.append_nil]
    exact List.append_cancel_left h2
  · intro h
    rw [h, List.append_nil]

/-! ### The locator packaged for composition with the DFS walkers -/

theorem locator_spec (C : PagingConsts)
    (hfan : 0 < C.fanout)
    (t : PTNode) (vs ve : Nat)
    (hwf : WFb C C.nr_levels t = true) (hst : noStray t = true)
    (hau : allUnlocked t = true) (hv : vs < ve)
    (hve : ve ≤ page_size C (C.nr_levels + 1)) :
    ∃ t1 rp sub,
      try_traverse_and_lock_subtree_root C C.nr_levels t false vs ve =
        (t1, some rp) ∧
      WFb C C.nr_levels t1 = true ∧
      noStray t1 = true ∧
      (∀ q, lockedAt t1 q = decide (q = rp)) ∧
      (∀ k, k < rp.length →
        rp[k]? = some (pte_index C vs (C.nr_levels - k))) ∧
      nodeAt rp t1 = some sub ∧
      sub.level = C.nr_levels - rp.length ∧
      1 ≤ sub.level ∧
      vs / page_size C (sub.level + 1) =
        (ve - 1) / page_size C (sub.level + 1) ∧
      vaOfPath C 0 C.nr_levels rp =
        vs / page_size C (sub.level + 1) * page_size C (sub.level + 1) ∧
      (sub.level = 1 ∨
        pte_index C vs sub.level ≠ pte_index C (ve - 1) sub.level ∨
        (∃ e, sub.entries[pte_index C vs sub.level]? = some e ∧
          (e = Child.Frame ∨ e = Child.Untracked))) := by
  have hvtop : vs < page_size C (C.nr_levels + 1) := lt_of_lt_of_le hv hve
  have hetop : ve - 1 < page_size C (C.nr_levels + 1) := by omega
  have hq0 : vs / page_size C (C.nr_levels + 1) =
      (ve - 1) / page_size C (C.nr_levels + 1) := by
    rw [Nat.div_eq_of_lt hvtop, Nat.div_eq_of_lt hetop]
  have hlk : ∀ q, lockedAt t q = (false && decide (q = [])) := by
    intro q
    simp [allUnlocked_lockedAt q t hau]
  obtain ⟨rp, hsome, hwf1, hst1, hlk1, hdig, sub, hsub, hlvl, hlvl1, hdiv,
    hva, hstop⟩ := tt_spec C hfan vs ve hv C.nr_levels t false hwf hst hlk hq0
  refine ⟨(try_traverse_and_lock_subtree_root C C.nr_levels t false vs ve).1,
    rp, sub, ?_, hwf1, hst1, hlk1, hdig, hsub, hlvl, hlvl1, hdiv, ?_, hstop⟩
  · rw [← hsome]
  · rw [← hva]
    have hz : vs / page_size C (C.nr_levels + 1) = 0 := Nat.div_eq_of_lt hvtop
    rw [hz, Nat.zero_mul]

/-- Unfolding `lock_range` once the locator outcome and the sub-tree root
lookup are known. -/
theorem lock_range_eq (C : PagingConsts) (t t1 : PTNode) (vs ve : Nat)
    (rp : List Nat) (sub : PTNode)
    (htt : try_traverse_and_lock_subtree_root C C.nr_levels t false vs ve =
      (t1, some rp))
    (hsub : nodeAt rp t1 = some sub) :
    lock_range C t vs ve =
      some (replaceAt rp t1
          (dfs_acquire_lock C sub
            (vs / page_size C (sub.level + 1) * page_size C (sub.level + 1))
            vs ve).1,
        { path := (List.range C.nr_levels).map
            (fun i => if i = sub.level - 1 then some rp else Option.none),
          guard_level := sub.level, barrier_vs := vs, barrier_ve := ve }) := by
  unfold lock_range
  rw [htt]
  dsimp only
  rw [hsub]

/-- Unfolding `unlock_range` once the stored guard path and its lookup
are known. -/
theorem unlock_range_eq (C : PagingConsts) (t2 : PTNode) (cur : Cursor)
    (rp : List Nat) (g : PTNode)
    (hpath : cur.path[cur.guard_level - 1]? = some (some rp))
    (hg : nodeAt rp t2 = some g) :
    unlock_range C t2 cur =
      (replaceAt rp t2 (dfs_release_lock C g
          (cur.barrier_vs / page_size C (cur.guard_level + 1) *
            page_size C (cur.guard_level + 1))
          cur.barrier_vs cur.barrier_ve).1,
        (dfs_release_lock C g
          (cur.barrier_vs / page_size C (cur.guard_level + 1) *
            page_size C (cur.guard_level + 1))
          cur.barrier_vs cur.barrier_ve).2.map (fun s => rp ++ s)) := by
  unfold unlock_range
  rw [hpath]
  dsimp only [Option.join, Option.bind, id]
  rw [hg]

/-- The per-level guard array built by `lock_range` stores the sub-tree
root guard at slot `guard_level - 1`. -/
theorem path_get_eq (C : PagingConsts) (rp : List Nat) (L : Nat)
    (hL1 : 1 ≤ L) (hLn : L ≤ C.nr_levels) :
    ((List.range C.nr_levels).map
      (fun i => if i = L - 1 then some rp else Option.none))[L - 1]? =
      some (some rp) := by
  rw [List.getElem?_map, List.getElem?_range (by omega : L - 1 < C.nr_levels)]
  simp

/-- Everything `lock_range` and the following `unlock_range` do, packaged:
the locator result, the cursor contents, the exact set of locks held, the
full release, and the exactly-once unlock count. -/
theorem lock_range_master (C : PagingConsts)
    (hbase : 0 < C.base_page_size) (hfan : 0 < C.fanout)
    (t : PTNode) (vs ve : Nat)
    (hwf : WFb C C.nr_levels t = true) (hst : noStray t = true)
    (hau : allUnlocked t = true) (hv : vs < ve)
    (hve : ve ≤ page_size C (C.nr_levels + 1)) :
    ∃ t2 cur rp,
      lock_range C t vs ve = some (t2, cur) ∧
      cur.guard_level = C.nr_levels - rp.length ∧
      1 ≤ cur.guard_level ∧
      cur.barrier_vs = vs ∧ cur.barrier_ve = ve ∧
      cur.path[cur.guard_level - 1]? = some (some rp) ∧
      (∀ i, i < C.nr_levels → i ≠ cur.guard_level - 1 →
        cur.path[i]? = some Option.none) ∧
      (∃ g, nodeAt rp t2 = some g ∧ g.level = cur.guard_level ∧
        g.stray = false ∧ g.locked = true) ∧
      (∀ q, lockedAt t2 q = true ↔
        (q = rp ∨ ∃ s, s ≠ [] ∧ q = rp ++ s ∧
          (nodeAt q t2).isSome = true ∧
          coverIntersects C 0 C.nr_levels q vs ve)) ∧
      (∀ q, lockedAt (unlock_range C t2 cur).1 q = false) ∧
      (∀ q, (unlock_range C t2 cur).2.countP (fun s => decide (s = q)) =
        if lockedAt t2 q = true then 1 else 0) := by
  obtain ⟨t1, rp, sub, htt, hwf1, hst1, hlk1, hdig, hsub, hlvl, hlvl1, hdiv,
    hva, hstop⟩ := locator_spec C hfan t vs ve hwf hst hau hv hve
  have hpsp : 0 < page_size C (sub.level + 1) := page_size_pos C hbase hfan _
  have hBle : vs / page_size C (sub.level + 1) * page_size C (sub.level + 1)
      ≤ vs := div_mul_le _ _
  have hveB : ve ≤ vs / page_size C (sub.level + 1) *
      page_size C (sub.level + 1) + page_size C (sub.level + 1) :=
    range_in_node C (page_size C (sub.level + 1)) vs ve hpsp hv hdiv
  have hwfsub : WFb C sub.level sub = true := by
    rw [hlvl]
    exact WFb_nodeAt C rp t1 sub C.nr_levels hwf1 hsub
  obtain ⟨A1, A2, A3, A4, A5⟩ :=
    dfs_acquire_lock_spec C hbase hfan sub sub.level
      (vs / page_size C (sub.level + 1) * page_size C (sub.level + 1))
      vs ve hwfsub hBle hv hveB
  obtain ⟨R1, R2, R3, R4⟩ :=
    dfs_release_lock_spec C hbase hfan
      (dfs_acquire_lock C sub
        (vs / page_size C (sub.level + 1) * page_size C (sub.level + 1))
        vs ve).1 sub.level
      (vs / page_size C (sub.level + 1) * page_size C (sub.level + 1))
      vs ve A5 hBle hv hveB
  have hLn : sub.level ≤ C.nr_levels := by omega
  have hlock := lock_range_eq C t t1 vs ve rp sub htt hsub
  have hpath := path_get_eq C rp sub.level hlvl1 hLn
  have hpathnone : ∀ i, i < C.nr_levels → i ≠ sub.level - 1 →
      ((List.range C.nr_levels).map
        (fun i => if i = sub.level - 1 then some rp else Option.none))[i]? =
        some Option.none := by
    intro i hi hne
    rw [List.getElem?_map, List.getElem?_range hi]
    simp [hne]
  have hgraft : nodeAt rp (replaceAt rp t1
      (dfs_acquire_lock C sub
        (vs / page_size C (sub.level + 1) * page_size C (sub.level + 1))
        vs ve).1) = some
      (dfs_acquire_lock C sub
        (vs / page_size C (sub.level + 1) * page_size C (sub.level + 1))
        vs ve).1 := by
    have h := nodeAt_replaceAt_append rp t1 sub
      (dfs_acquire_lock C sub
        (vs / page_size C (sub.level + 1) * page_size C (sub.level + 1))
        vs ve).1 [] hsub
    rw [List.append_nil] at h
    rw [h]
    rfl
  -- flags of the acquired sub-tree root
  have hflags := acquire_root_flags C sub
    (vs / page_size C (sub.level + 1) * page_size C (sub.level + 1)) vs ve
  have hsub_stray : sub.stray = false :=
    noStray_root (noStray_nodeAt rp t1 sub hst1 hsub)
  have hsub_locked : sub.locked = true := by
    have h1 := hlk1 rp
    rw [lockedAt_of_nodeAt hsub] at h1
    simpa using h1
  have hPlevel : ((dfs_acquire_lock C sub
      (vs / page_size C (sub.level + 1) * page_size C (sub.level + 1))
      vs ve).1).level = sub.level := WFb_level A5
  -- the lock set of the grafted tree, in sub-tree coordinates
  have hsubloc : ∀ s, lockedAt sub s = decide (s = []) := by
    intro s
    have h1 := lockedAt_append rp s hsub
    rw [hlk1 (rp ++ s)] at h1
    rw [← h1]
    exact decide_eq_decide.mpr (append_eq_self_iff rp s)
  have hlocP : ∀ s, lockedAt (dfs_acquire_lock C sub
      (vs / page_size C (sub.level + 1) * page_size C (sub.level + 1))
      vs ve).1 s = (decide (s = []) ||
        decide (s ∈ (dfs_acquire_lock C sub
          (vs / page_size C (sub.level + 1) * page_size C (sub.level + 1))
          vs ve).2)) := by
    intro s
    rw [A2 s, hsubloc s]
  have hT2in : ∀ s, lockedAt (replaceAt rp t1
      (dfs_acquire_lock C sub
        (vs / page_size C (sub.level + 1) * page_size C (sub.level + 1))
        vs ve).1) (rp ++ s) = (decide (s = []) ||
        decide (s ∈ (dfs_acquire_lock C sub
          (vs / page_size C (sub.level + 1) * page_size C (sub.level + 1))
          vs ve).2)) := by
    intro s
    rw [lockedAt_replaceAt_append rp t1 sub _ s hsub]
    exact hlocP s
  have hT2out : ∀ q, (∀ s, q ≠ rp ++ s) → lockedAt (replaceAt rp t1
      (dfs_acquire_lock C sub
        (vs / page_size C (sub.level + 1) * page_size C (sub.level + 1))
        vs ve).1) q = false := by
    intro q hq
    rw [lockedAt_replaceAt_outside rp t1 _ q hq, hlk1 q]
    have : q ≠ rp := by
      intro h
      exact hq [] (by rw [h, List.append_nil])
    simp [this]
  -- membership in the acquire trace in whole-tree coordinates
  have hsomeT2 : ∀ s, (nodeAt (rp ++ s) (replaceAt rp t1
      (dfs_acquire_lock C sub
        (vs / page_size C (sub.level + 1) * page_size C (sub.level + 1))
        vs ve).1)).isSome = (nodeAt s sub).isSome := by
    intro s
    rw [nodeAt_replaceAt_append rp t1 sub _ s hsub]
    exact A1 s
  have hvap : ∀ s : List Nat, vaOfPath C 0 C.nr_levels (rp ++ s) =
      vaOfPath C
        (vs / page_size C (sub.level + 1) * page_size C (sub.level + 1))
        sub.level s := by
    intro s
    rw [vaOfPath_append C rp 0 C.nr_levels s, hva, ← hlvl]
  have hlenq : ∀ s : List Nat,
      C.nr_levels - (rp ++ s).length = sub.level - s.length := by
    intro s
    rw [List.length_append]
    omega
  have hmemA : ∀ s, s ∈ (dfs_acquire_lock C sub
      (vs / page_size C (sub.level + 1) * page_size C (sub.level + 1))
      vs ve).2 ↔
      (s ≠ [] ∧ (nodeAt (rp ++ s) (replaceAt rp t1
        (dfs_acquire_lock C sub
          (vs / page_size C (sub.level + 1) * page_size C (sub.level + 1))
          vs ve).1)).isSome = true ∧
        coverIntersects C 0 C.nr_levels (rp ++ s) vs ve) := by
    intro s
    rw [A3 s]
    unfold coverIntersects
    rw [hsomeT2 s, hvap s, hlenq s]
  refine ⟨replaceAt rp t1 (dfs_acquire_lock C sub
      (vs / page_size C (sub.level + 1) * page_size C (sub.level + 1))
      vs ve).1,
    { path := (List.range C.nr_levels).map
        (fun i => if i = sub.level - 1 then some rp else Option.none),
      guard_level := sub.level, barrier_vs := vs, barrier_ve := ve },
    rp, hlock, hlvl, hlvl1, rfl, rfl, hpath, hpathnone,
    ⟨(dfs_acquire_lock C sub
        (vs / page_size C (sub.level + 1) * page_size C (sub.level + 1))
        vs ve).1, hgraft, hPlevel, by rw [hflags.1, hsub_stray],
      by rw [hflags.2, hsub_locked]⟩,
    ?_, ?_, ?_⟩
  · -- the coverage characterisation of the lock set
    intro q
    by_cases hex : ∃ s, q = rp ++ s
    · obtain ⟨s, rfl⟩ := hex
      rw [hT2in s]
      simp only [Bool.or_eq_true, decide_eq_true_eq]
      constructor
      · rintro (hnil | hmem)
        · exact Or.inl (by rw [hnil, List.append_nil])
        · obtain ⟨hne, hsome2, hcov⟩ := (hmemA s).mp hmem
          exact Or.inr ⟨s, hne, rfl, hsome2, hcov⟩
      · rintro (heq | ⟨s2, hne2, heq2, hsome2, hcov2⟩)
        · exact Or.inl ((append_eq_self_iff rp s).mp heq)
        · have hs2 : s2 = s := (List.append_cancel_left heq2.symm)
          subst hs2
          exact Or.inr ((hmemA s2).mpr ⟨hne2, hsome2, hcov2⟩)
    · push_neg at hex
      rw [hT2out q hex]
      simp only [Bool.false_eq_true, false_iff]
      rintro (heq | ⟨s2, _, heq2, _, _⟩)
      · exact hex [] (by rw [heq, List.append_nil])
      · exact hex s2 heq2
  · -- every lock is released by unlock_range
    intro q
    have hunl := unlock_range_eq C
      (replaceAt rp t1 (dfs_acquire_lock C sub
        (vs / page_size C (sub.level + 1) * page_size C (sub.level + 1))
        vs ve).1)
      { path := (List.range C.nr_levels).map
          (fun i => if i = sub.level - 1 then some rp else Option.none),
        guard_level := sub.level, barrier_vs := vs, barrier_ve := ve }
      rp _ hpath hgraft
    rw [hunl]
    dsimp only
    by_cases hex : ∃ s, q = rp ++ s
    · obtain ⟨s, rfl⟩ := hex
      rw [lockedAt_replaceAt_append rp
        (replaceAt rp t1 (dfs_acquire_lock C sub
          (vs / page_size C (sub.level + 1) * page_size C (sub.level + 1))
          vs ve).1) _ _ s hgraft]
      rw [R2 s]
      cases hPl : lockedAt (dfs_acquire_lock C sub
          (vs / page_size C (sub.level + 1) * page_size C (sub.level + 1))
          vs ve).1 s with
      | false => rfl
      | true =>
        have hmem : s ∈ (dfs_release_lock C (dfs_acquire_lock C sub
            (vs / page_size C (sub.level + 1) * page_size C (sub.level + 1))
            vs ve).1
            (vs / page_size C (sub.level + 1) * page_size C (sub.level + 1))
            vs ve).2 := by
          rw [hlocP s] at hPl
          rcases Bool.or_eq_true_iff.mp hPl with hnil | hmem2
          · exact (R3 s).mpr (Or.inl (by simpa using hnil))
          · have hmem3 := (A3 s).mp (by simpa using hmem2)
            refine (R3 s).mpr (Or.inr ⟨?_, hmem3.2.2.1, hmem3.2.2.2⟩)
            rw [A1 s]
            exact hmem3.2.1
        simp [hmem]
    · push_neg at hex
      rw [lockedAt_replaceAt_outside rp _ _ q hex]
      exact hT2out q hex
  · -- each held lock is released exactly once
    intro q
    have hunl := unlock_range_eq C
      (replaceAt rp t1 (dfs_acquire_lock C sub
        (vs / page_size C (sub.level + 1) * page_size C (sub.level + 1))
        vs ve).1)
      { path := (List.range C.nr_levels).map
          (fun i => if i = sub.level - 1 then some rp else Option.none),
        guard_level := sub.level, barrier_vs := vs, barrier_ve := ve }
      rp _ hpath hgraft
    rw [hunl]
    dsimp only
    have htrace := release_after_acquire_trace C sub
      (vs / page_size C (sub.level + 1) * page_size C (sub.level + 1)) vs ve
    have hnil_notin : [] ∉ (dfs_acquire_lock C sub
        (vs / page_size C (sub.level + 1) * page_size C (sub.level + 1))
        vs ve).2 := by
      intro hmem
      exact ((A3 []).mp hmem).1 rfl
    have hnodupR : (dfs_release_lock C (dfs_acquire_lock C sub
        (vs / page_size C (sub.level + 1) * page_size C (sub.level + 1))
        vs ve).1
        (vs / page_size C (sub.level + 1) * page_size C (sub.level + 1))
        vs ve).2.Nodup := by
      rw [htrace]
      exact List.nodup_reverse.mpr
        (List.nodup_cons.mpr ⟨hnil_notin, pairwise_lex_nodup A4⟩)
    have hmemR : ∀ s, s ∈ (dfs_release_lock C (dfs_acquire_lock C sub
        (vs / page_size C (sub.level + 1) * page_size C (sub.level + 1))
        vs ve).1
        (vs / page_size C (sub.level + 1) * page_size C (sub.level + 1))
        vs ve).2 ↔ (s = [] ∨ s ∈ (dfs_acquire_lock C sub
          (vs / page_size C (sub.level + 1) * page_size C (sub.level + 1))
          vs ve).2) := by
      intro s
      rw [htrace, List.mem_reverse, List.mem_cons]
    have hnodup_evs : ((dfs_release_lock C (dfs_acquire_lock C sub
        (vs / page_size C (sub.level + 1) * page_size C (sub.level + 1))
        vs ve).1
        (vs / page_size C (sub.level + 1) * page_size C (sub.level + 1))
        vs ve).2.map (fun s => rp ++ s)).Nodup :=
      hnodupR.map (fun _ _ hab => List.append_cancel_left hab)
    by_cases hq : lockedAt (replaceAt rp t1 (dfs_acquire_lock C sub
        (vs / page_size C (sub.level + 1) * page_size C (sub.level + 1))
        vs ve).1) q = true
    · rw [if_pos hq]
      -- q is a held lock: it appears in the unlock events
      have hqmem : q ∈ (dfs_release_lock C (dfs_acquire_lock C sub
          (vs / page_size C (sub.level + 1) * page_size C (sub.level + 1))
          vs ve).1
          (vs / page_size C (sub.level + 1) * page_size C (sub.level + 1))
          vs ve).2.map (fun s => rp ++ s) := by
        by_cases hex : ∃ s, q = rp ++ s
        · obtain ⟨s, rfl⟩ := hex
          rw [hT2in s] at hq
          rcases Bool.or_eq_true_iff.mp hq with hnil | hmem2
          · refine List.mem_map.mpr ⟨s, ?_, rfl⟩
            exact (hmemR s).mpr (Or.inl (by simpa using hnil))
          · refine List.mem_map.mpr ⟨s, ?_, rfl⟩
            exact (hmemR s).mpr (Or.inr (by simpa using hmem2))
        · push_neg at hex
          rw [hT2out q hex] at hq
          cases hq
      exact countP_eq_one_of_nodup_mem hnodup_evs hqmem
    · rw [if_neg hq]
      refine countP_eq_zero_of_not_mem ?_
      intro hqmem
      obtain ⟨s, hsR, rfl⟩ := List.mem_map.mp hqmem
      rcases (hmemR s).mp hsR with hnil | hmem2
      · subst hnil
        rw [hT2in []] at hq
        simp at hq
      · rw [hT2in s] at hq
        simp [hmem2] at hq

/-! ### C1: `dfs_mark_stray_and_unlock` does not reach the children -/

/-- A locked, non-stray level-1 child node with empty slots. -/
def c1Child : PTNode := .mk 1 false true [.None, .None]

/-- A locked, non-stray level-2 sub-tree root whose slot 0 references
`c1Child`: the shape of a just-unlinked sub-tree with every node locked
and every guard forgotten, as required by `dfs_mark_stray_and_unlock`. -/
def c1Root : PTNode := .mk 2 false true [.PageTableRef c1Child, .None]

/-- C1: evaluating `dfs_mark_stray_and_unlock` on the locked two-node
sub-tree `c1Root` shows the claim fails on the code: because the source
returns early when `sub_tree.level() > 1`, only the root is marked stray
and unlocked, while the child node at slot 0 keeps `stray == false` and
stays locked.  This contradicts the function's own documentation
(`Marks all the nodes in the sub-tree rooted at the node as stray. ...
This function also unlocks the nodes in the sub-tree.`), so the code, not
the claim, is wrong. -/
theorem dfs_mark_stray_leaves_child_locked_unmarked :
    strayAt (dfs_mark_stray_and_unlock ⟨4, 2, 2⟩ c1Root) [] = true ∧
    lockedAt (dfs_mark_stray_and_unlock ⟨4, 2, 2⟩ c1Root) [] = false ∧
    strayAt (dfs_mark_stray_and_unlock ⟨4, 2, 2⟩ c1Root) [0] = false ∧
    lockedAt (dfs_mark_stray_and_unlock ⟨4, 2, 2⟩ c1Root) [0] = true := by
  refine ⟨?_, ?_, ?_, ?_⟩ <;>
    simp [dfs_mark_stray_and_unlock, c1Root, c1Child, strayAt, lockedAt,
      nodeAt, PTNode.entries, PTNode.stray, PTNode.locked]

/-! ### C4: the locator stops at the shallowest valid level -/

/-- C4: for a non-empty range, the node that
`try_traverse_and_lock_subtree_root` locks and returns is reached by
following, from the root, the slot index of the start address at each
level; descent continued exactly while the start and (inclusive) end
addresses shared the slot index — so at every level above the returned
node both ends still map to the same slot — and it stopped because either
the node is at level 1, or descending further would make the range span
two children (slot indices differ at the node's level), or the next entry
is a leaf mapping (`Frame`/`Untracked`).  The returned node is the only
locked node. -/
theorem try_traverse_stops_at_shallowest_valid_level (C : PagingConsts)
    (t : PTNode) (vs ve : Nat)
    (hfan : 0 < C.fanout)
    (hwf : WFb C C.nr_levels t = true) (hst : noStray t = true)
    (hau : allUnlocked t = true) (hv : vs < ve)
    (hve : ve ≤ page_size C (C.nr_levels + 1)) :
    ∃ t1 rp sub,
      try_traverse_and_lock_subtree_root C C.nr_levels t false vs ve =
        (t1, some rp) ∧
      nodeAt rp t1 = some sub ∧
      sub.locked = true ∧
      (∀ q, lockedAt t1 q = decide (q = rp)) ∧
      sub.level = C.nr_levels - rp.length ∧
      1 ≤ sub.level ∧
      (∀ k, k < rp.length →
        rp[k]? = some (pte_index C vs (C.nr_levels - k))) ∧
      (∀ M, sub.level < M → pte_index C vs M = pte_index C (ve - 1) M) ∧
      (sub.level = 1 ∨
        pte_index C vs sub.level ≠ pte_index C (ve - 1) sub.level ∨
        (∃ e, sub.entries[pte_index C vs sub.level]? = some e ∧
          (e = Child.Frame ∨ e = Child.Untracked))) := by
  obtain ⟨t1, rp, sub, htt, hwf1, hst1, hlk1, hdig, hsub, hlvl, hlvl1, hdiv,
    hva, hstop⟩ := locator_spec C hfan t vs ve hwf hst hau hv hve
  refine ⟨t1, rp, sub, htt, hsub, ?_, hlk1, hlvl, hlvl1, hdig, ?_, hstop⟩
  · have h1 := hlk1 rp
    rw [lockedAt_of_nodeAt hsub] at h1
    simpa using h1
  · intro M hM
    exact pte_index_eq_of_div_eq C vs (ve - 1) sub.level M (by omega) hdiv

/-- C4 witness: the theorem applied at a concrete input. -/
theorem try_traverse_stops_at_shallowest_valid_level_witness :
    ((0:Nat) < 2 ∧
      WFb ⟨4, 2, 2⟩ 2 (.mk 2 false false
        [.PageTableRef (.mk 1 false false [.None, .None]), .None]) = true ∧
      noStray (.mk 2 false false
        [.PageTableRef (.mk 1 false false [.None, .None]), .None] :
          PTNode) = true ∧
      allUnlocked (.mk 2 false false
        [.PageTableRef (.mk 1 false false [.None, .None]), .None] :
          PTNode) = true ∧
      (0:Nat) < 16 ∧ (16:Nat) ≤ page_size ⟨4, 2, 2⟩ (2 + 1)) ∧
    (∃ t1 rp sub,
      try_traverse_and_lock_subtree_root ⟨4, 2, 2⟩ 2 (.mk 2 false false
        [.PageTableRef (.mk 1 false false [.None, .None]), .None])
        false 0 16 = (t1, some rp) ∧
      nodeAt rp t1 = some sub ∧
      sub.locked = true ∧
      (∀ q, lockedAt t1 q = decide (q = rp)) ∧
      sub.level = 2 - rp.length ∧
      1 ≤ sub.level ∧
      (∀ k, k < rp.length →
        rp[k]? = some (pte_index ⟨4, 2, 2⟩ 0 (2 - k))) ∧
      (∀ M, sub.level < M →
        pte_index ⟨4, 2, 2⟩ 0 M = pte_index ⟨4, 2, 2⟩ (16 - 1) M) ∧
      (sub.level = 1 ∨
        pte_index ⟨4, 2, 2⟩ 0 sub.level ≠
          pte_index ⟨4, 2, 2⟩ (16 - 1) sub.level ∨
        (∃ e, sub.entries[pte_index ⟨4, 2, 2⟩ 0 sub.level]? = some e ∧
          (e = Child.Frame ∨ e = Child.Untracked)))) :=
  ⟨⟨by decide, by decide, by decide, by decide, by decide, by decide⟩,
    try_traverse_stops_at_shallowest_valid_level ⟨4, 2, 2⟩ (.mk 2 false false
      [.PageTableRef (.mk 1 false false [.None, .None]), .None]) 0 16
      (by decide) (by decide) (by decide) (by decide) (by decide)
      (by decide)⟩

/-! ### C2: the cursor holds exactly the intersecting sub-tree -/

/-- C2: for a non-empty range inside the root's coverage, `lock_range`
returns a cursor storing the sub-tree root guard at `path[guard_level-1]`,
and the set of locked nodes in the resulting tree is exactly the sub-tree
root found by the locator together with every existing proper descendant
whose single-level coverage intersects the range: no other node is
locked, and none of these is left unlocked. -/
theorem lock_range_coverage_exact (C : PagingConsts) (t : PTNode)
    (vs ve : Nat)
    (hbase : 0 < C.base_page_size) (hfan : 0 < C.fanout)
    (hwf : WFb C C.nr_levels t = true) (hst : noStray t = true)
    (hau : allUnlocked t = true) (hv : vs < ve)
    (hve : ve ≤ page_size C (C.nr_levels + 1)) :
    ∃ t2 cur rp,
      lock_range C t vs ve = some (t2, cur) ∧
      cur.path[cur.guard_level - 1]? = some (some rp) ∧
      cur.guard_level = C.nr_levels - rp.length ∧
      (∀ q, lockedAt t2 q = true ↔
        (q = rp ∨ ∃ s, s ≠ [] ∧ q = rp ++ s ∧
          (nodeAt q t2).isSome = true ∧
          coverIntersects C 0 C.nr_levels q vs ve)) := by
  obtain ⟨t2, cur, rp, hlock, hGL, _, _, _, hpath, _, _, hchar, _, _⟩ :=
    lock_range_master C hbase hfan t vs ve hwf hst hau hv hve
  exact ⟨t2, cur, rp, hlock, hpath, hGL, hchar⟩

/-- C2 witness: the theorem applied at a concrete input. -/
theorem lock_range_coverage_exact_witness :
    ((0:Nat) < 4 ∧ (0:Nat) < 2 ∧
      WFb ⟨4, 2, 2⟩ 2 (.mk 2 false false
        [.PageTableRef (.mk 1 false false [.None, .None]), .None]) = true ∧
      noStray (.mk 2 false false
        [.PageTableRef (.mk 1 false false [.None, .None]), .None] :
          PTNode) = true ∧
      allUnlocked (.mk 2 false false
        [.PageTableRef (.mk 1 false false [.None, .None]), .None] :
          PTNode) = true ∧
      (0:Nat) < 16 ∧ (16:Nat) ≤ page_size ⟨4, 2, 2⟩ (2 + 1)) ∧
    (∃ t2 cur rp,
      lock_range ⟨4, 2, 2⟩ (.mk 2 false false
        [.PageTableRef (.mk 1 false false [.None, .None]), .None]) 0 16 =
        some (t2, cur) ∧
      cur.path[cur.guard_level - 1]? = some (some rp) ∧
      cur.guard_level = 2 - rp.length ∧
      (∀ q, lockedAt t2 q = true ↔
        (q = rp ∨ ∃ s, s ≠ [] ∧ q = rp ++ s ∧
          (nodeAt q t2).isSome = true ∧
          coverIntersects ⟨4, 2, 2⟩ 0 2 q 0 16))) :=
  ⟨⟨by decide, by decide, by decide, by decide, by decide, by decide,
      by decide⟩,
    lock_range_coverage_exact ⟨4, 2, 2⟩ (.mk 2 false false
      [.PageTableRef (.mk 1 false false [.None, .None]), .None]) 0 16
      (by decide) (by decide) (by decide) (by decide) (by decide)
      (by decide) (by decide)⟩

/-! ### C3: unlock after lock restores the lock state -/

/-- C3: running `unlock_range` on the cursor produced by `lock_range`
releases every lock the lock operation acquired: afterwards no node of
the tree is locked, and since the tree was fully unlocked before
`lock_range`, every node's lock state equals what it was before the
round trip. -/
theorem unlock_range_after_lock_range_roundtrip (C : PagingConsts)
    (t : PTNode) (vs ve : Nat)
    (hbase : 0 < C.base_page_size) (hfan : 0 < C.fanout)
    (hwf : WFb C C.nr_levels t = true) (hst : noStray t = true)
    (hau : allUnlocked t = true) (hv : vs < ve)
    (hve : ve ≤ page_size C (C.nr_levels + 1)) :
    ∃ t2 cur,
      lock_range C t vs ve = some (t2, cur) ∧
      (∀ q, lockedAt (unlock_range C t2 cur).1 q = false) ∧
      (∀ q, lockedAt (unlock_range C t2 cur).1 q = lockedAt t q) := by
  obtain ⟨t2, cur, rp, hlock, _, _, _, _, _, _, _, _, hrel, _⟩ :=
    lock_range_master C hbase hfan t vs ve hwf hst hau hv hve
  refine ⟨t2, cur, hlock, hrel, fun q => ?_⟩
  rw [hrel q, allUnlocked_lockedAt q t hau]

/-- C3 witness: the theorem applied at a concrete input. -/
theorem unlock_range_after_lock_range_roundtrip_witness :
    ((0:Nat) < 4 ∧ (0:Nat) < 2 ∧
      WFb ⟨4, 2, 2⟩ 2 (.mk 2 false false
        [.PageTableRef (.mk 1 false false [.None, .None]), .None]) = true ∧
      noStray (.mk 2 false false
        [.PageTableRef (.mk 1 false false [.None, .None]), .None] :
          PTNode) = true ∧
      allUnlocked (.mk 2 false false
        [.PageTableRef (.mk 1 false false [.None, .None]), .None] :
          PTNode) = true ∧
      (0:Nat) < 16 ∧ (16:Nat) ≤ page_size ⟨4, 2, 2⟩ (2 + 1)) ∧
    (∃ t2 cur,
      lock_range ⟨4, 2, 2⟩ (.mk 2 false false
        [.PageTableRef (.mk 1 false false [.None, .None]), .None]) 0 16 =
        some (t2, cur) ∧
      (∀ q, lockedAt (unlock_range ⟨4, 2, 2⟩ t2 cur).1 q = false) ∧
      (∀ q, lockedAt (unlock_range ⟨4, 2, 2⟩ t2 cur).1 q =
        lockedAt (.mk 2 false false
          [.PageTableRef (.mk 1 false false [.None, .None]), .None] :
            PTNode) q)) :=
  ⟨⟨by decide, by decide, by decide, by decide, by decide, by decide,
      by decide⟩,
    unlock_range_after_lock_range_roundtrip ⟨4, 2, 2⟩ (.mk 2 false false
      [.PageTableRef (.mk 1 false false [.None, .None]), .None]) 0 16
      (by decide) (by decide) (by decide) (by decide) (by decide)
      (by decide) (by decide)⟩

/-! ### C7: only a non-stray locked root yields a cursor -/

/-- C7: the locator returns `None` (making `lock_range` retry) only upon
observing a stray flag — on a tree with no stray node it always succeeds
— and under a stray-free tree `lock_range` returns a cursor whose guard
node is locked and not stray. -/
theorem lock_range_only_nonstray_locked_root (C : PagingConsts)
    (t : PTNode) (vs ve : Nat)
    (hbase : 0 < C.base_page_size) (hfan : 0 < C.fanout)
    (hwf : WFb C C.nr_levels t = true) (hst : noStray t = true)
    (hau : allUnlocked t = true) (hv : vs < ve)
    (hve : ve ≤ page_size C (C.nr_levels + 1)) :
    (∀ (cl : Nat) (u : PTNode) (g : Bool), noStray u = true →
      (try_traverse_and_lock_subtree_root C cl u g vs ve).2.isSome =
        true) ∧
    (∃ t2 cur rp g, lock_range C t vs ve = some (t2, cur) ∧
      cur.path[cur.guard_level - 1]? = some (some rp) ∧
      nodeAt rp t2 = some g ∧ g.stray = false ∧ g.locked = true) := by
  refine ⟨fun cl u g hstu => tt_some_of_noStray C vs ve cl u g hstu, ?_⟩
  obtain ⟨t2, cur, rp, hlock, _, _, _, _, hpath, _,
    ⟨g, hg, _, hgstray, hglocked⟩, _, _, _⟩ :=
    lock_range_master C hbase hfan t vs ve hwf hst hau hv hve
  exact ⟨t2, cur, rp, g, hlock, hpath, hg, hgstray, hglocked⟩

/-- C7 witness: the theorem applied at a concrete input. -/
theorem lock_range_only_nonstray_locked_root_witness :
    ((0:Nat) < 4 ∧ (0:Nat) < 2 ∧
      WFb ⟨4, 2, 2⟩ 2 (.mk 2 false false
        [.PageTableRef (.mk 1 false false [.None, .None]), .None]) = true ∧
      noStray (.mk 2 false false
        [.PageTableRef (.mk 1 false false [.None, .None]), .None] :
          PTNode) = true ∧
      allUnlocked (.mk 2 false false
        [.PageTableRef (.mk 1 false false [.None, .None]), .None] :
          PTNode) = true ∧
      (0:Nat) < 16 ∧ (16:Nat) ≤ page_size ⟨4, 2, 2⟩ (2 + 1)) ∧
    ((∀ (cl : Nat) (u : PTNode) (g : Bool), noStray u = true →
      (try_traverse_and_lock_subtree_root ⟨4, 2, 2⟩ cl u g 0 16).2.isSome =
        true) ∧
    (∃ t2 cur rp g, lock_range ⟨4, 2, 2⟩ (.mk 2 false false
        [.PageTableRef (.mk 1 false false [.None, .None]), .None]) 0 16 =
        some (t2, cur) ∧
      cur.path[cur.guard_level - 1]? = some (some rp) ∧
      nodeAt rp t2 = some g ∧ g.stray = false ∧ g.locked = true)) :=
  ⟨⟨by decide, by decide, by decide, by decide, by decide, by decide,
      by decide⟩,
    lock_range_only_nonstray_locked_root ⟨4, 2, 2⟩ (.mk 2 false false
      [.PageTableRef (.mk 1 false false [.None, .None]), .None]) 0 16
      (by decide) (by decide) (by decide) (by decide) (by decide)
      (by decide) (by decide)⟩

/-! ### C10: each lock is released exactly once -/

/-- C10: the cursor built by `lock_range` stores no guard in any
`path` slot strictly below the guard level (so the forget loop of
`unlock_range` has nothing to release there), and the unlock events of
`unlock_range` release each node locked by the cursor exactly once: a
locked node appears exactly once in the unlock trace, an unlocked node
never. -/
theorem unlock_range_releases_each_lock_exactly_once (C : PagingConsts)
    (t : PTNode) (vs ve : Nat)
    (hbase : 0 < C.base_page_size) (hfan : 0 < C.fanout)
    (hwf : WFb C C.nr_levels t = true) (hst : noStray t = true)
    (hau : allUnlocked t = true) (hv : vs < ve)
    (hve : ve ≤ page_size C (C.nr_levels + 1)) :
    ∃ t2 cur,
      lock_range C t vs ve = some (t2, cur) ∧
      (∀ i, i < C.nr_levels → i ≠ cur.guard_level - 1 →
        cur.path[i]? = some Option.none) ∧
      (∀ q, (unlock_range C t2 cur).2.countP (fun s => decide (s = q)) =
        if lockedAt t2 q = true then 1 else 0) := by
  obtain ⟨t2, cur, rp, hlock, _, _, _, _, _, hpathnone, _, _, _, hcount⟩ :=
    lock_range_master C hbase hfan t vs ve hwf hst hau hv hve
  exact ⟨t2, cur, hlock, hpathnone, hcount⟩

/-- C10 witness: the theorem applied at a concrete input. -/
theorem unlock_range_releases_each_lock_exactly_once_witness :
    ((0:Nat) < 4 ∧ (0:Nat) < 2 ∧
      WFb ⟨4, 2, 2⟩ 2 (.mk 2 false false
        [.PageTableRef (.mk 1 false false [.None, .None]), .None]) = true ∧
      noStray (.mk 2 false false
        [.PageTableRef (.mk 1 false false [.None, .None]), .None] :
          PTNode) = true ∧
      allUnlocked (.mk 2 false false
        [.PageTableRef (.mk 1 false false [.None, .None]), .None] :
          PTNode) = true ∧
      (0:Nat) < 16 ∧ (16:Nat) ≤ page_size ⟨4, 2, 2⟩ (2 + 1)) ∧
    (∃ t2 cur,
      lock_range ⟨4, 2, 2⟩ (.mk 2 false false
        [.PageTableRef (.mk 1 false false [.None, .None]), .None]) 0 16 =
        some (t2, cur) ∧
      (∀ i, i < 2 → i ≠ cur.guard_level - 1 →
        cur.path[i]? = some Option.none) ∧
      (∀ q, (unlock_range ⟨4, 2, 2⟩ t2 cur).2.countP
          (fun s => decide (s = q)) =
        if lockedAt t2 q = true then 1 else 0)) :=
  ⟨⟨by decide, by decide, by decide, by decide, by decide, by decide,
      by decide⟩,
    unlock_range_releases_each_lock_exactly_once ⟨4, 2, 2⟩ (.mk 2 false false
      [.PageTableRef (.mk 1 false false [.None, .None]), .None]) 0 16
      (by decide) (by decide) (by decide) (by decide) (by decide)
      (by decide) (by decide)⟩

end AsterinasPT
